import Mathlib

/-!
Verification of the cozy synthesis core (sanidhya/cozy).

This file gives a shallow embedding of the parts of the code that the
claims C1..C10 are about:

  * the expression / statement / type IR of cozy/syntax.py and
    cozy/target_syntax.py (`Ty`, `Exp`, `Stm`);
  * free variables, capture-avoiding substitution, alpha-equivalence and
    fragment enumeration from cozy/syntax_tools.py;
  * the expression type checker of cozy/typecheck.py;
  * the validating simplifier wrapper of cozy/simplification.py;
  * fresh-name generation from cozy/common.py;
  * the Implementation state machine (set_impl, cleanup) of
    cozy/synthesis/impls.py.

Modelling conventions:

  * Python ADT equality (cozy.common.ADT.__eq__) compares the `children()`
    tuples and ignores the out-of-band `.type` annotation; the embedding
    therefore represents expressions untyped, and variables by their `id`
    string.  Where an algorithm reads `.type` (the dedup check in
    `set_impl`) the type is carried as explicit data next to the
    expression.
  * Iterative work-stack traversals are rendered as structural recursion
    computing the same result.
  * Code that can raise (`NotImplementedError` in `free_vars` and `subst`,
    the `typechecked` assertion in `alpha_equivalent`, missing-attribute
    errors in the type checker) is modelled with `Except Unit`.
  * Python while-loops whose termination relies on the freshness of
    minted names are given an explicit fuel argument; fuel exhaustion is
    an `Except` error.  The claims below never exercise paths where the
    supplied fuel is insufficient.
  * The expression constructors ENative, EEnumToInt, EBoolToInt, EStm,
    EVectorGet and EMakeMap, and the statements SWhile, SEscapableBlock
    and SEscapeBlock, are omitted; no claim mentions them and no claim
    below depends on their presence.
-/

set_option maxHeartbeats 1600000

deriving instance DecidableEq for Except

/-- Decimal digit list of a natural number, most significant digit first.
This mirrors the digit sequence produced by the fueled core function
`Nat.toDigitsCore`, and is used to reason about the names produced by
`fresh_name` in cozy/common.py (Python `"_..".format(hint, i)` prints `i`
in decimal exactly like `Nat.repr`). -/
def digs (n : Nat) : List Char :=
  if n < 10 then [Nat.digitChar n]
  else digs (n / 10) ++ [Nat.digitChar (n % 10)]
termination_by n
decreasing_by exact Nat.div_lt_self (by omega) (by norm_num)

mutual

/-- Types of the cozy IR (cozy/syntax.py, `Type` and its cases), together
with the sentinel `TDefault` that models the `DEFAULT_TYPE` object of
cozy/typecheck.py.  Record fields and tuple components are given by the
companion list types so that all recursion stays structural. -/
inductive Ty
| TInt
| TLong
| TBool
| TString
| TNative (name : String)
| THandle (statevar : String) (value_type : Ty)
| TBag (t : Ty)
| TSet (t : Ty)
| TMap (k : Ty) (v : Ty)
| TNamed (id : String)
| TEnum (cases : List String)
| TRecord (fields : TyFields)
| TTuple (ts : TyList)
| TDefault
deriving DecidableEq

/-- Ordered record fields, a list of name/type pairs. -/
inductive TyFields
| nil
| cons (name : String) (t : Ty) (tl : TyFields)
deriving DecidableEq

/-- Ordered tuple component types. -/
inductive TyList
| nil
| cons (t : Ty) (tl : TyList)
deriving DecidableEq

end

mutual

/-- Expressions of the cozy IR (cozy/syntax.py and cozy/target_syntax.py).
A lambda argument is an `EVar`; Python ADT equality compares it by its
`id` only, so the embedding stores the argument as a string. -/
inductive Exp
| EVar (id : String)
| EBool (val : Bool)
| ENum (val : Int)
| EStr (val : String)
| EEnumEntry (name : String)
| ENull
| ECond (cond : Exp) (then_branch : Exp) (else_branch : Exp)
| EBinOp (e1 : Exp) (op : String) (e2 : Exp)
| EUnaryOp (op : String) (e : Exp)
| EArgMin (e : Exp) (f : Exp)
| EArgMax (e : Exp) (f : Exp)
| EHandle (addr : Exp) (value : Exp)
| EGetField (e : Exp) (f : String)
| EMakeRecord (fields : RecFields)
| EListComprehension (e : Exp) (clauses : Clauses)
| EEmptyList
| ESingleton (e : Exp)
| ECall (func : String) (args : ExpList)
| ETuple (es : ExpList)
| ETupleGet (e : Exp) (n : Nat)
| ELet (e : Exp) (f : Exp)
| ELambda (arg : String) (body : Exp)
| EStateVar (e : Exp)
| EFilter (e : Exp) (p : Exp)
| EMap (e : Exp) (f : Exp)
| EFlatMap (e : Exp) (f : Exp)
| EMakeMap2 (e : Exp) (value : Exp)
| EMapGet (map : Exp) (key : Exp)
| EMapKeys (e : Exp)
| EWithAlteredValue (handle : Exp) (new_value : Exp)
deriving DecidableEq

/-- Ordered expression lists (tuple components, call arguments). -/
inductive ExpList
| nil
| cons (e : Exp) (tl : ExpList)
deriving DecidableEq

/-- Ordered record-construction fields, name/value pairs. -/
inductive RecFields
| nil
| cons (name : String) (e : Exp) (tl : RecFields)
deriving DecidableEq

/-- List-comprehension clause lists. -/
inductive Clauses
| nil
| cons (c : Clause) (tl : Clauses)
deriving DecidableEq

/-- A single comprehension clause: a pull (binder) or a filter condition
(cozy/syntax.py, `CPull` and `CCond`). -/
inductive Clause
| CPull (id : String) (e : Exp)
| CCond (e : Exp)
deriving DecidableEq

end

open Ty Exp

/-- Statements of the cozy IR (cozy/syntax.py and cozy/target_syntax.py).
`SForEach` stores the id of its loop variable (an `EVar` in the source). -/
inductive Stm
| SNoOp
| SSeq (s1 : Stm) (s2 : Stm)
| SCall (target : Exp) (func : String) (args : List Exp)
| SAssign (lhs : Exp) (rhs : Exp)
| SDecl (id : String) (val : Exp)
| SForEach (id : String) (iter : Exp) (body : Stm)
| SIf (cond : Exp) (then_branch : Stm) (else_branch : Stm)
| SMapPut (map : Exp) (key : Exp) (value : Exp)
| SMapDel (map : Exp) (key : Exp)
| SMapUpdate (map : Exp) (key : Exp) (val_var : String) (change : Stm)
deriving DecidableEq

/-- Query visibility (cozy/syntax.py, class Visibility). -/
inductive Vis
| Public
| Private
| Internal
deriving DecidableEq

/-- A Query method (cozy/syntax.py, `Query`). -/
structure QueryS where
  name : String
  visibility : Vis
  args : List (String × Ty)
  assumptions : List Exp
  ret : Exp
deriving DecidableEq

/-- An Op method (cozy/syntax.py, `Op`). -/
structure OpS where
  name : String
  args : List (String × Ty)
  assumptions : List Exp
  body : Stm
deriving DecidableEq

/-- A method is an op or a query. -/
inductive Method
| op (o : OpS)
| query (q : QueryS)
deriving DecidableEq

/-- The parts of a Spec that the Implementation manager reads
(cozy/syntax.py `Spec`; type aliases, extern functions and header/footer
strings are irrelevant to the claims and omitted). -/
structure SpecS where
  name : String
  statevars : List (String × Ty)
  assumptions : List Exp
  methods : List Method
deriving DecidableEq

/-- The ops of a spec (cozy/synthesis/impls.py, `Implementation.op_specs`). -/
def op_specs (s : SpecS) : List OpS :=
  s.methods.filterMap (fun m => match m with | .op o => some o | .query _ => none)

/-- The Implementation state (cozy/synthesis/impls.py, class
Implementation).  A concrete-state entry is `(v, e)` in the source where
both carry a `.type`; here the entry is `(v.id, e, e.type)`. -/
structure Impl where
  spec : SpecS
  concrete_state : List (String × Exp × Ty)
  query_specs : List QueryS
  query_impls : List (String × QueryS)
  updates : List ((String × String) × Stm)
  handle_updates : List ((Ty × String) × Stm)
deriving DecidableEq

/-- Negation smart constructor (cozy/syntax.py, `ENot`): double negations
are collapsed. -/
def mkNot (e : Exp) : Exp :=
  match e with
  | EUnaryOp "not" e0 => e0
  | _ => EUnaryOp "not" e

/-- Equality expression (cozy/syntax.py, `EEq`). -/
def mkEq (e1 e2 : Exp) : Exp := EBinOp e1 "==" e2

/-- Membership expression (cozy/syntax.py, `EIn`). -/
def mkIn (e1 e2 : Exp) : Exp := EBinOp e1 "in" e2

/-- Implication (cozy/syntax.py, `EImplies`): not e1 or e2. -/
def mkImplies (e1 e2 : Exp) : Exp := EBinOp (mkNot e1) "or" e2

/-- Balanced operator tree over a nonempty expression list
(cozy/syntax.py, `build_balanced_tree`).  The list is split at `n div 2`
exactly as the source splits `[st, ed)` at `st + n div 2`.  The
structural fuel argument is always called with at least the length of
the list, which suffices since the recursion halves the list. -/
def build_balanced_tree (fuel : Nat) (op : String) (es : List Exp) : Exp :=
  match fuel with
  | 0 => EBool true
  | fuel + 1 =>
    if es.length ≤ 1 then es.headD (EBool true)
    else EBinOp (build_balanced_tree fuel op (es.take (es.length / 2))) op
                (build_balanced_tree fuel op (es.drop (es.length / 2)))

/-- Conjunction of a list of expressions (cozy/syntax.py, `EAll`):
drops literal trues, collapses to false on a literal false, and builds a
balanced `and` tree otherwise. -/
def EAll (exps : List Exp) : Exp :=
  let exps := exps.filter (fun e => e ≠ EBool true)
  if exps.any (fun e => e = EBool false) then EBool false
  else if exps.isEmpty then EBool true
  else build_balanced_tree exps.length "and" exps

/-- Disjunction (cozy/syntax.py, `EAny`): not (all (map not exps)). -/
def EAny (exps : List Exp) : Exp := mkNot (EAll (exps.map mkNot))

/-- Bound-variable bump: one more enclosing binder for `x`
(`bound[x] += 1` in cozy/syntax_tools.py `free_vars`). -/
def bump (b : String → Nat) (x : String) : String → Nat :=
  fun y => if y = x then b y + 1 else b y

mutual

/-- Free-variable occurrences of an expression, in traversal order
(cozy/syntax_tools.py, `free_vars`).  The source runs an explicit work
stack; this is the same traversal written recursively.  `b` counts the
enclosing binders for each name; a variable occurrence is free when its
count is zero.  On `EListComprehension` the source raises
`NotImplementedError`, modelled as an `Except` error. -/
def fvExp (b : String → Nat) : Exp → Except Unit (List String)
| EVar x => .ok (if b x = 0 then [x] else [])
| EBool _ => .ok []
| ENum _ => .ok []
| EStr _ => .ok []
| EEnumEntry _ => .ok []
| ENull => .ok []
| ECond c t f => do pure ((← fvExp b c) ++ (← fvExp b t) ++ (← fvExp b f))
| EBinOp e1 _ e2 => do pure ((← fvExp b e1) ++ (← fvExp b e2))
| EUnaryOp _ e => fvExp b e
| EArgMin e f => do pure ((← fvExp b e) ++ (← fvExp b f))
| EArgMax e f => do pure ((← fvExp b e) ++ (← fvExp b f))
| EHandle a v => do pure ((← fvExp b a) ++ (← fvExp b v))
| EGetField e _ => fvExp b e
| EMakeRecord fs => fvFields b fs
| EListComprehension _ _ => .error ()
| EEmptyList => .ok []
| ESingleton e => fvExp b e
| ECall _ args => fvList b args
| ETuple es => fvList b es
| ETupleGet e _ => fvExp b e
| ELet e f => do pure ((← fvExp b e) ++ (← fvExp b f))
| ELambda a body => fvExp (bump b a) body
| EStateVar e => fvExp b e
| EFilter e p => do pure ((← fvExp b e) ++ (← fvExp b p))
| EMap e f => do pure ((← fvExp b e) ++ (← fvExp b f))
| EFlatMap e f => do pure ((← fvExp b e) ++ (← fvExp b f))
| EMakeMap2 e v => do pure ((← fvExp b e) ++ (← fvExp b v))
| EMapGet m k => do pure ((← fvExp b m) ++ (← fvExp b k))
| EMapKeys e => fvExp b e
| EWithAlteredValue h v => do pure ((← fvExp b h) ++ (← fvExp b v))

/-- Free variables of an expression list, left to right. -/
def fvList (b : String → Nat) : ExpList → Except Unit (List String)
| .nil => .ok []
| .cons e tl => do pure ((← fvExp b e) ++ (← fvList b tl))

/-- Free variables of record-construction fields, left to right. -/
def fvFields (b : String → Nat) : RecFields → Except Unit (List String)
| .nil => .ok []
| .cons _ e tl => do pure ((← fvExp b e) ++ (← fvFields b tl))

end

/-- Keep the first occurrence of each name, in order (the `OrderedDict`
keys of the source `free_vars`). -/
def dedupFirstAux (seen : List String) : List String → List String
| [] => []
| x :: tl => if x ∈ seen then dedupFirstAux seen tl else x :: dedupFirstAux (x :: seen) tl

/-- Deduplicate to first occurrences. -/
def dedupFirst (l : List String) : List String := dedupFirstAux [] l

/-- Free variables of an expression as an ordered, deduplicated list
(cozy/syntax_tools.py, `free_vars` with `counts=False`). -/
def free_vars (e : Exp) : Except Unit (List String) :=
  (fvExp (fun _ => 0) e).map dedupFirst

/-- Binder counts contributed by a method argument list
(the `bound[a] += 1` loop of `free_vars` on a `Method`). -/
def boundOfArgs (args : List (String × Ty)) : String → Nat :=
  args.foldl (fun b p => bump b p.1) (fun _ => 0)

/-- Free-variable occurrences of a list of expressions under `b`. -/
def fvExps (b : String → Nat) : List Exp → Except Unit (List String)
| [] => .ok []
| e :: tl => do pure ((← fvExp b e) ++ (← fvExps b tl))

/-- Free variables of a Query (cozy/syntax_tools.py, `free_vars` on a
`Method`): the arguments are bound; the work stack visits the return
expression first and then the assumptions in order. -/
def free_vars_query (q : QueryS) : Except Unit (List String) := do
  let b := boundOfArgs q.args
  let r ← fvExp b q.ret
  let a ← fvExps b q.assumptions
  pure (dedupFirst (r ++ a))

mutual

/-- Function names of every `ECall` in an expression, nested calls
included (the `all_exps` / `isinstance ECall` scan used on query bodies
in cozy/synthesis/impls.py `cleanup`). -/
def callsDeepExp : Exp → List String
| EVar _ => []
| EBool _ => []
| ENum _ => []
| EStr _ => []
| EEnumEntry _ => []
| ENull => []
| ECond c t f => callsDeepExp c ++ callsDeepExp t ++ callsDeepExp f
| EBinOp e1 _ e2 => callsDeepExp e1 ++ callsDeepExp e2
| EUnaryOp _ e => callsDeepExp e
| EArgMin e f => callsDeepExp e ++ callsDeepExp f
| EArgMax e f => callsDeepExp e ++ callsDeepExp f
| EHandle a v => callsDeepExp a ++ callsDeepExp v
| EGetField e _ => callsDeepExp e
| EMakeRecord fs => callsDeepFields fs
| EListComprehension e cs => callsDeepExp e ++ callsDeepClauses cs
| EEmptyList => []
| ESingleton e => callsDeepExp e
| ECall f args => callsDeepList args ++ [f]
| ETuple es => callsDeepList es
| ETupleGet e _ => callsDeepExp e
| ELet e f => callsDeepExp e ++ callsDeepExp f
| ELambda _ body => callsDeepExp body
| EStateVar e => callsDeepExp e
| EFilter e p => callsDeepExp e ++ callsDeepExp p
| EMap e f => callsDeepExp e ++ callsDeepExp f
| EFlatMap e f => callsDeepExp e ++ callsDeepExp f
| EMakeMap2 e v => callsDeepExp e ++ callsDeepExp v
| EMapGet m k => callsDeepExp m ++ callsDeepExp k
| EMapKeys e => callsDeepExp e
| EWithAlteredValue h v => callsDeepExp h ++ callsDeepExp v

/-- Deep call collection over an expression list. -/
def callsDeepList : ExpList → List String
| .nil => []
| .cons e tl => callsDeepExp e ++ callsDeepList tl

/-- Deep call collection over record fields. -/
def callsDeepFields : RecFields → List String
| .nil => []
| .cons _ e tl => callsDeepExp e ++ callsDeepFields tl

/-- Deep call collection over comprehension clauses. -/
def callsDeepClauses : Clauses → List String
| .nil => []
| .cons c tl => callsDeepClause c ++ callsDeepClauses tl

/-- Deep call collection over one clause. -/
def callsDeepClause : Clause → List String
| .CPull _ e => callsDeepExp e
| .CCond e => callsDeepExp e

end

mutual

/-- Function names collected by `_queries_used_by` in
cozy/synthesis/impls.py: its visitor overrides `visit_ECall` to record
the callee name and does not descend into the call arguments. -/
def callsExp : Exp → List String
| EVar _ => []
| EBool _ => []
| ENum _ => []
| EStr _ => []
| EEnumEntry _ => []
| ENull => []
| ECond c t f => callsExp c ++ callsExp t ++ callsExp f
| EBinOp e1 _ e2 => callsExp e1 ++ callsExp e2
| EUnaryOp _ e => callsExp e
| EArgMin e f => callsExp e ++ callsExp f
| EArgMax e f => callsExp e ++ callsExp f
| EHandle a v => callsExp a ++ callsExp v
| EGetField e _ => callsExp e
| EMakeRecord fs => callsFields fs
| EListComprehension e cs => callsExp e ++ callsClauses cs
| EEmptyList => []
| ESingleton e => callsExp e
| ECall f _ => [f]
| ETuple es => callsExpList es
| ETupleGet e _ => callsExp e
| ELet e f => callsExp e ++ callsExp f
| ELambda _ body => callsExp body
| EStateVar e => callsExp e
| EFilter e p => callsExp e ++ callsExp p
| EMap e f => callsExp e ++ callsExp f
| EFlatMap e f => callsExp e ++ callsExp f
| EMakeMap2 e v => callsExp e ++ callsExp v
| EMapGet m k => callsExp m ++ callsExp k
| EMapKeys e => callsExp e
| EWithAlteredValue h v => callsExp h ++ callsExp v

/-- Shallow call collection over an expression list. -/
def callsExpList : ExpList → List String
| .nil => []
| .cons e tl => callsExp e ++ callsExpList tl

/-- Shallow call collection over record fields. -/
def callsFields : RecFields → List String
| .nil => []
| .cons _ e tl => callsExp e ++ callsFields tl

/-- Shallow call collection over comprehension clauses. -/
def callsClauses : Clauses → List String
| .nil => []
| .cons c tl => callsClause c ++ callsClauses tl

/-- Shallow call collection over one clause. -/
def callsClause : Clause → List String
| .CPull _ e => callsExp e
| .CCond e => callsExp e

end

/-- Call names in a statement (`_queries_used_by` applied to update
code in cozy/synthesis/impls.py). -/
def callsStm : Stm → List String
| .SNoOp => []
| .SSeq s1 s2 => callsStm s1 ++ callsStm s2
| .SCall t _ args => callsExp t ++ (args.map callsExp).flatten
| .SAssign l r => callsExp l ++ callsExp r
| .SDecl _ v => callsExp v
| .SForEach _ it body => callsExp it ++ callsStm body
| .SIf c t e => callsExp c ++ callsStm t ++ callsStm e
| .SMapPut m k v => callsExp m ++ callsExp k ++ callsExp v
| .SMapDel m k => callsExp m ++ callsExp k
| .SMapUpdate m k _ ch => callsExp m ++ callsExp k ++ callsStm ch

/-- A replacement map for `subst` (Python `{str: Exp}`), as an
association list with unique keys. -/
def Repl : Type := List (String × Exp)

/-- Map lookup (`replacements.get(var.id, ...)`). -/
def lookupRepl (m : Repl) (x : String) : Option Exp :=
  (List.find? (fun p => p.1 == x) m).map (fun p => p.2)

/-- Map deletion (`del m[key]`). -/
def delRepl (m : Repl) (x : String) : Repl :=
  List.filter (fun p => p.1 != x) m

/-- The union of free-variable ids of the replacement values (the
`allfvs` set computed at entry to `subst` in cozy/syntax_tools.py),
as an occurrence list; membership agrees with the source set. -/
def replFvs (m : Repl) : Except Unit (List String) :=
  fvExps (fun _ => 0) (List.map (fun p => p.2) m)

mutual

/-- The `Subst` visitor of cozy/syntax_tools.py `subst`.  `m` is the
replacement map, `fvs` the `allfvs` set of its values, `ctr` the global
fresh-name counter of cozy/common.py.  `fuel` bounds the recursion
depth; the Python recursion always terminates, and every theorem below
supplies enough fuel (at least `sizeE` of the expression when no
renaming occurs).  `NotImplementedError` (a pull clause whose bound name
is a replacement key, or a rename that would capture a later pull
clause) and fuel exhaustion are `Except` errors. -/
def substVisit (m : Repl) (fvs : List String) :
    Nat → Nat → Exp → Except Unit (Exp × Nat)
| 0, _, _ => .error ()
| f + 1, ctr, e =>
    match e with
    | EVar x => .ok ((lookupRepl m x).getD (EVar x), ctr)
    | EBool v => .ok (EBool v, ctr)
    | ENum v => .ok (ENum v, ctr)
    | EStr v => .ok (EStr v, ctr)
    | EEnumEntry n => .ok (EEnumEntry n, ctr)
    | ENull => .ok (ENull, ctr)
    | ECond c t el => do
        let (c2, ctr1) ← substVisit m fvs f ctr c
        let (t2, ctr2) ← substVisit m fvs f ctr1 t
        let (el2, ctr3) ← substVisit m fvs f ctr2 el
        pure (ECond c2 t2 el2, ctr3)
    | EBinOp e1 op e2 => do
        let (a, ctr1) ← substVisit m fvs f ctr e1
        let (b, ctr2) ← substVisit m fvs f ctr1 e2
        pure (EBinOp a op b, ctr2)
    | EUnaryOp op e0 => do
        let (a, ctr1) ← substVisit m fvs f ctr e0
        pure (EUnaryOp op a, ctr1)
    | EArgMin e0 fn => do
        let (a, ctr1) ← substVisit m fvs f ctr e0
        let (b, ctr2) ← substVisit m fvs f ctr1 fn
        pure (EArgMin a b, ctr2)
    | EArgMax e0 fn => do
        let (a, ctr1) ← substVisit m fvs f ctr e0
        let (b, ctr2) ← substVisit m fvs f ctr1 fn
        pure (EArgMax a b, ctr2)
    | EHandle ad v => do
        let (a, ctr1) ← substVisit m fvs f ctr ad
        let (b, ctr2) ← substVisit m fvs f ctr1 v
        pure (EHandle a b, ctr2)
    | EGetField e0 fname => do
        let (a, ctr1) ← substVisit m fvs f ctr e0
        pure (EGetField a fname, ctr1)
    | EMakeRecord fields => do
        let (fs2, ctr1) ← substVisitFields m fvs f ctr fields
        pure (EMakeRecord fs2, ctr1)
    | EListComprehension e0 cs => do
        let (cs2, e2, ctr1) ← substClauses m fvs f ctr cs e0
        pure (EListComprehension e2 cs2, ctr1)
    | EEmptyList => .ok (EEmptyList, ctr)
    | ESingleton e0 => do
        let (a, ctr1) ← substVisit m fvs f ctr e0
        pure (ESingleton a, ctr1)
    | ECall fn args => do
        let (args2, ctr1) ← substVisitList m fvs f ctr args
        pure (ECall fn args2, ctr1)
    | ETuple es => do
        let (es2, ctr1) ← substVisitList m fvs f ctr es
        pure (ETuple es2, ctr1)
    | ETupleGet e0 n => do
        let (a, ctr1) ← substVisit m fvs f ctr e0
        pure (ETupleGet a n, ctr1)
    | ELet e0 fn => do
        let (a, ctr1) ← substVisit m fvs f ctr e0
        let (b, ctr2) ← substVisit m fvs f ctr1 fn
        pure (ELet a b, ctr2)
    | ELambda arg body =>
        -- visit_ELambda: drop the bound name from the map, rename the
        -- argument while it appears free in any replacement value, then
        -- substitute the body under the reduced map via top-level subst.
        let m2 := if (lookupRepl m arg).isSome then delRepl m arg else m
        do
        let (arg2, body2, ctr2) ← renameLoop m fvs f arg body ctr
        match replFvs m2 with
        | .error _ => .error ()
        | .ok fvs2 => do
            let (body3, ctr3) ← substVisit m2 fvs2 f ctr2 body2
            pure (ELambda arg2 body3, ctr3)
    | EStateVar e0 => do
        let (a, ctr1) ← substVisit m fvs f ctr e0
        pure (EStateVar a, ctr1)
    | EFilter e0 p => do
        let (a, ctr1) ← substVisit m fvs f ctr e0
        let (b, ctr2) ← substVisit m fvs f ctr1 p
        pure (EFilter a b, ctr2)
    | EMap e0 fn => do
        let (a, ctr1) ← substVisit m fvs f ctr e0
        let (b, ctr2) ← substVisit m fvs f ctr1 fn
        pure (EMap a b, ctr2)
    | EFlatMap e0 fn => do
        let (a, ctr1) ← substVisit m fvs f ctr e0
        let (b, ctr2) ← substVisit m fvs f ctr1 fn
        pure (EFlatMap a b, ctr2)
    | EMakeMap2 e0 v => do
        let (a, ctr1) ← substVisit m fvs f ctr e0
        let (b, ctr2) ← substVisit m fvs f ctr1 v
        pure (EMakeMap2 a b, ctr2)
    | EMapGet mp k => do
        let (a, ctr1) ← substVisit m fvs f ctr mp
        let (b, ctr2) ← substVisit m fvs f ctr1 k
        pure (EMapGet a b, ctr2)
    | EMapKeys e0 => do
        let (a, ctr1) ← substVisit m fvs f ctr e0
        pure (EMapKeys a, ctr1)
    | EWithAlteredValue h v => do
        let (a, ctr1) ← substVisit m fvs f ctr h
        let (b, ctr2) ← substVisit m fvs f ctr1 v
        pure (EWithAlteredValue a b, ctr2)
termination_by structural fuel _ _ => fuel

/-- The while-loop of `visit_ELambda`: while the argument occurs free in
some replacement value, mint a fresh name (cozy/common.py `fresh_name`,
the counter branch) and substitute it for the old argument in the body. -/
def renameLoop (m : Repl) (fvs : List String) :
    Nat → String → Exp → Nat → Except Unit (String × Exp × Nat)
| 0, arg, body, ctr =>
    if arg ∈ fvs then .error () else .ok (arg, body, ctr)
| f + 1, arg, body, ctr =>
    if arg ∈ fvs then do
      let newArg := "_name" ++ Nat.repr (ctr + 1)
      let (body2, ctr2) ← substVisit [(arg, EVar newArg)] [newArg] f (ctr + 1) body
      renameLoop m fvs f newArg body2 ctr2
    else .ok (arg, body, ctr)
termination_by structural fuel _ _ _ => fuel

/-- Sequential substitution over expression-list children. -/
def substVisitList (m : Repl) (fvs : List String) :
    Nat → Nat → ExpList → Except Unit (ExpList × Nat)
| _, ctr, .nil => .ok (.nil, ctr)
| 0, _, .cons _ _ => .error ()
| f + 1, ctr, .cons e tl => do
    let (e2, ctr1) ← substVisit m fvs f ctr e
    let (tl2, ctr2) ← substVisitList m fvs f ctr1 tl
    pure (.cons e2 tl2, ctr2)
termination_by structural fuel _ _ => fuel

/-- Sequential substitution over record fields. -/
def substVisitFields (m : Repl) (fvs : List String) :
    Nat → Nat → RecFields → Except Unit (RecFields × Nat)
| _, ctr, .nil => .ok (.nil, ctr)
| 0, _, .cons _ _ _ => .error ()
| f + 1, ctr, .cons name e tl => do
    let (e2, ctr1) ← substVisit m fvs f ctr e
    let (tl2, ctr2) ← substVisitFields m fvs f ctr1 tl
    pure (.cons name e2 tl2, ctr2)
termination_by structural fuel _ _ => fuel

/-- The `visit_lcmp` recursion of `subst`: pull clauses whose name is a
replacement key raise; a pull whose name occurs free in a replacement
value is renamed to a fresh name, the head expression and all later
clauses are rewritten with the renaming, and processing continues on the
rewritten remainder. -/
def substClauses (m : Repl) (fvs : List String) :
    Nat → Nat → Clauses → Exp → Except Unit (Clauses × Exp × Nat)
| 0, _, _, _ => .error ()
| f + 1, ctr, cs, e =>
    match cs with
    | .nil => do
        let (e2, ctr1) ← substVisit m fvs f ctr e
        pure (.nil, e2, ctr1)
    | .cons c tl =>
      match c with
      | .CCond ce => do
          let (ce2, ctr1) ← substVisit m fvs f ctr ce
          let (tl2, e2, ctr2) ← substClauses m fvs f ctr1 tl e
          pure (.cons (.CCond ce2) tl2, e2, ctr2)
      | .CPull id ce =>
          if (lookupRepl m id).isSome then .error ()
          else if id ∈ fvs then do
            let name := "_name" ++ Nat.repr (ctr + 1)
            let (e2, ctr2) ← substVisit [(id, EVar name)] [name] f (ctr + 1) e
            let (tl2, ctr3) ← rewriteLater fvs [(id, EVar name)] [name] f ctr2 tl
            let (ce2, ctr4) ← substVisit m fvs f ctr3 ce
            let (tl3, e3, ctr5) ← substClauses m fvs f ctr4 tl2 e2
            pure (.cons (.CPull name ce2) tl3, e3, ctr5)
          else do
            let (ce2, ctr1) ← substVisit m fvs f ctr ce
            let (tl2, e2, ctr2) ← substClauses m fvs f ctr1 tl e
            pure (.cons (.CPull id ce2) tl2, e2, ctr2)
termination_by structural fuel _ _ _ => fuel

/-- The inner for-loop of `visit_lcmp`: rewrite the clauses after a
renamed pull with the renaming map `r`; a later pull whose name occurs
free in an original replacement value raises. -/
def rewriteLater (fvs : List String) (r : Repl) (rfvs : List String) :
    Nat → Nat → Clauses → Except Unit (Clauses × Nat)
| _, ctr, .nil => .ok (.nil, ctr)
| 0, _, .cons _ _ => .error ()
| f + 1, ctr, .cons d tl =>
    match d with
    | .CPull did de =>
        if did ∈ fvs then .error ()
        else do
          let (de2, ctr1) ← substVisit r rfvs f ctr de
          let (tl2, ctr2) ← rewriteLater fvs r rfvs f ctr1 tl
          pure (.cons (.CPull did de2) tl2, ctr2)
    | .CCond de => do
        let (de2, ctr1) ← substVisit r rfvs f ctr de
        let (tl2, ctr2) ← rewriteLater fvs r rfvs f ctr1 tl
        pure (.cons (.CCond de2) tl2, ctr2)
termination_by structural fuel _ _ => fuel

end

/-- Capture-avoiding substitution (cozy/syntax_tools.py, `subst`): the
free variables of the replacement values are computed once, then the
`Subst` visitor runs.  `ctr` threads the process-wide fresh-name
counter. -/
def subst (m : Repl) (fuel : Nat) (ctr : Nat) (e : Exp) : Except Unit (Exp × Nat) :=
  match replFvs m with
  | .error _ => .error ()
  | .ok fvs => substVisit m fvs fuel ctr e

mutual

/-- Fuel measure for a renaming-free pass of `substVisit`: a node count
with two units of slack per node. -/
def sizeE : Exp → Nat
| EVar _ => 2
| EBool _ => 2
| ENum _ => 2
| EStr _ => 2
| EEnumEntry _ => 2
| ENull => 2
| ECond c t f => 2 + sizeE c + sizeE t + sizeE f
| EBinOp e1 _ e2 => 2 + sizeE e1 + sizeE e2
| EUnaryOp _ e => 2 + sizeE e
| EArgMin e f => 2 + sizeE e + sizeE f
| EArgMax e f => 2 + sizeE e + sizeE f
| EHandle a v => 2 + sizeE a + sizeE v
| EGetField e _ => 2 + sizeE e
| EMakeRecord fs => 2 + sizeFs fs
| EListComprehension e cs => 2 + sizeE e + sizeCls cs
| EEmptyList => 2
| ESingleton e => 2 + sizeE e
| ECall _ args => 2 + sizeEL args
| ETuple es => 2 + sizeEL es
| ETupleGet e _ => 2 + sizeE e
| ELet e f => 2 + sizeE e + sizeE f
| ELambda _ body => 2 + sizeE body
| EStateVar e => 2 + sizeE e
| EFilter e p => 2 + sizeE e + sizeE p
| EMap e f => 2 + sizeE e + sizeE f
| EFlatMap e f => 2 + sizeE e + sizeE f
| EMakeMap2 e v => 2 + sizeE e + sizeE v
| EMapGet m k => 2 + sizeE m + sizeE k
| EMapKeys e => 2 + sizeE e
| EWithAlteredValue h v => 2 + sizeE h + sizeE v

/-- Fuel measure over expression lists. -/
def sizeEL : ExpList → Nat
| .nil => 0
| .cons e tl => 2 + sizeE e + sizeEL tl

/-- Fuel measure over record fields. -/
def sizeFs : RecFields → Nat
| .nil => 0
| .cons _ e tl => 2 + sizeE e + sizeFs tl

/-- Fuel measure over clause lists. -/
def sizeCls : Clauses → Nat
| .nil => 0
| .cons c tl => 2 + sizeCl c + sizeCls tl

/-- Fuel measure of one clause. -/
def sizeCl : Clause → Nat
| .CPull _ e => 2 + sizeE e
| .CCond e => 2 + sizeE e

end

/-- A binder name is admissible: distinct from the tracked name, if any
(`none` tracks no name and admits every binder). -/
def notBound (o : Option String) (id : String) : Bool :=
  match o with
  | some x => id != x
  | none => true

mutual

/-- No lambda argument and no pull clause in the expression binds the
tracked name (when `o = some x`, no binder is named `x`; when
`o = none` the condition is vacuous). -/
def avoidsBinder (o : Option String) : Exp → Bool
| EVar _ => true
| EBool _ => true
| ENum _ => true
| EStr _ => true
| EEnumEntry _ => true
| ENull => true
| ECond c t f => avoidsBinder o c && avoidsBinder o t && avoidsBinder o f
| EBinOp e1 _ e2 => avoidsBinder o e1 && avoidsBinder o e2
| EUnaryOp _ e => avoidsBinder o e
| EArgMin e f => avoidsBinder o e && avoidsBinder o f
| EArgMax e f => avoidsBinder o e && avoidsBinder o f
| EHandle a v => avoidsBinder o a && avoidsBinder o v
| EGetField e _ => avoidsBinder o e
| EMakeRecord fs => avoidsBinderFields o fs
| EListComprehension e cs => avoidsBinder o e && avoidsBinderClauses o cs
| EEmptyList => true
| ESingleton e => avoidsBinder o e
| ECall _ args => avoidsBinderList o args
| ETuple es => avoidsBinderList o es
| ETupleGet e _ => avoidsBinder o e
| ELet e f => avoidsBinder o e && avoidsBinder o f
| ELambda arg body => notBound o arg && avoidsBinder o body
| EStateVar e => avoidsBinder o e
| EFilter e p => avoidsBinder o e && avoidsBinder o p
| EMap e f => avoidsBinder o e && avoidsBinder o f
| EFlatMap e f => avoidsBinder o e && avoidsBinder o f
| EMakeMap2 e v => avoidsBinder o e && avoidsBinder o v
| EMapGet m k => avoidsBinder o m && avoidsBinder o k
| EMapKeys e => avoidsBinder o e
| EWithAlteredValue h v => avoidsBinder o h && avoidsBinder o v

/-- Binder avoidance over expression lists. -/
def avoidsBinderList (o : Option String) : ExpList → Bool
| .nil => true
| .cons e tl => avoidsBinder o e && avoidsBinderList o tl

/-- Binder avoidance over record fields. -/
def avoidsBinderFields (o : Option String) : RecFields → Bool
| .nil => true
| .cons _ e tl => avoidsBinder o e && avoidsBinderFields o tl

/-- Binder avoidance over clause lists. -/
def avoidsBinderClauses (o : Option String) : Clauses → Bool
| .nil => true
| .cons c tl => avoidsBinderClause o c && avoidsBinderClauses o tl

/-- Binder avoidance over one clause: a pull clause must not bind the
tracked name. -/
def avoidsBinderClause (o : Option String) : Clause → Bool
| .CPull id e => notBound o id && avoidsBinder o e
| .CCond e => avoidsBinder o e

end

/-- The replacement map of a trivial substitution: empty, or the
single identity binding of the tracked name. -/
def idMap : Option String → Repl
| none => []
| some x => [(x, EVar x)]

/-- The `allfvs` set the source computes for a trivial substitution
map: empty, or the tracked name alone. -/
def idFvs : Option String → List String
| none => []
| some x => [x]

/-- The two renaming maps of the `alpha_equivalent` visitor
(cozy/syntax_tools.py): names mapped to the depth at which they were
bound.  Temporary `extend` scopes become list conses. -/
def AEnv : Type := List (String × Nat)

/-- Lookup of a bound depth (`self.remap_l.get(e1, e1)`). -/
def lookupDepth (env : AEnv) (x : String) : Option Nat :=
  (List.find? (fun p => p.1 == x) env).map (fun p => p.2)

/-- Variable comparison in `alpha_equivalent.visit_EVar`: both mapped
to the same depth, or both unmapped with the same name (a depth never
equals a variable in Python). -/
def alphaVar (l r : AEnv) (x1 x2 : String) : Bool :=
  match lookupDepth l x1, lookupDepth r x2 with
  | some d1, some d2 => d1 == d2
  | none, none => x1 == x2
  | _, _ => false

/-- Length of an expression list. -/
def lenEL : ExpList → Nat
| .nil => 0
| .cons _ tl => 1 + lenEL tl

/-- Length of a clause list. -/
def lenCls : Clauses → Nat
| .nil => 0
| .cons _ tl => 1 + lenCls tl

/-- The expression stored in a clause (`c.e`). -/
def clauseExp : Clause → Exp
| .CPull _ e => e
| .CCond e => e

mutual

/-- The `alpha_equivalent` visitor of cozy/syntax_tools.py.  `l` and
`r` are the two renaming maps, `d` the current binder depth.  Tuple and
record comparisons zip-truncate exactly as the source does; comparing
two pull clauses runs `unify` on the clauses themselves, whose
`typechecked` annotation raises (modelled as an `Except` error). -/
def alphaEq (l r : AEnv) (d : Nat) : Exp → Exp → Except Unit Bool
| EVar x1, e2 =>
    match e2 with
    | EVar x2 => .ok (alphaVar l r x1 x2)
    | _ => .ok false
| EBool v1, e2 =>
    match e2 with
    | EBool v2 => .ok (v1 == v2)
    | _ => .ok false
| ENum v1, e2 =>
    match e2 with
    | ENum v2 => .ok (v1 == v2)
    | _ => .ok false
| EStr v1, e2 =>
    match e2 with
    | EStr v2 => .ok (v1 == v2)
    | _ => .ok false
| EEnumEntry n1, e2 =>
    match e2 with
    | EEnumEntry n2 => .ok (n1 == n2)
    | _ => .ok false
| ENull, e2 =>
    match e2 with
    | ENull => .ok true
    | _ => .ok false
| ECond c1 t1 f1, e2 =>
    match e2 with
    | ECond c2 t2 f2 => do
        let b1 ← alphaEq l r d c1 c2
        if b1 then do
          let b2 ← alphaEq l r d t1 t2
          if b2 then alphaEq l r d f1 f2 else .ok false
        else .ok false
    | _ => .ok false
| EBinOp a1 op1 b1, e2 =>
    match e2 with
    | EBinOp a2 op2 b2 => do
        let x ← alphaEq l r d a1 a2
        if x then
          if op1 == op2 then alphaEq l r d b1 b2 else .ok false
        else .ok false
    | _ => .ok false
| EUnaryOp op1 a1, e2 =>
    match e2 with
    | EUnaryOp op2 a2 =>
        if op1 == op2 then alphaEq l r d a1 a2 else .ok false
    | _ => .ok false
| EArgMin a1 f1, e2 =>
    match e2 with
    | EArgMin a2 f2 => do
        let x ← alphaEq l r d a1 a2
        if x then alphaEq l r d f1 f2 else .ok false
    | _ => .ok false
| EArgMax a1 f1, e2 =>
    match e2 with
    | EArgMax a2 f2 => do
        let x ← alphaEq l r d a1 a2
        if x then alphaEq l r d f1 f2 else .ok false
    | _ => .ok false
| EHandle a1 v1, e2 =>
    match e2 with
    | EHandle a2 v2 => do
        let x ← alphaEq l r d a1 a2
        if x then alphaEq l r d v1 v2 else .ok false
    | _ => .ok false
| EGetField a1 f1, e2 =>
    match e2 with
    | EGetField a2 f2 => do
        let x ← alphaEq l r d a1 a2
        if x then .ok (f1 == f2) else .ok false
    | _ => .ok false
| EMakeRecord fs1, e2 =>
    match e2 with
    | EMakeRecord fs2 => alphaEqFields l r d fs1 fs2
    | _ => .ok false
| EListComprehension b1 cs1, e2 =>
    match e2 with
    | EListComprehension b2 cs2 =>
        if lenCls cs1 ≠ lenCls cs2 then .ok false
        else do
          let x ← alphaEqClauses l r d cs1 cs2
          if x then alphaEq l r d b1 b2 else .ok false
    | _ => .ok false
| EEmptyList, e2 =>
    match e2 with
    | EEmptyList => .ok true
    | _ => .ok false
| ESingleton a1, e2 =>
    match e2 with
    | ESingleton a2 => alphaEq l r d a1 a2
    | _ => .ok false
| ECall f1 as1, e2 =>
    match e2 with
    | ECall f2 as2 =>
        if f1 == f2 && lenEL as1 == lenEL as2 then
          alphaEqZip l r d as1 as2
        else .ok false
    | _ => .ok false
| ETuple es1, e2 =>
    match e2 with
    | ETuple es2 => alphaEqZip l r d es1 es2
    | _ => .ok false
| ETupleGet a1 n1, e2 =>
    match e2 with
    | ETupleGet a2 n2 => do
        let x ← alphaEq l r d a1 a2
        if x then .ok (n1 == n2) else .ok false
    | _ => .ok false
| ELet a1 f1, e2 =>
    match e2 with
    | ELet a2 f2 => do
        let x ← alphaEq l r d a1 a2
        if x then alphaEq l r d f1 f2 else .ok false
    | _ => .ok false
| ELambda a1 b1, e2 =>
    match e2 with
    | ELambda a2 b2 =>
        alphaEq ((a1, d + 1) :: l) ((a2, d + 1) :: r) (d + 1) b1 b2
    | _ => .ok false
| EStateVar a1, e2 =>
    match e2 with
    | EStateVar a2 => alphaEq l r d a1 a2
    | _ => .ok false
| EFilter a1 p1, e2 =>
    match e2 with
    | EFilter a2 p2 => do
        let x ← alphaEq l r d a1 a2
        if x then alphaEq l r d p1 p2 else .ok false
    | _ => .ok false
| EMap a1 f1, e2 =>
    match e2 with
    | EMap a2 f2 => do
        let x ← alphaEq l r d a1 a2
        if x then alphaEq l r d f1 f2 else .ok false
    | _ => .ok false
| EFlatMap a1 f1, e2 =>
    match e2 with
    | EFlatMap a2 f2 => do
        let x ← alphaEq l r d a1 a2
        if x then alphaEq l r d f1 f2 else .ok false
    | _ => .ok false
| EMakeMap2 a1 v1, e2 =>
    match e2 with
    | EMakeMap2 a2 v2 => do
        let x ← alphaEq l r d a1 a2
        if x then alphaEq l r d v1 v2 else .ok false
    | _ => .ok false
| EMapGet m1 k1, e2 =>
    match e2 with
    | EMapGet m2 k2 => do
        let x ← alphaEq l r d m1 m2
        if x then alphaEq l r d k1 k2 else .ok false
    | _ => .ok false
| EMapKeys a1, e2 =>
    match e2 with
    | EMapKeys a2 => alphaEq l r d a1 a2
    | _ => .ok false
| EWithAlteredValue h1 v1, e2 =>
    match e2 with
    | EWithAlteredValue h2 v2 => do
        let x ← alphaEq l r d h1 h2
        if x then alphaEq l r d v1 v2 else .ok false
    | _ => .ok false
termination_by structural e1 _ => e1

/-- Zip comparison over expression lists (`visit_ETuple` and
`visit_ECall`): `zip` truncates at the shorter list. -/
def alphaEqZip (l r : AEnv) (d : Nat) : ExpList → ExpList → Except Unit Bool
| .nil, _ => .ok true
| .cons _ _, .nil => .ok true
| .cons e1 t1, .cons e2 t2 => do
    let x ← alphaEq l r d e1 e2
    if x then alphaEqZip l r d t1 t2 else .ok false
termination_by structural es1 _ => es1

/-- Zip comparison over record fields (`visit_EMakeRecord`): for each
zipped pair the field names must agree, then the values are compared. -/
def alphaEqFields (l r : AEnv) (d : Nat) : RecFields → RecFields → Except Unit Bool
| .nil, _ => .ok true
| .cons _ _ _, .nil => .ok true
| .cons k1 v1 t1, .cons k2 v2 t2 =>
    if k1 == k2 then do
      let x ← alphaEq l r d v1 v2
      if x then alphaEqFields l r d t1 t2 else .ok false
    else .ok false
termination_by structural fs1 _ => fs1

/-- Clause comparison (`visit_clauses`).  Two pull clauses reach
`unify([(c1, c2)])`, whose `typechecked` contract on `[(EVar, EVar)]`
raises, modelled as an error; a pull against a non-pull returns false;
a condition clause compares `c1.e` against `c2.e` whatever `c2` is.
The clause comparisons never extend the renaming maps, so the
comprehension bodies are compared afterwards by the caller under the
unchanged maps, exactly as in the source. -/
def alphaEqClauses (l r : AEnv) (d : Nat) : Clauses → Clauses → Except Unit Bool
| .nil, _ => .ok true
| .cons _ _, .nil => .error ()
| .cons c1 t1, .cons c2 t2 =>
    match c1 with
    | .CPull _ _ =>
        match c2 with
        | .CPull _ _ => .error ()
        | .CCond _ => .ok false
    | .CCond e1c => do
        let x ← alphaEq l r d e1c (clauseExp c2)
        if x then alphaEqClauses l r d t1 t2 else .ok false
termination_by structural cs1 _ => cs1

end

/-- Alpha-equivalence entry point (cozy/syntax_tools.py,
`alpha_equivalent`). -/
def alpha_equivalent (e1 e2 : Exp) : Except Unit Bool :=
  alphaEq [] [] 0 e1 e2

/-- One element of the `enumerate_fragments` stream: the assumptions in
force, the subexpression, the replacement function, and the bound
variables (cozy/syntax_tools.py, `FragmentEnumerator`). -/
structure Frag where
  a : List Exp
  x : Exp
  r : Exp → Exp
  bound : List String

/-- A fragment whose replacement rebuilds an expression list. -/
structure FragL where
  a : List Exp
  x : Exp
  rl : Exp → ExpList
  bound : List String

/-- A fragment whose replacement rebuilds a record-field list. -/
structure FragF where
  a : List Exp
  x : Exp
  rf : Exp → RecFields
  bound : List String

/-- A fragment whose replacement rebuilds a clause list. -/
structure FragC where
  a : List Exp
  x : Exp
  rc : Exp → Clauses
  bound : List String

/-- A fragment whose replacement rebuilds a single clause. -/
structure FragCl where
  a : List Exp
  x : Exp
  rcl : Exp → Clause
  bound : List String

/-- Wrap every fragment replacement with an outer rebuild, as the
immediately-invoked lambdas of the source do. -/
def wrapFrags (w : Exp → Exp) (fs : List Frag) : List Frag :=
  fs.map (fun fr => ⟨fr.a, fr.x, fun y => w (fr.r y), fr.bound⟩)

/-- The `EDeepIn` helper of `FragmentEnumerator`: membership of `x` in
`bag` encoded as `any (map (fun _fragarg => _fragarg === x) bag)`. -/
def EDeepIn (x : Exp) (bag : Exp) : Exp :=
  EUnaryOp "any" (EMap bag (ELambda "_fragarg" (EBinOp (EVar "_fragarg") "===" x)))

/-- The assumption filter of `intro_vars`: drop every assumption with a
free variable among `vars`; `free_vars` can raise on comprehensions. -/
def filterAssumptions (vars : List String) : List Exp → Except Unit (List Exp)
| [] => .ok []
| a :: tl => do
    let fa ← fvExp (fun _ => 0) a
    let rest ← filterAssumptions vars tl
    pure (if fa.any (fun v => v ∈ vars) then rest else a :: rest)

/-- Extend the ordered bound set (`extend_multi` on the bound map). -/
def addBound (B : List String) (v : String) : List String :=
  if v ∈ B then B else B ++ [v]

mutual

/-- The `FragmentEnumerator` of cozy/syntax_tools.py, already filtered
the way `enumerate_fragments` filters it: only fragments whose
subexpression is a non-lambda `Exp` are kept (the visitor also yields
lambdas, clauses, strings and tuples, which `enumerate_fragments`
drops).  `A` is the current assumption list, `B` the current bound set.
`ECond` pushes its condition (negated for the else branch); the
filter/map/flat-map/make-map predicate body is visited under the bound
argument with a `EDeepIn` membership assumption when the argument is
not free in the bag; `EStateVar` clears the bound set for its children;
lambdas remove the assumptions that mention their argument.  Reading
`.arg` of a non-lambda function argument raises in Python, modelled as
an error. -/
def enumFrags (A : List Exp) (B : List String) : Exp → Except Unit (List Frag)
| EVar x => .ok [⟨A, EVar x, id, B⟩]
| EBool v => .ok [⟨A, EBool v, id, B⟩]
| ENum v => .ok [⟨A, ENum v, id, B⟩]
| EStr v => .ok [⟨A, EStr v, id, B⟩]
| EEnumEntry n => .ok [⟨A, EEnumEntry n, id, B⟩]
| ENull => .ok [⟨A, ENull, id, B⟩]
| ECond c t f => do
    let fc ← enumFrags A B c
    let ft ← enumFrags (A ++ [c]) B t
    let ff ← enumFrags (A ++ [mkNot c]) B f
    pure (⟨A, ECond c t f, id, B⟩ ::
      (wrapFrags (fun y => ECond y t f) fc ++
       wrapFrags (fun y => ECond c y f) ft ++
       wrapFrags (fun y => ECond c t y) ff))
| EBinOp e1 op e2 => do
    let f1 ← enumFrags A B e1
    let f2 ← enumFrags A B e2
    pure (⟨A, EBinOp e1 op e2, id, B⟩ ::
      (wrapFrags (fun y => EBinOp y op e2) f1 ++
       wrapFrags (fun y => EBinOp e1 op y) f2))
| EUnaryOp op e0 => do
    let f0 ← enumFrags A B e0
    pure (⟨A, EUnaryOp op e0, id, B⟩ :: wrapFrags (fun y => EUnaryOp op y) f0)
| EArgMin e0 fn => do
    let f0 ← enumFrags A B e0
    let f1 ← enumFrags A B fn
    pure (⟨A, EArgMin e0 fn, id, B⟩ ::
      (wrapFrags (fun y => EArgMin y fn) f0 ++
       wrapFrags (fun y => EArgMin e0 y) f1))
| EArgMax e0 fn => do
    let f0 ← enumFrags A B e0
    let f1 ← enumFrags A B fn
    pure (⟨A, EArgMax e0 fn, id, B⟩ ::
      (wrapFrags (fun y => EArgMax y fn) f0 ++
       wrapFrags (fun y => EArgMax e0 y) f1))
| EHandle ad v => do
    let f0 ← enumFrags A B ad
    let f1 ← enumFrags A B v
    pure (⟨A, EHandle ad v, id, B⟩ ::
      (wrapFrags (fun y => EHandle y v) f0 ++
       wrapFrags (fun y => EHandle ad y) f1))
| EGetField e0 fname => do
    let f0 ← enumFrags A B e0
    pure (⟨A, EGetField e0 fname, id, B⟩ ::
      wrapFrags (fun y => EGetField y fname) f0)
| EMakeRecord fields => do
    let fs ← enumFragsFields A B fields
    pure (⟨A, EMakeRecord fields, id, B⟩ ::
      fs.map (fun fr => ⟨fr.a, fr.x, fun y => EMakeRecord (fr.rf y), fr.bound⟩))
| EListComprehension e0 cs => do
    let f0 ← enumFrags A B e0
    let fc ← enumFragsCls A B cs
    pure (⟨A, EListComprehension e0 cs, id, B⟩ ::
      (wrapFrags (fun y => EListComprehension y cs) f0 ++
       fc.map (fun fr => ⟨fr.a, fr.x, fun y => EListComprehension e0 (fr.rc y), fr.bound⟩)))
| EEmptyList => .ok [⟨A, EEmptyList, id, B⟩]
| ESingleton e0 => do
    let f0 ← enumFrags A B e0
    pure (⟨A, ESingleton e0, id, B⟩ :: wrapFrags (fun y => ESingleton y) f0)
| ECall fn args => do
    let fs ← enumFragsList A B args
    pure (⟨A, ECall fn args, id, B⟩ ::
      fs.map (fun fr => ⟨fr.a, fr.x, fun y => ECall fn (fr.rl y), fr.bound⟩))
| ETuple es => do
    let fs ← enumFragsList A B es
    pure (⟨A, ETuple es, id, B⟩ ::
      fs.map (fun fr => ⟨fr.a, fr.x, fun y => ETuple (fr.rl y), fr.bound⟩))
| ETupleGet e0 n => do
    let f0 ← enumFrags A B e0
    pure (⟨A, ETupleGet e0 n, id, B⟩ :: wrapFrags (fun y => ETupleGet y n) f0)
| ELet e0 fn => do
    let f0 ← enumFrags A B e0
    let f1 ← enumFrags A B fn
    pure (⟨A, ELet e0 fn, id, B⟩ ::
      (wrapFrags (fun y => ELet y fn) f0 ++
       wrapFrags (fun y => ELet e0 y) f1))
| ELambda arg body => do
    let A2 ← filterAssumptions [arg] A
    let frs ← enumFrags A2 (addBound B arg) body
    pure (wrapFrags (fun y => ELambda arg y) frs)
| EStateVar e0 => do
    let f0 ← enumFrags A [] e0
    pure (⟨A, EStateVar e0, id, B⟩ :: wrapFrags (fun y => EStateVar y) f0)
| EFilter e0 p => do
    let f0 ← enumFrags A B e0
    match p with
    | ELambda arg pbody => do
        let fvBag ← fvExp (fun _ => 0) e0
        let assume := if arg ∈ fvBag then [] else [EDeepIn (EVar arg) e0]
        let A2 ← filterAssumptions [arg] A
        let fp ← enumFrags (A2 ++ assume) (addBound B arg) pbody
        pure (⟨A, EFilter e0 p, id, B⟩ ::
          (wrapFrags (fun y => EFilter y p) f0 ++
           wrapFrags (fun y => EFilter e0 (ELambda arg y)) fp))
    | _ => .error ()
| EMap e0 fn => do
    let f0 ← enumFrags A B e0
    match fn with
    | ELambda arg fbody => do
        let fvBag ← fvExp (fun _ => 0) e0
        let assume := if arg ∈ fvBag then [] else [EDeepIn (EVar arg) e0]
        let A2 ← filterAssumptions [arg] A
        let ff ← enumFrags (A2 ++ assume) (addBound B arg) fbody
        pure (⟨A, EMap e0 fn, id, B⟩ ::
          (wrapFrags (fun y => EMap y fn) f0 ++
           wrapFrags (fun y => EMap e0 (ELambda arg y)) ff))
    | _ => .error ()
| EFlatMap e0 fn => do
    let f0 ← enumFrags A B e0
    match fn with
    | ELambda arg fbody => do
        let fvBag ← fvExp (fun _ => 0) e0
        let assume := if arg ∈ fvBag then [] else [EDeepIn (EVar arg) e0]
        let A2 ← filterAssumptions [arg] A
        let ff ← enumFrags (A2 ++ assume) (addBound B arg) fbody
        pure (⟨A, EFlatMap e0 fn, id, B⟩ ::
          (wrapFrags (fun y => EFlatMap y fn) f0 ++
           wrapFrags (fun y => EFlatMap e0 (ELambda arg y)) ff))
    | _ => .error ()
| EMakeMap2 e0 v => do
    let f0 ← enumFrags A B e0
    match v with
    | ELambda arg vbody => do
        let fvBag ← fvExp (fun _ => 0) e0
        let assume := if arg ∈ fvBag then [] else [EDeepIn (EVar arg) e0]
        let A2 ← filterAssumptions [arg] A
        let fv2 ← enumFrags (A2 ++ assume) (addBound B arg) vbody
        pure (⟨A, EMakeMap2 e0 v, id, B⟩ ::
          (wrapFrags (fun y => EMakeMap2 y v) f0 ++
           wrapFrags (fun y => EMakeMap2 e0 (ELambda arg y)) fv2))
    | _ => .error ()
| EMapGet mp k => do
    let f0 ← enumFrags A B mp
    let f1 ← enumFrags A B k
    pure (⟨A, EMapGet mp k, id, B⟩ ::
      (wrapFrags (fun y => EMapGet y k) f0 ++
       wrapFrags (fun y => EMapGet mp y) f1))
| EMapKeys e0 => do
    let f0 ← enumFrags A B e0
    pure (⟨A, EMapKeys e0, id, B⟩ :: wrapFrags (fun y => EMapKeys y) f0)
| EWithAlteredValue h v => do
    let f0 ← enumFrags A B h
    let f1 ← enumFrags A B v
    pure (⟨A, EWithAlteredValue h v, id, B⟩ ::
      (wrapFrags (fun y => EWithAlteredValue y v) f0 ++
       wrapFrags (fun y => EWithAlteredValue h y) f1))
termination_by structural e => e

/-- Fragments of the elements of an expression list, in order. -/
def enumFragsList (A : List Exp) (B : List String) : ExpList → Except Unit (List FragL)
| .nil => .ok []
| .cons e tl => do
    let frs ← enumFrags A B e
    let rest ← enumFragsList A B tl
    pure (frs.map (fun fr => ⟨fr.a, fr.x, fun y => .cons (fr.r y) tl, fr.bound⟩) ++
          rest.map (fun fr => ⟨fr.a, fr.x, fun y => .cons e (fr.rl y), fr.bound⟩))
termination_by structural es => es

/-- Fragments of record-field values, in order. -/
def enumFragsFields (A : List Exp) (B : List String) : RecFields → Except Unit (List FragF)
| .nil => .ok []
| .cons name e tl => do
    let frs ← enumFrags A B e
    let rest ← enumFragsFields A B tl
    pure (frs.map (fun fr => ⟨fr.a, fr.x, fun y => .cons name (fr.r y) tl, fr.bound⟩) ++
          rest.map (fun fr => ⟨fr.a, fr.x, fun y => .cons name e (fr.rf y), fr.bound⟩))
termination_by structural fs => fs

/-- Fragments of the expressions inside comprehension clauses. -/
def enumFragsCls (A : List Exp) (B : List String) : Clauses → Except Unit (List FragC)
| .nil => .ok []
| .cons c tl => do
    let frs ← enumFragsClause A B c
    let rest ← enumFragsCls A B tl
    pure (frs.map (fun fr => ⟨fr.a, fr.x, fun y => .cons (fr.rcl y) tl, fr.bound⟩) ++
          rest.map (fun fr => ⟨fr.a, fr.x, fun y => .cons c (fr.rc y), fr.bound⟩))
termination_by structural cs => cs

/-- Fragments inside one clause (the clause node itself is not an
`Exp` and is filtered away). -/
def enumFragsClause (A : List Exp) (B : List String) : Clause → Except Unit (List FragCl)
| .CPull id0 e => do
    let frs ← enumFrags A B e
    pure (frs.map (fun fr => ⟨fr.a, fr.x, fun y => Clause.CPull id0 (fr.r y), fr.bound⟩))
| .CCond e => do
    let frs ← enumFrags A B e
    pure (frs.map (fun fr => ⟨fr.a, fr.x, fun y => Clause.CCond (fr.r y), fr.bound⟩))
termination_by structural c => c

end

/-- Top-level fragment enumeration (cozy/syntax_tools.py,
`enumerate_fragments` with no pre or post visitor and
`include_lambdas=False`). -/
def enumerate_fragments (e : Exp) : Except Unit (List Frag) :=
  enumFrags [] [] e

/-- Numeric test of cozy/typecheck.py (`is_numeric`). -/
def is_numeric (t : Ty) : Bool := t == TInt || t == TLong

/-- Collection test of cozy/typecheck.py (`is_collection`). -/
def is_collection : Ty → Bool
| TBag _ => true
| TSet _ => true
| _ => false

/-- Structural type equivalence (cozy/typecheck.py,
`Typechecker.types_equivalent`). -/
def types_equivalent : Ty → Ty → Bool
| TMap k1 v1, TMap k2 v2 => types_equivalent k1 k2 && types_equivalent v1 v2
| TBag t1, TBag t2 => types_equivalent t1 t2
| TSet t1, TSet t2 => types_equivalent t1 t2
| t1, t2 => t1 == t2

/-- The error emitted by `ensure_type`: nothing when either side is the
`DEFAULT_TYPE` sentinel or the types are equivalent (error text
abbreviated; the claims only count errors). -/
def ensure_type (t expected : Ty) (msg : String) : List String :=
  if t ≠ TDefault ∧ expected ≠ TDefault ∧ ¬ types_equivalent t expected then [msg] else []

/-- Assignment compatibility (cozy/typecheck.py, `check_assignment`). -/
def check_assignment (lt rt : Ty) : List String :=
  if lt = rt ∨ lt = TDefault ∨ rt = TDefault then []
  else
    match lt, rt with
    | TBag _, TBag _ => []
    | _, _ => ["cannot assign"]

/-- Numeric check (cozy/typecheck.py, `ensure_numeric`). -/
def ensure_numeric (t : Ty) : List String :=
  if t = TDefault then []
  else if ¬ is_numeric t then ["expression has non-numeric type"] else []

/-- Numeric least upper bound (cozy/typecheck.py, `numeric_lub`):
long if either side is long, int otherwise. -/
def numeric_lub (t1 t2 : Ty) : Ty :=
  if t1 = TLong ∨ t2 = TLong then TLong else TInt

/-- Element type of a collection type (`t.t` in the source). -/
def collElem : Ty → Ty
| TBag t => t
| TSet t => t
| _ => TDefault

/-- Least upper bound with error report (cozy/typecheck.py,
`Typechecker.lub`): equal types, numeric lub, bag of the first element
type for two collections, otherwise an error and the sentinel. -/
def lub (t1 t2 : Ty) : Ty × List String :=
  if t1 = t2 then (t1, [])
  else if is_numeric t1 ∧ is_numeric t2 then (numeric_lub t1 t2, [])
  else if is_collection t1 ∧ is_collection t2 then (TBag (collElem t1), [])
  else (TDefault, ["cannot unify types"])

/-- Collection-element extraction with error report
(cozy/typecheck.py, `get_collection_type`). -/
def get_collection_type (t : Ty) : Ty × List String :=
  if t = TDefault then (TDefault, [])
  else
    match t with
    | TBag tt => (tt, [])
    | TSet tt => (tt, [])
    | _ => (TDefault, ["expression has non-collection type"])

/-- Map key/value extraction with error report (`get_map_type`). -/
def get_map_type (t : Ty) : (Ty × Ty) × List String :=
  if t = TDefault then ((TDefault, TDefault), [])
  else
    match t with
    | TMap k v => ((k, v), [])
    | _ => ((TDefault, TDefault), ["expression has non-map type"])

/-- Handle value-type extraction with error report (`get_handle_type`). -/
def get_handle_type (t : Ty) : Ty × List String :=
  if t = TDefault then (TDefault, [])
  else
    match t with
    | THandle _ vt => (vt, [])
    | _ => (TDefault, ["expression has non-handle type"])

/-- The typechecking context: the scope stack (innermost binding first)
and the function and query signatures seen so far
(cozy/typecheck.py, `self.env`, `self.funcs` and `self.queries`). -/
structure TCtx where
  env : List (String × Ty)
  funcs : List (String × (List (String × Ty) × Ty))

/-- Scope lookup. -/
def envLookup (env : List (String × Ty)) (x : String) : Option Ty :=
  (List.find? (fun p => p.1 == x) env).map (fun p => p.2)

/-- Per-argument checks of `visit_ECall`: each call argument type
against the declared parameter type (`zip` truncates, as in Python). -/
def zipEnsure : List (String × Ty) → List Ty → List String
| (_, dt) :: ds, t :: ts => ensure_type t dt "call argument has wrong type" ++ zipEnsure ds ts
| _, _ => []

/-- Projection of a TyList entry (`t.ts[n]`). -/
def tyListGet : TyList → Nat → Option Ty
| .nil, _ => none
| .cons t _, 0 => some t
| .cons _ tl, n + 1 => tyListGet tl n

/-- Length of a TyList. -/
def tyListLen : TyList → Nat
| .nil => 0
| .cons _ tl => 1 + tyListLen tl

/-- Record-field type lookup (`dict(e.e.type.fields)[e.f]`). -/
def tyFieldsGet : TyFields → String → Option Ty
| .nil, _ => none
| .cons n t tl, f => if n == f then some t else tyFieldsGet tl f

/-- The `visit_EBinOp` rule of cozy/typecheck.py (lines 301-328) as a
function of the operator, the elaborated operand types and the operand
errors: comparisons yield bool, checking operand compatibility unless
both operands are numeric; boolean operators check both sides; `in`
checks the element type; `+` and `-` dispatch on a numeric left operand
to the numeric lub, and otherwise concatenate collections, rejecting
unequal element types and assigning a bag of the first element type.
An unknown operator raises `NotImplementedError`. -/
def tcBinOp (op : String) (t1 t2 : Ty) (er1 er2 : List String) :
    Except Unit (Ty × List String) :=
  if op ∈ ["==", "===", "!=", "<", "<=", ">", ">="] then
    let er3 :=
      if ¬ (t1 ∈ [TInt, TLong] ∧ t2 ∈ [TInt, TLong]) then
        ensure_type t2 t1 "comparison operands have different types"
      else []
    .ok (TBool, er1 ++ er2 ++ er3)
  else if op ∈ ["and", "or", "=>"] then
    let er3 := ensure_type t1 TBool "operand must be boolean"
    let er4 := ensure_type t2 TBool "operand must be boolean"
    .ok (TBool, er1 ++ er2 ++ er3 ++ er4)
  else if op = "in" then
    let (tt, er3) := get_collection_type t2
    let er4 := ensure_type t1 tt "element type mismatch"
    .ok (TBool, er1 ++ er2 ++ er3 ++ er4)
  else if op ∈ ["+", "-"] then
    if t1 ∈ [TInt, TLong] then
      let er3 := ensure_numeric t1
      let er4 := ensure_numeric t2
      .ok (numeric_lub t1 t2, er1 ++ er2 ++ er3 ++ er4)
    else
      let (tt1, er3) := get_collection_type t1
      let (tt2, er4) := get_collection_type t2
      let er5 := if tt1 ≠ tt2 then ["cannot concat"] else []
      .ok (TBag tt1, er1 ++ er2 ++ er3 ++ er4 ++ er5)
  else .error ()

mutual

/-- The expression rules of cozy/typecheck.py (`Typechecker`), as a
function from the context to the elaborated type and the accumulated
error list.  Inputs are un-annotated parser output: the branches that
consult a pre-existing `.type` annotation (`ENum`, `ENull`,
`EEmptyList`, `EHandle`) take the missing-annotation path.  Paths on
which the Python checker itself crashes (a lambda in a position that
never assigned its argument type, `visit_EMapGet` reading `.k` of a
non-map type, `visit_EEmptyList` never assigning `.type`) are `Except`
errors. -/
def tc (ctx : TCtx) : Exp → Except Unit (Ty × List String)
| EVar x =>
    match envLookup ctx.env x with
    | some t => .ok (t, [])
    | none => .ok (TDefault, ["no var in scope"])
| EBool _ => .ok (TBool, [])
| ENum _ => .ok (TDefault, ["missing type on numeric literal"])
| EStr _ => .ok (TString, [])
| EEnumEntry n =>
    match envLookup ctx.env n with
    | some t => .ok (t, [])
    | none => .ok (TDefault, ["no enum entry in scope"])
| ENull => .ok (TDefault, ["missing type on null literal"])
| ECond c t f => do
    let (tc1, er1) ← tc ctx c
    let (tt, er2) ← tc ctx t
    let (tf, er3) ← tc ctx f
    let er4 := ensure_type tc1 TBool "condition must be boolean"
    let (tl, er5) := lub tf tt
    pure (tl, er1 ++ er2 ++ er3 ++ er4 ++ er5)
| EBinOp e1 op e2 => do
    let (t1, er1) ← tc ctx e1
    let (t2, er2) ← tc ctx e2
    tcBinOp op t1 t2 er1 er2
| EUnaryOp op e0 => do
    let (t0, er0) ← tc ctx e0
    if op = "sum" then
      let (tt, er1) := get_collection_type t0
      if is_numeric tt ∨ tt = TDefault then
        pure (tt, er0 ++ er1)
      else
        pure (TDefault, er0 ++ er1 ++ ["cannot sum"])
    else if op ∈ ["unique", "empty", "exists"] then
      let (_, er1) := get_collection_type t0
      pure (TBool, er0 ++ er1)
    else if op = "distinct" then
      let (_, er1) := get_collection_type t0
      pure (t0, er0 ++ er1)
    else if op = "the" then
      let (tt, er1) := get_collection_type t0
      pure (tt, er0 ++ er1)
    else if op ∈ ["any", "all"] then
      let er1 := ensure_type t0 (TBag TBool) "operand must be a bag of booleans"
      pure (TBool, er0 ++ er1)
    else if op = "len" then
      let (_, er1) := get_collection_type t0
      pure (TInt, er0 ++ er1)
    else if op = "not" then
      let er1 := ensure_type t0 TBool "operand must be boolean"
      pure (TBool, er0 ++ er1)
    else if op = "-" then
      let er1 := ensure_numeric t0
      pure (t0, er0 ++ er1)
    else .error ()
| EArgMin e0 f => do
    let (t0, er0) ← tc ctx e0
    let (tt, er1) := get_collection_type t0
    match f with
    | ELambda a b => do
        let (_, er2) ← tc { ctx with env := (a, tt) :: ctx.env } b
        pure (tt, er0 ++ er1 ++ er2)
    | _ => .error ()
| EArgMax e0 f => do
    let (t0, er0) ← tc ctx e0
    let (tt, er1) := get_collection_type t0
    match f with
    | ELambda a b => do
        let (_, er2) ← tc { ctx with env := (a, tt) :: ctx.env } b
        pure (tt, er0 ++ er1 ++ er2)
    | _ => .error ()
| EHandle ad v => do
    let (ta, era) ← tc ctx ad
    let er1 := ensure_type ta TInt "handle address must be an int"
    let (_, erv) ← tc ctx v
    pure (TDefault, era ++ er1 ++ erv ++ ["missing type on handle expression"])
| EGetField e0 f => do
    let (t0, er0) ← tc ctx e0
    if t0 = TDefault then
      pure (TDefault, er0)
    else
      match t0 with
      | TRecord fields =>
          match tyFieldsGet fields f with
          | some t => pure (t, er0)
          | none => pure (TDefault, er0 ++ ["no such field on record"])
      | THandle _ vt =>
          if f = "val" then pure (vt, er0)
          else pure (TDefault, er0 ++ ["no such field on handle"])
      | _ => pure (TDefault, er0 ++ ["cannot get field from non-record"])
| EMakeRecord fields => do
    let (fts, er0) ← tcFields ctx fields
    pure (TRecord fts, er0)
| EListComprehension e0 cs => do
    let (env2, er0) ← tcClauses ctx cs
    let (t0, er1) ← tc { ctx with env := env2 } e0
    pure (TBag t0, er0 ++ er1)
| EEmptyList => .error ()
| ESingleton e0 => do
    let (t0, er0) ← tc ctx e0
    pure (TBag t0, er0)
| ECall fn args => do
    let sig := (List.find? (fun p => p.1 == fn) ctx.funcs).map (fun p => p.2)
    let er0 := if sig.isNone then ["unknown function"] else []
    let (ts, er1) ← tcCallArgs ctx args
    match sig with
    | some (decls, outT) =>
        let er2 := if decls.length ≠ ts.length then ["wrong number of arguments"] else []
        let er3 := zipEnsure decls ts
        pure (outT, er0 ++ er1 ++ er2 ++ er3)
    | none => pure (TDefault, er0 ++ er1)
| ETuple es => do
    let (ts, er0) ← tcTupleArgs ctx es
    pure (TTuple ts, er0)
| ETupleGet e0 n => do
    let (t0, er0) ← tc ctx e0
    match t0 with
    | TTuple ts =>
        match tyListGet ts n with
        | some t => pure (t, er0)
        | none => pure (TDefault, er0 ++ ["tuple index out of range"])
    | _ => pure (TDefault, er0 ++ ["cannot get element from non-tuple"])
| ELet e0 f => do
    let (t0, er0) ← tc ctx e0
    match f with
    | ELambda a b => do
        let (tb, erb) ← tc { ctx with env := (a, t0) :: ctx.env } b
        pure (tb, er0 ++ erb)
    | _ => .error ()
| ELambda _ _ => .error ()
| EStateVar e0 => do
    let (t0, er0) ← tc ctx e0
    pure (t0, er0)
| EFilter e0 p => do
    let (t0, er0) ← tc ctx e0
    let (elemT, er1) := get_collection_type t0
    match p with
    | ELambda a b => do
        let (tb, erb) ← tc { ctx with env := (a, elemT) :: ctx.env } b
        let er2 := ensure_type tb TBool "filter predicate must be boolean"
        let (elemT2, er3) := get_collection_type t0
        match t0 with
        | TSet _ => pure (TSet elemT2, er0 ++ er1 ++ erb ++ er2 ++ er3)
        | _ => pure (TBag elemT2, er0 ++ er1 ++ erb ++ er2 ++ er3)
    | _ => .error ()
| EMap e0 f => do
    let (t0, er0) ← tc ctx e0
    let (elemT, er1) := get_collection_type t0
    match f with
    | ELambda a b => do
        let (tb, erb) ← tc { ctx with env := (a, elemT) :: ctx.env } b
        pure (TBag tb, er0 ++ er1 ++ erb)
    | _ => .error ()
| EFlatMap _ _ => .error ()
| EMakeMap2 e0 v => do
    let (t0, er0) ← tc ctx e0
    let (elemT, er1) := get_collection_type t0
    match v with
    | ELambda a b => do
        let (tb, erb) ← tc { ctx with env := (a, elemT) :: ctx.env } b
        pure (TMap elemT tb, er0 ++ er1 ++ erb)
    | _ => .error ()
| EMapGet mp k => do
    let (tm, er0) ← tc ctx mp
    let (tk, er1) ← tc ctx k
    match tm with
    | TMap kt vt =>
        let er2 := ensure_type tk kt "map key has wrong type"
        pure (vt, er0 ++ er1 ++ er2)
    | _ => .error ()
| EMapKeys e0 => do
    let (t0, er0) ← tc ctx e0
    let ((kt, _), er1) := get_map_type t0
    pure (TBag kt, er0 ++ er1)
| EWithAlteredValue h v => do
    let (th, er0) ← tc ctx h
    let (tv, er1) ← tc ctx v
    let (vt, er2) := get_handle_type th
    let er3 := check_assignment vt tv
    pure (th, er0 ++ er1 ++ er2 ++ er3)
termination_by structural e => e

/-- Sequential elaboration of call arguments (`visit_ECall`). -/
def tcCallArgs (ctx : TCtx) : ExpList → Except Unit (List Ty × List String)
| .nil => .ok ([], [])
| .cons e tl => do
    let (t, er) ← tc ctx e
    let (ts, ers) ← tcCallArgs ctx tl
    pure (t :: ts, er ++ ers)
termination_by structural es => es

/-- Sequential elaboration of tuple components (`visit_ETuple`). -/
def tcTupleArgs (ctx : TCtx) : ExpList → Except Unit (TyList × List String)
| .nil => .ok (.nil, [])
| .cons e tl => do
    let (t, er) ← tc ctx e
    let (ts, ers) ← tcTupleArgs ctx tl
    pure (.cons t ts, er ++ ers)
termination_by structural es => es

/-- Sequential elaboration of record fields (`visit_EMakeRecord`). -/
def tcFields (ctx : TCtx) : RecFields → Except Unit (TyFields × List String)
| .nil => .ok (.nil, [])
| .cons n e tl => do
    let (t, er) ← tc ctx e
    let (ts, ers) ← tcFields ctx tl
    pure (.cons n t ts, er ++ ers)
termination_by structural fs => fs

/-- Clause elaboration of `visit_EListComprehension`: a pull binds its
name to the element type of the pulled collection; a condition must be
boolean.  Returns the extended scope. -/
def tcClauses (ctx : TCtx) : Clauses → Except Unit (List (String × Ty) × List String)
| .nil => .ok (ctx.env, [])
| .cons c tl => do
    match c with
    | .CPull x e => do
        let (t, er) ← tc ctx e
        let (tt, er1) := get_collection_type t
        let (env2, er2) ← tcClauses { ctx with env := (x, tt) :: ctx.env } tl
        pure (env2, er ++ er1 ++ er2)
    | .CCond e => do
        let (t, er) ← tc ctx e
        let er1 := ensure_type t TBool "comprehension condition must be boolean"
        let (env2, er2) ← tcClauses ctx tl
        pure (env2, er ++ er1 ++ er2)
termination_by structural cs => cs

end

mutual

/-- Values of the solver semantic domain.  Modelled from the spec:
the cozy evaluator (cozy/evaluation.py) and the SMT oracle
(cozy/solver.py) are not under src/; section 6 of the specification
describes the logical fragment (booleans, integers, strings, bags as
multisets, records and tuples as projections, handles as
address/value pairs). -/
inductive Value
| VBool (b : Bool)
| VInt (n : Int)
| VStr (s : String)
| VNull
| VBag (elems : ValueList)
| VTuple (es : ValueList)
| VRecord (fields : ValueFields)
| VHandle (addr : Int) (val : Value)
deriving DecidableEq

/-- Ordered multiset contents / tuple components. -/
inductive ValueList
| nil
| cons (v : Value) (tl : ValueList)
deriving DecidableEq

/-- Record field values. -/
inductive ValueFields
| nil
| cons (n : String) (v : Value) (tl : ValueFields)
deriving DecidableEq

end

/-- Append of value lists (bag union). -/
def vappend : ValueList → ValueList → ValueList
| .nil, w => w
| .cons v tl, w => .cons v (vappend tl w)

/-- Remove one occurrence of a value (bag difference helper). -/
def vremoveOne (x : Value) : ValueList → ValueList
| .nil => .nil
| .cons v tl => if v = x then tl else .cons v (vremoveOne x tl)

/-- Bag difference: remove one occurrence per element of the second. -/
def vdiff (l : ValueList) : ValueList → ValueList
| .nil => l
| .cons v tl => vdiff (vremoveOne v l) tl

/-- Multiset length. -/
def vlen : ValueList → Nat
| .nil => 0
| .cons _ tl => 1 + vlen tl

/-- Membership in a value list. -/
def vmem (x : Value) : ValueList → Bool
| .nil => false
| .cons v tl => v = x || vmem x tl

/-- Remove all occurrences of a value. -/
def vremoveAll (x : Value) : ValueList → ValueList
| .nil => .nil
| .cons v tl => if v = x then vremoveAll x tl else .cons v (vremoveAll x tl)

/-- Distinct elements, keeping first occurrences (accumulator form). -/
def vdistinctAux (seen : ValueList) : ValueList → ValueList
| .nil => .nil
| .cons v tl =>
    if vmem v seen then vdistinctAux seen tl
    else .cons v (vdistinctAux (.cons v seen) tl)

/-- Distinct elements, keeping first occurrences. -/
def vdistinct (l : ValueList) : ValueList := vdistinctAux .nil l

/-- Handle-aware equality used for the `==` operator: handles compare
by address only (the simplifier strips `EWithAlteredValue` under `==`);
everything else compares structurally. -/
def veqAddr : Value → Value → Bool
| .VHandle a1 _, .VHandle a2 _ => a1 == a2
| v1, v2 => v1 == v2

/-- An environment for evaluation: a model assigning values to free
variables. -/
def VEnv : Type := String → Option Value

/-- Record field projection on values. -/
def vfieldGet : ValueFields → String → Option Value
| .nil, _ => none
| .cons n v tl, f => if n = f then some v else vfieldGet tl f

/-- Evaluation of the first-order fragment of the IR in a model.
Modelled from the spec: this stands in for the semantics the external
solver oracle (`valid`, `satisfy`) decides.  Deep equality `===` is
structural equality of values.  Constructs whose evaluation requires
higher-order iteration (filter, map, comprehensions) or uninterpreted
functions return `none`; the claims never need their values. -/
def evalE (env : VEnv) : Exp → Option Value
| EVar x => env x
| EBool b => some (.VBool b)
| ENum n => some (.VInt n)
| EStr s => some (.VStr s)
| EEnumEntry _ => none
| ENull => some .VNull
| ECond c t f =>
    match evalE env c with
    | some (.VBool true) => evalE env t
    | some (.VBool false) => evalE env f
    | _ => none
| EBinOp e1 op e2 => do
    let v1 ← evalE env e1
    let v2 ← evalE env e2
    match op, v1, v2 with
    | "===", _, _ => some (.VBool (v1 = v2))
    | "==", _, _ => some (.VBool (veqAddr v1 v2))
    | "!=", _, _ => some (.VBool (¬ veqAddr v1 v2))
    | "and", .VBool b1, .VBool b2 => some (.VBool (b1 && b2))
    | "or", .VBool b1, .VBool b2 => some (.VBool (b1 || b2))
    | "+", .VInt n1, .VInt n2 => some (.VInt (n1 + n2))
    | "+", .VBag l1, .VBag l2 => some (.VBag (vappend l1 l2))
    | "-", .VInt n1, .VInt n2 => some (.VInt (n1 - n2))
    | "-", .VBag l1, .VBag l2 => some (.VBag (vdiff l1 l2))
    | "<", .VInt n1, .VInt n2 => some (.VBool (n1 < n2))
    | "<=", .VInt n1, .VInt n2 => some (.VBool (n1 ≤ n2))
    | ">", .VInt n1, .VInt n2 => some (.VBool (n2 < n1))
    | ">=", .VInt n1, .VInt n2 => some (.VBool (n2 ≤ n1))
    | "in", _, .VBag l => some (.VBool (vmem v1 l))
    | _, _, _ => none
| EUnaryOp op e0 => do
    let v ← evalE env e0
    match op, v with
    | "not", .VBool b => some (.VBool (!b))
    | "-", .VInt n => some (.VInt (-n))
    | "len", .VBag l => some (.VInt (vlen l))
    | "empty", .VBag l => some (.VBool (vlen l = 0))
    | "exists", .VBag l => some (.VBool (¬ vlen l = 0))
    | "distinct", .VBag l => some (.VBag (vdistinct l))
    | "the", .VBag (.cons x _) => some x
    | _, _ => none
| EArgMin _ _ => none
| EArgMax _ _ => none
| EHandle ad v => do
    let va ← evalE env ad
    let vv ← evalE env v
    match va with
    | .VInt n => some (.VHandle n vv)
    | _ => none
| EGetField e0 f => do
    let v ← evalE env e0
    match v with
    | .VRecord fields => vfieldGet fields f
    | .VHandle _ hv => if f = "val" then some hv else none
    | _ => none
| EMakeRecord _ => none
| EListComprehension _ _ => none
| EEmptyList => some (.VBag .nil)
| ESingleton e0 => do
    let v ← evalE env e0
    some (.VBag (.cons v .nil))
| ECall _ _ => none
| ETuple _ => none
| ETupleGet _ _ => none
| ELet e0 f => do
    let v ← evalE env e0
    match f with
    | ELambda a b => evalE (fun y => if y = a then some v else env y) b
    | _ => none
| ELambda _ _ => none
| EStateVar e0 => evalE env e0
| EFilter _ _ => none
| EMap _ _ => none
| EFlatMap _ _ => none
| EMakeMap2 _ _ => none
| EMapGet _ _ => none
| EMapKeys _ => none
| EWithAlteredValue h v => do
    let vh ← evalE env h
    let vv ← evalE env v
    match vh with
    | .VHandle a _ => some (.VHandle a vv)
    | _ => none

/-- A solver-validity oracle is sound for the evaluation semantics when
everything it declares valid evaluates to true in every model.
Modelled from the spec: the contract of the external `valid(e)` oracle
in section 6. -/
def SoundValid (valid : Exp → Bool) : Prop :=
  ∀ b, valid b = true → ∀ env : VEnv, evalE env b = some (.VBool true)

/-- The validating simplify wrapper (cozy/simplification.py,
`simplify` with `validate=True`).  The bottom-up rewriting pass
(`_V.visit`) is an arbitrary function parameter: the claim is about the
wrapper, which checks `orig === new` with the solver and falls back to
the original expression when the solver does not confirm equality. -/
def simplify (visit : Exp → Exp) (valid : Exp → Bool) (e : Exp) : Exp :=
  let orig := e
  let new := visit e
  if valid (EBinOp orig "===" new) then new else orig

/-- 2 to the 64: the modulus of the `ctypes.c_uint64` cell backing the
fresh-name counter (cozy/common.py, `_i = Value(ctypes.c_uint64, 0)`);
the counter wraps to 0 after 2 to the 64 increments. -/
def UINT64_MOD : Nat := 18446744073709551616

/-- The name minted by `fresh_name` for hint and counter value
(cozy/common.py: Python format "_" + hint + decimal i). -/
def freshFmt (hint : String) (i : Nat) : String :=
  "_" ++ hint ++ Nat.repr i

/-- Search loop of the `omit` branch of `fresh_name`: the first index
whose name is not in the omit set, starting from zero.  The Python loop
always terminates because decimal names are injective; the fuel
argument (one more than the omit-set size always suffices) models it
structurally. -/
def omitSearch (o : List String) (hint : String) : Nat → Nat → Option String
| _, 0 => none
| i, f + 1 =>
    if freshFmt hint i ∈ o then omitSearch o hint (i + 1) f
    else some (freshFmt hint i)

/-- fresh_name (cozy/common.py): with an omit set, return the first
"_hint i" not in the set without touching the counter; without one,
increment the mutex-guarded `c_uint64` counter -- wrapping modulo 2 to
the 64 -- and embed its new value in the name. -/
def fresh_name (hint : String) (om : Option (List String)) (ctr : Nat) :
    Except Unit (String × Nat) :=
  match om with
  | some o =>
      match omitSearch o hint 0 (o.length + 1) with
      | some name => .ok (name, ctr)
      | none => .error ()
  | none => .ok (freshFmt hint ((ctr + 1) % UINT64_MOD), (ctr + 1) % UINT64_MOD)

/-- A run of fresh_name calls threading the process-wide counter. -/
def runFresh (ctr : Nat) : List (String × Option (List String)) →
    Except Unit (List String × Nat)
| [] => .ok ([], ctr)
| (h, om) :: tl => do
    let (n, c1) ← fresh_name h om ctr
    let (ns, c2) ← runFresh c1 tl
    pure (n :: ns, c2)

/-- The number of counter-minting calls in a run of fresh_name calls
(the calls made without an omit set). -/
def countNone (l : List (String × Option (List String))) : Nat :=
  (l.filter (fun p => p.2.isNone)).length

/-- Ordered-dict update: replace in place or append
(`self.query_impls[q.name] = ...`). -/
def setAssoc {α β : Type} [BEq α] (l : List (α × β)) (k : α) (v : β) : List (α × β) :=
  if (List.find? (fun p => p.1 == k) l).isSome then
    List.map (fun p => if p.1 == k then (k, v) else p) l
  else l ++ [(k, v)]

/-- Modelled from the spec: `rewrite_ret(q, lambda prev: ret,
keep_assumptions=False)` from cozy/synthesis/misc.py (not under src/);
section 4.5 says the installed implementation is `q` with body `ret`
and assumptions cleared. -/
def rewrite_ret_clear (q : QueryS) (ret : Exp) : QueryS :=
  { q with ret := ret, assumptions := [] }

/-- The abstract state variables of the spec
(`Implementation.abstract_state`). -/
def abstract_state (s : SpecS) : List (String × Ty) := s.statevars

/-- Oracles for the pieces of `set_impl` whose code is not under src/.
Modelled from the spec: `delta_form` and `sketch_update` are the
incrementalization interface of section 4.4 (cozy/incrementalization.py
is not in the source tree), and `addSub` stands for `_add_subquery`,
which registers or dedups a discovered sub-query (its solver-based
equivalence test lives in cozy/synthesis/misc.py) and returns the
possibly rewritten update statement. -/
structure SetImplOracles where
  deltaForm : List (String × Ty) → OpS → Repl
  sketchUpdate : Exp → Exp → Exp → List (String × Ty) → List Exp → Stm × List QueryS
  addSub : Impl → String → QueryS → Stm → Impl × Stm

/-- The dedup search of `set_impl`: the first existing concrete-state
entry with the same type whose defining expression the solver proves
equal under the spec assumptions. -/
def findEquiv (valid : Exp → Bool) (assumptions : List Exp)
    (cs : List (String × Exp × Ty)) (e : Exp) (ty : Ty) : Option String :=
  (List.find? (fun ent => ent.2.2 == ty &&
      valid (mkImplies (EAll assumptions) (mkEq e ent.2.1))) cs).map (fun ent => ent.1)

/-- The first loop of `set_impl` (cozy/synthesis/impls.py lines
183-192): each rep entry is checked against the concrete state that
existed before the call; on a hit the return expression is rewritten to
the existing variable and the entry dropped, otherwise it is kept. -/
def dedupRep (valid : Exp → Bool) (assumptions : List Exp)
    (cs : List (String × Exp × Ty)) (fuel : Nat) :
    List (String × Exp × Ty) → Exp → Nat →
    Except Unit (List (String × Exp × Ty) × Exp × Nat)
| [], ret, ctr => .ok ([], ret, ctr)
| (v, e, t) :: rest, ret, ctr =>
    match findEquiv valid assumptions cs e t with
    | some aeq => do
        let (ret2, ctr1) ← subst [(v, EVar aeq)] fuel ctr ret
        dedupRep valid assumptions cs fuel rest ret2 ctr1
    | none => do
        let (kept, ret2, ctr1) ← dedupRep valid assumptions cs fuel rest ret ctr
        pure ((v, e, t) :: kept, ret2, ctr1)

/-- Fold `_add_subquery` over the discovered sub-queries of one
`sketch_update` call. -/
def foldAddSub (orc : SetImplOracles) (opName : String) :
    List QueryS → Impl → Stm → Impl × Stm
| [], impl, stm => (impl, stm)
| sq :: rest, impl, stm =>
    let (impl2, stm2) := orc.addSub impl opName sq stm
    foldAddSub orc opName rest impl2 stm2

/-- The inner rep loop of `set_impl` for one op: compute the update
statement for each newly added member and register it. -/
def setImplRepLoop (orc : SetImplOracles) (op : OpS) (delta : Repl) (fuel : Nat) :
    List (String × Exp × Ty) → Impl → Nat → Except Unit (Impl × Nat)
| [], impl, ctr => .ok (impl, ctr)
| (v, proj, _) :: rest, impl, ctr => do
    let (newProj, ctr1) ← subst delta fuel ctr proj
    let (stm, subqs) := orc.sketchUpdate (EVar v) proj newProj
        (abstract_state impl.spec) op.assumptions
    let (impl2, stm2) := foldAddSub orc op.name subqs impl stm
    let impl3 := { impl2 with updates := setAssoc impl2.updates (v, op.name) stm2 }
    setImplRepLoop orc op delta fuel rest impl3 ctr1

/-- The op loop of `set_impl`. -/
def setImplOps (orc : SetImplOracles) (valid : Exp → Bool) (fuel : Nat)
    (rep : List (String × Exp × Ty)) :
    List OpS → Impl → Nat → Except Unit (Impl × Nat)
| [], impl, ctr => .ok (impl, ctr)
| op :: ops, impl, ctr => do
    let delta := orc.deltaForm impl.spec.statevars op
    let (impl2, ctr1) ← setImplRepLoop orc op delta fuel rep impl ctr
    setImplOps orc valid fuel rep ops impl2 ctr1

/-- set_impl (cozy/synthesis/impls.py, `Implementation.set_impl`):
dedup `rep` against the existing concrete state with the solver,
extend the concrete state with the survivors, install the rewritten
query implementation with assumptions cleared, then incrementalize
every surviving member against every op. -/
def set_impl (orc : SetImplOracles) (valid : Exp → Bool) (fuel : Nat)
    (impl : Impl) (q : QueryS) (rep : List (String × Exp × Ty)) (ret : Exp)
    (ctr : Nat) : Except Unit (Impl × Nat) := do
  let (kept, ret2, ctr1) ←
    dedupRep valid impl.spec.assumptions impl.concrete_state fuel rep ret ctr
  let impl1 := { impl with
                 concrete_state := impl.concrete_state ++ kept,
                 query_impls := setAssoc impl.query_impls q.name (rewrite_ret_clear q ret2) }
  setImplOps orc valid fuel kept (op_specs impl1.spec) impl1 ctr1

/-- Ordered-set insertion (`OrderedSet.add`). -/
def addIfAbsent (l : List String) (x : String) : List String :=
  if x ∈ l then l else l ++ [x]

/-- Add many names preserving first-insertion order. -/
def addAll (l : List String) (xs : List String) : List String :=
  xs.foldl addIfAbsent l

/-- Lookup in the updates table; a missing key reads as `SNoOp`, the
default of the source `defaultdict(SNoOp)` (the insert-on-read side
effect of the defaultdict stores only `SNoOp` values and is not
modelled). -/
def lookupUpdates (u : List ((String × String) × Stm)) (k : String × String) : Stm :=
  ((List.find? (fun p => p.1 == k) u).map (fun p => p.2)).getD .SNoOp

/-- The first inner loop of the `cleanup` fixed point: walk the
snapshot of `queries_to_keep`; every kept query with an implementation
contributes its free variables to the kept state vars and the calls in
its return expression to the kept queries. -/
def cleanupLoopQ (impl : Impl) :
    List String → List String → List String →
    Except Unit (List String × List String)
| [], Q, V => .ok (Q, V)
| qn :: rest, Q, V =>
    match List.find? (fun p => p.1 == qn) impl.query_impls with
    | some (_, qi) => do
        let fvs ← free_vars_query qi
        let V2 := addAll V fvs
        let Q2 := addAll Q (callsDeepExp qi.ret)
        cleanupLoopQ impl rest Q2 V2
    | none => cleanupLoopQ impl rest Q V

/-- The op part of the `cleanup` fixed point: for every op, the queries
used by its handle updates are kept, and so are the queries used by the
update statement of every kept state var. -/
def cleanupLoopOps (impl : Impl) :
    List OpS → List String → List String → List String
| [], Q, _ => Q
| op :: ops, Q, V =>
    let Q2 := impl.handle_updates.foldl
      (fun acc ent => if ent.1.2 == op.name then addAll acc (callsStm ent.2) else acc) Q
    let Q3 := V.foldl (fun acc sv => addAll acc (callsStm (lookupUpdates impl.updates (sv, op.name)))) Q2
    cleanupLoopOps impl ops Q3 V

/-- One iteration of the `while changed` loop of `cleanup`. -/
def cleanupStep (impl : Impl) (st : List String × List String) :
    Except Unit (List String × List String) := do
  let (q1, v1) ← cleanupLoopQ impl st.1 st.1 st.2
  pure (cleanupLoopOps impl (op_specs impl.spec) q1 v1, v1)

/-- Iterate `cleanupStep` to its fixed point; the fuel passed by
`cleanup` always suffices because each non-stable step strictly grows
the kept sets, which are bounded by the finite name pools of the
implementation. -/
def cleanupLoop (impl : Impl) : Nat → List String × List String →
    Except Unit (List String × List String)
| 0, _ => .error ()
| f + 1, st => do
    let st2 ← cleanupStep impl st
    if st2 = st then pure st else cleanupLoop impl f st2

/-- The initial kept set: the names of the Public queries. -/
def publicNames (impl : Impl) : List String :=
  addAll [] (impl.query_specs.filterMap
    (fun q => if q.visibility = Vis.Public then some q.name else none))

/-- Every query name an iteration of the fixed point can add. -/
def cleanupQPool (impl : Impl) : List String :=
  (impl.query_impls.map (fun p => callsDeepExp p.2.ret)).flatten ++
  (impl.handle_updates.map (fun p => callsStm p.2)).flatten ++
  (impl.updates.map (fun p => callsStm p.2)).flatten

/-- Every state-var name an iteration can add (free variables of the
implementations; an erroring free-variable computation contributes
nothing, and makes the whole cleanup fail anyway). -/
def cleanupVPool (impl : Impl) : List String :=
  (impl.query_impls.map (fun p => ((free_vars_query p.2).toOption).getD [])).flatten

/-- Fuel that always reaches the fixed point. -/
def cleanupFuel (impl : Impl) : Nat :=
  (publicNames impl).length + (cleanupQPool impl).length +
  (cleanupVPool impl).length + 1

/-- Does any retained implementation have `v` among its free variables
(the lazy `any(...)` of the concrete-state sweep; `free_vars` is only
forced until the first hit). -/
def stateKeep (qi : List (String × QueryS)) (v : String) : Except Unit Bool :=
  match qi with
  | [] => .ok false
  | (_, q) :: tl => do
      let fvs ← free_vars_query q
      if v ∈ fvs then pure true else stateKeep tl v

/-- The concrete-state sweep of `cleanup`. -/
def filterState (qi : List (String × QueryS)) :
    List (String × Exp × Ty) → Except Unit (List (String × Exp × Ty))
| [] => .ok []
| ent :: tl => do
    let k ← stateKeep qi ent.1
    let rest ← filterState qi tl
    pure (if k then ent :: rest else rest)

/-- cleanup (cozy/synthesis/impls.py, `Implementation.cleanup`):
mark-and-sweep.  The mark phase iterates the step above to a fixed
point starting from the Public query names; the sweep keeps the
query specs and implementations whose names were marked, then the
concrete-state entries free in some retained implementation, then the
update entries of surviving state vars. -/
def cleanup (impl : Impl) : Except Unit Impl := do
  let stF ← cleanupLoop impl (cleanupFuel impl) (publicNames impl, [])
  let keepQ := stF.1
  let qs2 := impl.query_specs.filter (fun q => q.name ∈ keepQ)
  let qi2 := impl.query_impls.filter (fun p => p.1 ∈ keepQ)
  let kept ← filterState qi2 impl.concrete_state
  let up2 := impl.updates.filter (fun p => decide (p.1.1 ∈ kept.map (fun ent => ent.1)))
  pure { impl with
         query_specs := qs2,
         query_impls := qi2,
         concrete_state := kept,
         updates := up2 }

mutual

/-- The expression contains no list-comprehension pull clause (the
fragment of the language on which `alpha_equivalent` cannot hit the
`unify` contract error of two compared pulls). -/
def pullFree : Exp → Bool
| EVar _ => true
| EBool _ => true
| ENum _ => true
| EStr _ => true
| EEnumEntry _ => true
| ENull => true
| ECond c t f => pullFree c && pullFree t && pullFree f
| EBinOp e1 _ e2 => pullFree e1 && pullFree e2
| EUnaryOp _ e => pullFree e
| EArgMin e f => pullFree e && pullFree f
| EArgMax e f => pullFree e && pullFree f
| EHandle a v => pullFree a && pullFree v
| EGetField e _ => pullFree e
| EMakeRecord fs => pullFreeFields fs
| EListComprehension e cs => pullFree e && pullFreeClauses cs
| EEmptyList => true
| ESingleton e => pullFree e
| ECall _ args => pullFreeList args
| ETuple es => pullFreeList es
| ETupleGet e _ => pullFree e
| ELet e f => pullFree e && pullFree f
| ELambda _ body => pullFree body
| EStateVar e => pullFree e
| EFilter e p => pullFree e && pullFree p
| EMap e f => pullFree e && pullFree f
| EFlatMap e f => pullFree e && pullFree f
| EMakeMap2 e v => pullFree e && pullFree v
| EMapGet m k => pullFree m && pullFree k
| EMapKeys e => pullFree e
| EWithAlteredValue h v => pullFree h && pullFree v

/-- Pull-freedom over expression lists. -/
def pullFreeList : ExpList → Bool
| .nil => true
| .cons e tl => pullFree e && pullFreeList tl

/-- Pull-freedom over record fields. -/
def pullFreeFields : RecFields → Bool
| .nil => true
| .cons _ e tl => pullFree e && pullFreeFields tl

/-- Pull-freedom over clause lists. -/
def pullFreeClauses : Clauses → Bool
| .nil => true
| .cons c tl => pullFreeClause c && pullFreeClauses tl

/-- Pull-freedom of one clause: no pull clause at all. -/
def pullFreeClause : Clause → Bool
| .CPull _ _ => false
| .CCond e => pullFree e

end

/-! Small reduction lemmas for the Except monad, used throughout. -/

@[simp] theorem except_bind_ok {ε α β : Type} (a : α) (f : α → Except ε β) :
    (Except.ok a : Except ε α) >>= f = f a := rfl

@[simp] theorem except_bind_err {ε α β : Type} (e : ε) (f : α → Except ε β) :
    (Except.error e : Except ε α) >>= f = .error e := rfl

@[simp] theorem except_map_ok {ε α β : Type} (a : α) (f : α → β) :
    (f <$> (Except.ok a : Except ε α)) = .ok (f a) := rfl

@[simp] theorem except_map_err {ε α β : Type} (e : ε) (f : α → β) :
    (f <$> (Except.error e : Except ε α)) = .error e := rfl

@[simp] theorem except_pure {ε α : Type} (a : α) :
    (pure a : Except ε α) = .ok a := rfl

@[simp] theorem exceptMap_ok {ε α β : Type} (a : α) (f : α → β) :
    Except.map f (Except.ok a : Except ε α) = .ok (f a) := rfl

@[simp] theorem exceptMap_err {ε α β : Type} (e : ε) (f : α → β) :
    Except.map f (Except.error e : Except ε α) = .error e := rfl

/-! Helper theorems: decimal digit strings are injective, so distinct
counter values give distinct fresh names. -/

theorem digs_length_pos (n : Nat) : 0 < (digs n).length := by
  rw [digs]
  split <;> simp

theorem digs_small (n : Nat) (h : n < 10) : digs n = [Nat.digitChar n] := by
  rw [digs, if_pos h]

theorem digs_large (n : Nat) (h : ¬ n < 10) :
    digs n = digs (n / 10) ++ [Nat.digitChar (n % 10)] := by
  rw [digs]
  rw [if_neg h]

theorem toDigitsCore_eq_digs (fuel n : Nat) (acc : List Char) (h : n < fuel) :
    Nat.toDigitsCore 10 fuel n acc = digs n ++ acc := by
  induction fuel generalizing n acc with
  | zero => omega
  | succ f ih =>
    rw [Nat.toDigitsCore]
    by_cases h10 : n < 10
    · have hz : n / 10 = 0 := Nat.div_eq_of_lt h10
      simp only [hz, if_pos rfl]
      have hm : n % 10 = n := Nat.mod_eq_of_lt h10
      rw [hm, digs_small n h10]
      simp
    · have hne : ¬ (n / 10 = 0) := by omega
      rw [if_neg hne]
      rw [ih (n / 10) _ (by
        have : n / 10 < n := Nat.div_lt_self (by omega) (by norm_num)
        omega)]
      rw [digs_large n h10]
      simp

theorem digitChar_inj_lt10 {a b : Nat} (ha : a < 10) (hb : b < 10)
    (h : Nat.digitChar a = Nat.digitChar b) : a = b := by
  have key : ∀ (x y : Fin 10), Nat.digitChar x = Nat.digitChar y → x = y := by decide
  exact congrArg Fin.val (key ⟨a, ha⟩ ⟨b, hb⟩ h)

theorem digs_inj : ∀ {m n : Nat}, digs m = digs n → m = n := by
  intro m
  induction m using Nat.strong_induction_on with
  | _ m ih =>
    intro n h
    by_cases hm : m < 10 <;> by_cases hn : n < 10
    · rw [digs_small m hm, digs_small n hn] at h
      exact digitChar_inj_lt10 hm hn (by simpa using h)
    · exfalso
      rw [digs_small m hm, digs_large n hn] at h
      have hl := congrArg List.length h
      simp only [List.length_append, List.length_singleton] at hl
      have := digs_length_pos (n / 10)
      omega
    · exfalso
      rw [digs_large m hm, digs_small n hn] at h
      have hl := congrArg List.length h
      simp only [List.length_append, List.length_singleton] at hl
      have := digs_length_pos (m / 10)
      omega
    · rw [digs_large m hm, digs_large n hn] at h
      have hlen : (digs (m / 10)).length = (digs (n / 10)).length := by
        have := congrArg List.length h
        simp at this
        omega
      obtain ⟨hq, hr⟩ := List.append_inj h hlen
      have hmod : m % 10 = n % 10 :=
        digitChar_inj_lt10 (Nat.mod_lt _ (by norm_num)) (Nat.mod_lt _ (by norm_num))
          (by simpa using hr)
      have hdiv : m / 10 = n / 10 :=
        ih (m / 10) (Nat.div_lt_self (by omega) (by norm_num)) hq
      omega

theorem nat_repr_inj {m n : Nat} (h : Nat.repr m = Nat.repr n) : m = n := by
  unfold Nat.repr Nat.toDigits at h
  rw [toDigitsCore_eq_digs _ _ _ (Nat.lt_succ_self m),
      toDigitsCore_eq_digs _ _ _ (Nat.lt_succ_self n)] at h
  simp only [List.append_nil] at h
  apply digs_inj
  have h2 := congrArg String.data h
  simpa [List.asString] using h2

theorem freshFmt_inj (h : String) {i j : Nat} (heq : freshFmt h i = freshFmt h j) :
    i = j := by
  unfold freshFmt at heq
  have h2 := congrArg String.data heq
  simp only [String.data_append] at h2
  have h3 := List.append_cancel_left h2
  exact nat_repr_inj (String.ext h3)

/-! Helper theorems about runs of fresh_name. -/

theorem runFresh_append (c : Nat) (l1 l2 : List (String × Option (List String))) :
    runFresh c (l1 ++ l2) = (do
      let (ns1, c1) ← runFresh c l1
      let (ns2, c2) ← runFresh c1 l2
      pure (ns1 ++ ns2, c2)) := by
  induction l1 generalizing c with
  | nil =>
    simp only [List.nil_append, runFresh]
    rcases h : runFresh c l2 with _ | ⟨ns, c2⟩ <;> simp [h]
  | cons p tl ih =>
    obtain ⟨hh, om⟩ := p
    simp only [List.cons_append, runFresh]
    rcases hf : fresh_name hh om c with _ | ⟨n, c1⟩
    · simp
    · simp only [except_bind_ok, List.append_eq]
      rw [ih c1]
      rcases h2 : runFresh c1 tl with _ | ⟨ns2, c3⟩
      · simp
      · simp only [except_bind_ok]
        rcases h3 : runFresh c3 l2 with _ | ⟨ns3, c4⟩ <;> simp [h3]

theorem fresh_name_none (h : String) (c : Nat) :
    fresh_name h none c =
      .ok (freshFmt h ((c + 1) % UINT64_MOD), (c + 1) % UINT64_MOD) := rfl

theorem runFresh_counter (l : List (String × Option (List String))) :
    ∀ (c : Nat) (ns : List String) (c2 : Nat), c < UINT64_MOD →
    runFresh c l = .ok (ns, c2) → c2 = (c + countNone l) % UINT64_MOD := by
  induction l with
  | nil =>
    intro c ns c2 hc h
    simp only [runFresh, Except.ok.injEq, Prod.mk.injEq] at h
    rw [← h.2]
    simp [countNone, Nat.mod_eq_of_lt hc]
  | cons p tl ih =>
    intro c ns c2 hc h
    obtain ⟨hh, om⟩ := p
    simp only [runFresh] at h
    rcases om with _ | o
    · rw [fresh_name_none] at h
      simp only [except_bind_ok] at h
      rcases h1 : runFresh ((c + 1) % UINT64_MOD) tl with _ | ⟨ns2, c3⟩ <;> rw [h1] at h
      · simp only [except_bind_err] at h
        cases h
      · simp only [except_bind_ok, except_pure, Except.ok.injEq, Prod.mk.injEq] at h
        have hrec := ih _ ns2 c3 (Nat.mod_lt _ (by decide)) h1
        rw [← h.2, hrec, Nat.mod_add_mod]
        have hcn : countNone ((hh, none) :: tl) = countNone tl + 1 := by
          simp [countNone, List.filter_cons]
        rw [hcn]
        congr 1
        omega
    · rcases hs : omitSearch o hh 0 (o.length + 1) with _ | name
      · rw [show fresh_name hh (some o) c = .error () from by simp [fresh_name, hs]] at h
        simp only [except_bind_err] at h
        cases h
      · rw [show fresh_name hh (some o) c = .ok (name, c) from by simp [fresh_name, hs]] at h
        simp only [except_bind_ok] at h
        rcases h1 : runFresh c tl with _ | ⟨ns2, c3⟩ <;> rw [h1] at h
        · simp only [except_bind_err] at h
          cases h
        · simp only [except_bind_ok, except_pure, Except.ok.injEq, Prod.mk.injEq] at h
          have hrec := ih c ns2 c3 hc h1
          rw [← h.2, hrec]
          have hcn : countNone ((hh, some o) :: tl) = countNone tl := by
            simp [countNone, List.filter_cons]
          rw [hcn]

theorem runFresh_length (l : List (String × Option (List String))) :
    ∀ (c : Nat) (ns : List String) (c2 : Nat),
    runFresh c l = .ok (ns, c2) → ns.length = l.length := by
  induction l with
  | nil =>
    intro c ns c2 hr
    simp [runFresh] at hr
    simp [hr.1.symm]
  | cons p tl ih =>
    intro c ns c2 hr
    obtain ⟨hh, om⟩ := p
    simp only [runFresh] at hr
    rcases hf : fresh_name hh om c with _ | ⟨n, c1⟩ <;> rw [hf] at hr
    · simp at hr
    · simp only [except_bind_ok] at hr
      rcases h1 : runFresh c1 tl with _ | ⟨ns2, c3⟩ <;> rw [h1] at hr
      · simp at hr
      · simp at hr
        have := ih c1 ns2 c3 h1
        simp [hr.1.symm, this]

/-- C1: with validation enabled, `simplify` returns an expression
semantically equal to its input whenever the solver oracle is sound:
the rewritten result (an arbitrary rewriting pass `visit`) is checked
via `valid (orig === new)`, and when the solver does not confirm the
equality, the original expression is returned unchanged, never the
unvalidated rewrite (cozy/simplification.py lines 165-175). -/
theorem simplify_validation_sound (visit : Exp → Exp) (valid : Exp → Bool)
    (hsound : SoundValid valid) (e : Exp) :
    (∀ (env : VEnv) (v : Value), evalE env e = some v →
        evalE env (simplify visit valid e) = some v) ∧
    (valid (EBinOp e "===" (visit e)) = false → simplify visit valid e = e) := by
  have heq3 : ∀ (env : VEnv) (e1 e2 : Exp),
      evalE env (EBinOp e1 "===" e2) =
        (evalE env e1).bind (fun v1 => (evalE env e2).bind
          (fun v2 => some (Value.VBool (v1 = v2)))) := fun _ _ _ => rfl
  constructor
  · intro env v hv
    by_cases hb : valid (EBinOp e "===" (visit e)) = true
    · have hval := hsound _ hb env
      rw [heq3, hv] at hval
      rcases h2 : evalE env (visit e) with _ | v2
      · rw [h2] at hval; simp at hval
      · rw [h2] at hval
        simp at hval
        simp [simplify, hb, h2, hval]
    · simp [simplify, Bool.of_not_eq_true hb, hv]
  · intro hfalse
    simp [simplify, hfalse]

/-- C1: witness at a trivial oracle (which never validates, so the
wrapper must return the original) and the expression `true`. -/
theorem simplify_validation_sound_witness :
    (∀ (env : VEnv) (v : Value), evalE env (EBool true) = some v →
        evalE env (simplify id (fun _ => false) (EBool true)) = some v) ∧
    ((fun _ => false : Exp → Bool)
        (EBinOp (EBool true) "===" (id (EBool true))) = false →
      simplify id (fun _ => false) (EBool true) = EBool true) :=
  simplify_validation_sound id (fun _ => false)
    (fun _ hb => by simp at hb) (EBool true)

/-- C8: counterexample.  The claim says every `fresh_name` call,
including calls that supply an omit set, returns a name distinct from
every previously returned name.  Three refutations.  (1) Omit-branch
calls ignore the counter: two successive calls with hint "x" and an
empty omit set both return "_x0" (cozy/common.py lines 274-279 search
from index 0 against the omit set only).  (2) Counter-branch calls with
DIFFERENT hints collide within one run: starting from counter 0, a
call with hint "x5" returns "_x51", and after 49 further calls the
counter reaches 50, so the next call with hint "x" returns "_x51"
again -- the decimal format "_" + hint + str(i) is not injective
across hints.  (3) The counter is a `c_uint64`, not monotonic: at
counter 2^64 - 1 the next increment wraps to 0, so even same-hint
counter calls repeat names after 2^64 intervening increments. -/
theorem fresh_name_omit_duplicate :
    (runFresh 0 [("x", some []), ("x", some [])] = .ok (["_x0", "_x0"], 0) ∧
     ¬ (["_x0", "_x0"] : List String).Nodup) ∧
    (runFresh 0 (("x5", none) :: (List.replicate 49 ("p", none) ++ [("x", none)])) =
       .ok ("_x51" :: ((List.range' 2 49).map (fun i => "_p" ++ Nat.repr i) ++ ["_x51"]),
            51) ∧
     ¬ ("_x51" :: ((List.range' 2 49).map (fun i => "_p" ++ Nat.repr i) ++
          ["_x51"])).Nodup) ∧
    fresh_name "x" none (UINT64_MOD - 1) = .ok ("_x0", 0) := by
  exact ⟨⟨by decide, by decide⟩, ⟨by decide, by decide⟩, by decide⟩

/-- C8: amended claim.  Calls that do not supply an omit set mint their
name from the mutex-guarded `c_uint64` counter, which wraps modulo 2 to
the 64.  Within one run, two such calls that use the same hint return
distinct names whenever fewer than 2^64 - 1 counter-minting calls
happen between them (the new counter value is embedded in decimal in
the name, and the two values then differ modulo 2^64); calls that
supply an omit set bypass the counter and may repeat names, and calls
with different hints may collide. -/
theorem fresh_name_counter_distinct (c0 : Nat)
    (pre mid post : List (String × Option (List String)))
    (h : String) (ns : List String) (cf : Nat)
    (hmid : countNone mid + 1 < UINT64_MOD)
    (hrun : runFresh c0 (pre ++ (h, none) :: (mid ++ (h, none) :: post)) =
      .ok (ns, cf)) :
    ∃ ns1 n1 ns2 n2 ns3, ns = ns1 ++ n1 :: (ns2 ++ n2 :: ns3) ∧
      ns1.length = pre.length ∧ ns2.length = mid.length ∧ n1 ≠ n2 := by
  rw [runFresh_append] at hrun
  rcases h1 : runFresh c0 pre with _ | ⟨ns1, c1⟩ <;> rw [h1] at hrun
  · simp at hrun
  · simp only [except_bind_ok] at hrun
    simp only [runFresh, fresh_name_none, except_bind_ok] at hrun
    rw [runFresh_append] at hrun
    rcases h2 : runFresh ((c1 + 1) % UINT64_MOD) mid with _ | ⟨ns2, c2⟩ <;>
      rw [h2] at hrun
    · simp at hrun
    · simp only [except_bind_ok] at hrun
      simp only [runFresh, fresh_name_none, except_bind_ok] at hrun
      rcases h3 : runFresh ((c2 + 1) % UINT64_MOD) post with _ | ⟨ns3, c3⟩ <;>
        rw [h3] at hrun
      · simp at hrun
      · simp only [except_bind_ok, except_pure] at hrun
        have hns : ns = ns1 ++ freshFmt h ((c1 + 1) % UINT64_MOD) ::
            (ns2 ++ freshFmt h ((c2 + 1) % UINT64_MOD) :: ns3) := by
          have := hrun
          simp at this
          exact this.1.symm
        refine ⟨ns1, freshFmt h ((c1 + 1) % UINT64_MOD), ns2,
          freshFmt h ((c2 + 1) % UINT64_MOD), ns3, hns,
          runFresh_length pre c0 ns1 c1 h1,
          runFresh_length mid ((c1 + 1) % UINT64_MOD) ns2 c2 h2, ?_⟩
        have hc2 : c2 = ((c1 + 1) % UINT64_MOD + countNone mid) % UINT64_MOD :=
          runFresh_counter mid _ ns2 c2 (Nat.mod_lt _ (by decide)) h2
        intro heq
        have hinj := freshFmt_inj h heq
        rw [hc2] at hinj
        simp only [UINT64_MOD] at hinj hmid
        omega

/-- C8: witness for the amended claim at a concrete run: two counter
calls with hint "x" from counter 0 return "_x1" and "_x2". -/
theorem fresh_name_counter_distinct_witness :
    (countNone ([] : List (String × Option (List String))) + 1 < UINT64_MOD) ∧
    runFresh 0 [("x", none), ("x", none)] = .ok (["_x1", "_x2"], 2) ∧
    ∃ ns1 n1 ns2 n2 ns3, (["_x1", "_x2"] : List String) =
        ns1 ++ n1 :: (ns2 ++ n2 :: ns3) ∧
      ns1.length = ([] : List (String × Option (List String))).length ∧
      ns2.length = ([] : List (String × Option (List String))).length ∧
      n1 ≠ n2 :=
  ⟨by decide, by decide,
   fresh_name_counter_distinct 0 [] [] [] "x" ["_x1", "_x2"] 2 (by decide) (by decide)⟩

/-- Claim C10: for the comparison operators the typechecker assigns bool
regardless of whether errors are reported, and reports no error from the
comparison itself when both operand types are numeric, even if they differ. -/
theorem comparison_binop_types (ctx : TCtx) (e1 e2 : Exp) (op : String)
    (t1 t2 : Ty) (er1 er2 : List String)
    (hop : op ∈ ["==", "===", "!=", "<", "<=", ">", ">="])
    (h1 : tc ctx e1 = .ok (t1, er1)) (h2 : tc ctx e2 = .ok (t2, er2)) :
    (∃ ers, tc ctx (EBinOp e1 op e2) = .ok (TBool, ers)) ∧
    (t1 ∈ [TInt, TLong] → t2 ∈ [TInt, TLong] →
      tc ctx (EBinOp e1 op e2) = .ok (TBool, er1 ++ er2)) := by
  have hstep : tc ctx (EBinOp e1 op e2) = tcBinOp op t1 t2 er1 er2 := by
    have he : tc ctx (EBinOp e1 op e2) =
        (tc ctx e1) >>= (fun p => (tc ctx e2) >>= (fun q => tcBinOp op p.1 q.1 p.2 q.2)) := rfl
    rw [he, h1, h2]
    simp only [except_bind_ok]
  constructor
  · rw [hstep]
    unfold tcBinOp
    rw [if_pos hop]
    exact ⟨_, rfl⟩
  · intro hn1 hn2
    rw [hstep]
    unfold tcBinOp
    rw [if_pos hop]
    simp [hn1, hn2]

theorem comparison_binop_types_witness :
    (("==" : String) ∈ ["==", "===", "!=", "<", "<=", ">", ">="]) ∧
    tc ⟨[("x", TInt), ("y", TLong)], []⟩ (EVar "x") = .ok (TInt, []) ∧
    tc ⟨[("x", TInt), ("y", TLong)], []⟩ (EVar "y") = .ok (TLong, []) ∧
    ((∃ ers, tc ⟨[("x", TInt), ("y", TLong)], []⟩
        (EBinOp (EVar "x") "==" (EVar "y")) = .ok (TBool, ers)) ∧
     (TInt ∈ [TInt, TLong] → TLong ∈ [TInt, TLong] →
      tc ⟨[("x", TInt), ("y", TLong)], []⟩
        (EBinOp (EVar "x") "==" (EVar "y")) = .ok (TBool, [] ++ []))) :=
  ⟨by decide, by decide, by decide,
   comparison_binop_types ⟨[("x", TInt), ("y", TLong)], []⟩ (EVar "x") (EVar "y") "=="
     TInt TLong [] [] (by decide) (by decide) (by decide)⟩

/-- Claim C7, counterexample: adding a bag of int to a bag of long
elaborates to a bag of int (the first element type, not the element
lub) and reports the concat error, although int and long are unifiable
by the checker's own lub. -/
theorem collection_plus_lub_counterexample :
    tc ⟨[("x", TBag TInt), ("y", TBag TLong)], []⟩
        (EBinOp (EVar "x") "+" (EVar "y")) = .ok (TBag TInt, ["cannot concat"]) ∧
    lub TInt TLong = (TLong, []) ∧
    TBag TInt ≠ TBag TLong := by
  refine ⟨by decide, by decide, by decide⟩

/-- Claim C7, amended: for EBinOp with + or -, if both operand types are
numeric the result is the numeric lub with no new error (the original
claim's numeric prong, confirmed); more generally, whenever the LEFT
operand type is numeric the checker takes the numeric branch, assigning
the numeric lub and reporting exactly the non-numeric error for the
right operand (if any); if the left operand type is not numeric the
result is a bag of the LEFT operand's element type (never the element
lub), with the collection-extraction errors of both sides and the
concat error exactly when the two element types are not structurally
equal. -/
theorem binop_plus_minus_types (ctx : TCtx) (e1 e2 : Exp) (op : String)
    (t1 t2 : Ty) (er1 er2 : List String)
    (hop : op ∈ ["+", "-"])
    (h1 : tc ctx e1 = .ok (t1, er1)) (h2 : tc ctx e2 = .ok (t2, er2)) :
    (t1 ∈ [TInt, TLong] → t2 ∈ [TInt, TLong] →
      tc ctx (EBinOp e1 op e2) = .ok (numeric_lub t1 t2, er1 ++ er2)) ∧
    (t1 ∈ [TInt, TLong] →
      tc ctx (EBinOp e1 op e2) =
        .ok (numeric_lub t1 t2, er1 ++ er2 ++ ensure_numeric t2)) ∧
    (¬ t1 ∈ [TInt, TLong] →
      tc ctx (EBinOp e1 op e2) = .ok (TBag (get_collection_type t1).1,
        er1 ++ er2 ++ (get_collection_type t1).2 ++ (get_collection_type t2).2 ++
        (if (get_collection_type t1).1 ≠ (get_collection_type t2).1
         then ["cannot concat"] else []))) := by
  have hstep : tc ctx (EBinOp e1 op e2) = tcBinOp op t1 t2 er1 er2 := by
    have he : tc ctx (EBinOp e1 op e2) =
        (tc ctx e1) >>= (fun p => (tc ctx e2) >>= (fun q => tcBinOp op p.1 q.1 p.2 q.2)) := rfl
    rw [he, h1, h2]
    simp only [except_bind_ok]
  simp only [List.mem_cons, List.mem_singleton, List.not_mem_nil, or_false] at hop
  have hnum : t1 ∈ [TInt, TLong] →
      tc ctx (EBinOp e1 op e2) =
        .ok (numeric_lub t1 t2, er1 ++ er2 ++ ensure_numeric t2) := by
    intro hn1
    have he3 : ensure_numeric t1 = [] := by
      simp only [List.mem_cons, List.mem_singleton, List.not_mem_nil, or_false] at hn1
      rcases hn1 with rfl | rfl <;> rfl
    rw [hstep]
    rcases hop with rfl | rfl <;>
      · unfold tcBinOp
        rw [if_neg (by decide), if_neg (by decide), if_neg (by decide),
            if_pos (by decide), if_pos hn1]
        simp [he3]
  refine ⟨?_, hnum, ?_⟩
  · intro hn1 hn2
    have he4 : ensure_numeric t2 = [] := by
      simp only [List.mem_cons, List.mem_singleton, List.not_mem_nil, or_false] at hn2
      rcases hn2 with rfl | rfl <;> rfl
    rw [hnum hn1, he4]
    simp
  · intro hn1
    rw [hstep]
    rcases hop with rfl | rfl <;>
      · unfold tcBinOp
        rw [if_neg (by decide), if_neg (by decide), if_neg (by decide),
            if_pos (by decide), if_neg hn1]

theorem binop_plus_minus_types_witness :
    (("+" : String) ∈ ["+", "-"]) ∧
    tc ⟨[("x", TBag TInt), ("y", TBag TLong)], []⟩ (EVar "x") = .ok (TBag TInt, []) ∧
    tc ⟨[("x", TBag TInt), ("y", TBag TLong)], []⟩ (EVar "y") = .ok (TBag TLong, []) ∧
    ((TBag TInt ∈ [TInt, TLong] → TBag TLong ∈ [TInt, TLong] →
      tc ⟨[("x", TBag TInt), ("y", TBag TLong)], []⟩
        (EBinOp (EVar "x") "+" (EVar "y")) = .ok (numeric_lub (TBag TInt) (TBag TLong), [] ++ [])) ∧
     (TBag TInt ∈ [TInt, TLong] →
      tc ⟨[("x", TBag TInt), ("y", TBag TLong)], []⟩
        (EBinOp (EVar "x") "+" (EVar "y")) =
          .ok (numeric_lub (TBag TInt) (TBag TLong),
            [] ++ [] ++ ensure_numeric (TBag TLong))) ∧
     (¬ TBag TInt ∈ [TInt, TLong] →
      tc ⟨[("x", TBag TInt), ("y", TBag TLong)], []⟩
        (EBinOp (EVar "x") "+" (EVar "y")) = .ok (TBag (get_collection_type (TBag TInt)).1,
          [] ++ [] ++ (get_collection_type (TBag TInt)).2 ++ (get_collection_type (TBag TLong)).2 ++
          (if (get_collection_type (TBag TInt)).1 ≠ (get_collection_type (TBag TLong)).1
           then ["cannot concat"] else [])))) :=
  ⟨by decide, by decide, by decide,
   binop_plus_minus_types ⟨[("x", TBag TInt), ("y", TBag TLong)], []⟩ (EVar "x") (EVar "y") "+"
     (TBag TInt) (TBag TLong) [] [] (by decide) (by decide) (by decide)⟩

theorem bind2_ok (m1 m2 : Except Unit (List String)) (l : List String)
    (h : (do pure ((← m1) ++ (← m2)) : Except Unit (List String)) = .ok l) :
    ∃ l1 l2, m1 = .ok l1 ∧ m2 = .ok l2 ∧ l = l1 ++ l2 := by
  rcases h1 : m1 with _ | l1 <;> rw [h1] at h
  · simp only [except_bind_err] at h
    cases h
  · simp only [except_bind_ok] at h
    rcases h2 : m2 with _ | l2 <;> rw [h2] at h
    · simp only [except_bind_err] at h
      cases h
    · simp only [except_bind_ok, except_pure] at h
      injection h with h
      exact ⟨l1, l2, rfl, rfl, h.symm⟩

theorem bind3_ok (m1 m2 m3 : Except Unit (List String)) (l : List String)
    (h : (do pure ((← m1) ++ (← m2) ++ (← m3)) : Except Unit (List String)) = .ok l) :
    ∃ l1 l2 l3, m1 = .ok l1 ∧ m2 = .ok l2 ∧ m3 = .ok l3 ∧ l = l1 ++ l2 ++ l3 := by
  rcases h1 : m1 with _ | l1 <;> rw [h1] at h
  · simp only [except_bind_err] at h
    cases h
  · simp only [except_bind_ok] at h
    rcases h2 : m2 with _ | l2 <;> rw [h2] at h
    · simp only [except_bind_err] at h
      cases h
    · simp only [except_bind_ok] at h
      rcases h3 : m3 with _ | l3 <;> rw [h3] at h
      · simp only [except_bind_err] at h
        cases h
      · simp only [except_bind_ok, except_pure] at h
        injection h with h
        exact ⟨l1, l2, l3, rfl, rfl, rfl, h.symm⟩

theorem dedupFirstAux_subset (x : String) :
    ∀ (l : List String) (seen : List String), x ∈ dedupFirstAux seen l → x ∈ l := by
  intro l
  induction l with
  | nil => intro seen h; cases h
  | cons y tl ih =>
    intro seen h
    rw [dedupFirstAux] at h
    split at h
    · exact List.mem_cons_of_mem _ (ih seen h)
    · rcases List.mem_cons.mp h with rfl | h
      · exact List.mem_cons_self _ _
      · exact List.mem_cons_of_mem _ (ih _ h)

mutual

theorem fv_bound_exp (e : Exp) : ∀ (b : String → Nat) (x : String) (l : List String),
    0 < b x → fvExp b e = .ok l → x ∉ l := by
  cases e with
  | EVar y =>
    intro b x l hx h
    simp only [fvExp] at h
    injection h with h
    subst h
    intro hmem
    by_cases hb : b y = 0
    · simp only [if_pos hb, List.mem_singleton] at hmem
      subst hmem
      omega
    · simp only [if_neg hb, List.not_mem_nil] at hmem
  | EBool v =>
    intro b x l hx h
    injection h with h
    subst h
    exact List.not_mem_nil x
  | ENum v =>
    intro b x l hx h
    injection h with h
    subst h
    exact List.not_mem_nil x
  | EStr v =>
    intro b x l hx h
    injection h with h
    subst h
    exact List.not_mem_nil x
  | EEnumEntry v =>
    intro b x l hx h
    injection h with h
    subst h
    exact List.not_mem_nil x
  | ENull =>
    intro b x l hx h
    injection h with h
    subst h
    exact List.not_mem_nil x
  | ECond c t f =>
    intro b x l hx h
    simp only [fvExp] at h
    obtain ⟨l1, l2, l3, h1, h2, h3, rfl⟩ := bind3_ok _ _ _ _ h
    simp only [List.mem_append]
    rintro ((hm | hm) | hm)
    · exact fv_bound_exp c b x l1 hx h1 hm
    · exact fv_bound_exp t b x l2 hx h2 hm
    · exact fv_bound_exp f b x l3 hx h3 hm
  | EBinOp e1 op e2 =>
    intro b x l hx h
    simp only [fvExp] at h
    obtain ⟨l1, l2, h1, h2, rfl⟩ := bind2_ok _ _ _ h
    simp only [List.mem_append]
    rintro (hm | hm)
    · exact fv_bound_exp e1 b x l1 hx h1 hm
    · exact fv_bound_exp e2 b x l2 hx h2 hm
  | EUnaryOp op e =>
    intro b x l hx h
    exact fv_bound_exp e b x l hx h
  | EArgMin e f =>
    intro b x l hx h
    simp only [fvExp] at h
    obtain ⟨l1, l2, h1, h2, rfl⟩ := bind2_ok _ _ _ h
    simp only [List.mem_append]
    rintro (hm | hm)
    · exact fv_bound_exp e b x l1 hx h1 hm
    · exact fv_bound_exp f b x l2 hx h2 hm
  | EArgMax e f =>
    intro b x l hx h
    simp only [fvExp] at h
    obtain ⟨l1, l2, h1, h2, rfl⟩ := bind2_ok _ _ _ h
    simp only [List.mem_append]
    rintro (hm | hm)
    · exact fv_bound_exp e b x l1 hx h1 hm
    · exact fv_bound_exp f b x l2 hx h2 hm
  | EHandle a v =>
    intro b x l hx h
    simp only [fvExp] at h
    obtain ⟨l1, l2, h1, h2, rfl⟩ := bind2_ok _ _ _ h
    simp only [List.mem_append]
    rintro (hm | hm)
    · exact fv_bound_exp a b x l1 hx h1 hm
    · exact fv_bound_exp v b x l2 hx h2 hm
  | EGetField e f =>
    intro b x l hx h
    exact fv_bound_exp e b x l hx h
  | EMakeRecord fs =>
    intro b x l hx h
    exact fv_bound_fields fs b x l hx h
  | EListComprehension e cs =>
    intro b x l hx h
    cases h
  | EEmptyList =>
    intro b x l hx h
    injection h with h
    subst h
    exact List.not_mem_nil x
  | ESingleton e =>
    intro b x l hx h
    exact fv_bound_exp e b x l hx h
  | ECall f args =>
    intro b x l hx h
    exact fv_bound_list args b x l hx h
  | ETuple es =>
    intro b x l hx h
    exact fv_bound_list es b x l hx h
  | ETupleGet e n =>
    intro b x l hx h
    exact fv_bound_exp e b x l hx h
  | ELet e f =>
    intro b x l hx h
    simp only [fvExp] at h
    obtain ⟨l1, l2, h1, h2, rfl⟩ := bind2_ok _ _ _ h
    simp only [List.mem_append]
    rintro (hm | hm)
    · exact fv_bound_exp e b x l1 hx h1 hm
    · exact fv_bound_exp f b x l2 hx h2 hm
  | ELambda a body =>
    intro b x l hx h
    have hb : 0 < bump b a x := by
      unfold bump
      split <;> omega
    exact fv_bound_exp body (bump b a) x l hb h
  | EStateVar e =>
    intro b x l hx h
    exact fv_bound_exp e b x l hx h
  | EFilter e p =>
    intro b x l hx h
    simp only [fvExp] at h
    obtain ⟨l1, l2, h1, h2, rfl⟩ := bind2_ok _ _ _ h
    simp only [List.mem_append]
    rintro (hm | hm)
    · exact fv_bound_exp e b x l1 hx h1 hm
    · exact fv_bound_exp p b x l2 hx h2 hm
  | EMap e f =>
    intro b x l hx h
    simp only [fvExp] at h
    obtain ⟨l1, l2, h1, h2, rfl⟩ := bind2_ok _ _ _ h
    simp only [List.mem_append]
    rintro (hm | hm)
    · exact fv_bound_exp e b x l1 hx h1 hm
    · exact fv_bound_exp f b x l2 hx h2 hm
  | EFlatMap e f =>
    intro b x l hx h
    simp only [fvExp] at h
    obtain ⟨l1, l2, h1, h2, rfl⟩ := bind2_ok _ _ _ h
    simp only [List.mem_append]
    rintro (hm | hm)
    · exact fv_bound_exp e b x l1 hx h1 hm
    · exact fv_bound_exp f b x l2 hx h2 hm
  | EMakeMap2 e v =>
    intro b x l hx h
    simp only [fvExp] at h
    obtain ⟨l1, l2, h1, h2, rfl⟩ := bind2_ok _ _ _ h
    simp only [List.mem_append]
    rintro (hm | hm)
    · exact fv_bound_exp e b x l1 hx h1 hm
    · exact fv_bound_exp v b x l2 hx h2 hm
  | EMapGet m k =>
    intro b x l hx h
    simp only [fvExp] at h
    obtain ⟨l1, l2, h1, h2, rfl⟩ := bind2_ok _ _ _ h
    simp only [List.mem_append]
    rintro (hm | hm)
    · exact fv_bound_exp m b x l1 hx h1 hm
    · exact fv_bound_exp k b x l2 hx h2 hm
  | EMapKeys e =>
    intro b x l hx h
    exact fv_bound_exp e b x l hx h
  | EWithAlteredValue hh v =>
    intro b x l hx h
    simp only [fvExp] at h
    obtain ⟨l1, l2, h1, h2, rfl⟩ := bind2_ok _ _ _ h
    simp only [List.mem_append]
    rintro (hm | hm)
    · exact fv_bound_exp hh b x l1 hx h1 hm
    · exact fv_bound_exp v b x l2 hx h2 hm
termination_by structural e

theorem fv_bound_list (es : ExpList) : ∀ (b : String → Nat) (x : String) (l : List String),
    0 < b x → fvList b es = .ok l → x ∉ l := by
  cases es with
  | nil =>
    intro b x l hx h
    injection h with h
    subst h
    exact List.not_mem_nil x
  | cons e tl =>
    intro b x l hx h
    simp only [fvList] at h
    obtain ⟨l1, l2, h1, h2, rfl⟩ := bind2_ok _ _ _ h
    simp only [List.mem_append]
    rintro (hm | hm)
    · exact fv_bound_exp e b x l1 hx h1 hm
    · exact fv_bound_list tl b x l2 hx h2 hm
termination_by structural es

theorem fv_bound_fields (fs : RecFields) : ∀ (b : String → Nat) (x : String) (l : List String),
    0 < b x → fvFields b fs = .ok l → x ∉ l := by
  cases fs with
  | nil =>
    intro b x l hx h
    injection h with h
    subst h
    exact List.not_mem_nil x
  | cons n e tl =>
    intro b x l hx h
    simp only [fvFields] at h
    obtain ⟨l1, l2, h1, h2, rfl⟩ := bind2_ok _ _ _ h
    simp only [List.mem_append]
    rintro (hm | hm)
    · exact fv_bound_exp e b x l1 hx h1 hm
    · exact fv_bound_fields tl b x l2 hx h2 hm
termination_by structural fs

end

theorem boundOfArgs_pos_aux (args : List (String × Ty)) :
    ∀ (b : String → Nat) (x : String),
    (0 < b x ∨ x ∈ args.map Prod.fst) →
    0 < (args.foldl (fun b p => bump b p.1) b) x := by
  induction args with
  | nil =>
    intro b x h
    rcases h with h | h
    · exact h
    · simp at h
  | cons p tl ih =>
    intro b x h
    simp only [List.foldl_cons]
    apply ih
    rcases h with h | h
    · left
      unfold bump
      split <;> omega
    · simp only [List.map_cons, List.mem_cons] at h
      rcases h with rfl | h
      · left
        simp [bump]
      · right
        exact h

/-- Every name bound by the argument list of a Method gets a positive
binder count in `free_vars`. -/
theorem boundOfArgs_pos (args : List (String × Ty)) (x : String)
    (hx : x ∈ args.map Prod.fst) : 0 < boundOfArgs args x :=
  boundOfArgs_pos_aux args (fun _ => 0) x (Or.inr hx)

theorem fv_bound_exps (es : List Exp) : ∀ (b : String → Nat) (x : String) (l : List String),
    0 < b x → fvExps b es = .ok l → x ∉ l := by
  induction es with
  | nil =>
    intro b x l hx h
    injection h with h
    subst h
    exact List.not_mem_nil x
  | cons e tl ih =>
    intro b x l hx h
    simp only [fvExps] at h
    obtain ⟨l1, l2, h1, h2, rfl⟩ := bind2_ok _ _ _ h
    simp only [List.mem_append]
    rintro (hm | hm)
    · exact fv_bound_exp e b x l1 hx h1 hm
    · exact ih b x l2 hx h2 hm

/-- `free_vars` on a Method binds the parameters: no argument name of a
query appears among the free variables of its return expression or its
assumptions. -/
theorem free_vars_query_params (q : QueryS) (l : List String)
    (h : free_vars_query q = .ok l) :
    ∀ x, x ∈ q.args.map Prod.fst → x ∉ l := by
  intro x hx
  have h2 : (fvExp (boundOfArgs q.args) q.ret >>= fun r =>
      fvExps (boundOfArgs q.args) q.assumptions >>= fun a =>
      pure (dedupFirst (r ++ a))) = Except.ok l := h
  rcases hr : fvExp (boundOfArgs q.args) q.ret with _ | r <;> rw [hr] at h2
  · simp only [except_bind_err] at h2
    cases h2
  · simp only [except_bind_ok] at h2
    rcases ha : fvExps (boundOfArgs q.args) q.assumptions with _ | a <;> rw [ha] at h2
    · simp only [except_bind_err] at h2
      cases h2
    · simp only [except_bind_ok, except_pure] at h2
      injection h2 with h2
      subst h2
      intro hmem
      have hsub := dedupFirstAux_subset x (r ++ a) [] hmem
      have hpos := boundOfArgs_pos q.args x hx
      rcases List.mem_append.mp hsub with hm | hm
      · exact fv_bound_exp q.ret (boundOfArgs q.args) x r hpos hr hm
      · exact fv_bound_exps q.assumptions (boundOfArgs q.args) x a hpos ha hm

/-- Claim C9, counterexample: free_vars raises NotImplementedError on
every list comprehension, including the pull-only comprehension the
claim says yields the free variable L. -/
theorem free_vars_comprehension_counterexample :
    free_vars (EListComprehension (EVar "x")
        (Clauses.cons (Clause.CPull "x" (EVar "L")) Clauses.nil)) = .error () ∧
    (Except.error () : Except Unit (List String)) ≠ .ok ["L"] := by
  exact ⟨rfl, by decide⟩

/-- Claim C9, amended: free_vars raises NotImplementedError on every
list-comprehension expression (the visit method is unimplemented), so
pull clauses are never treated as binders; but the other binders of the
claim ARE excluded: the argument name of a lambda never appears in the
computed free-variable list, and no parameter name of a query (a
Method) appears among the free variables `free_vars` computes over its
return expression and assumptions. -/
theorem free_vars_binders (e : Exp) (cs : Clauses) (a : String) (body : Exp) (l : List String)
    (q : QueryS) (lq : List String) (x : String)
    (h : free_vars (ELambda a body) = .ok l)
    (hq : free_vars_query q = .ok lq)
    (hx : x ∈ q.args.map Prod.fst) :
    free_vars (EListComprehension e cs) = .error () ∧ a ∉ l ∧ x ∉ lq := by
  refine ⟨rfl, ?_, free_vars_query_params q lq hq x hx⟩
  · unfold free_vars at h
    simp only [fvExp] at h
    rcases hb : fvExp (bump (fun _ => 0) a) body with _ | l0 <;> rw [hb] at h
    · simp only [exceptMap_err] at h
      cases h
    · simp only [exceptMap_ok] at h
      injection h with h
      subst h
      intro hmem
      have hsub := dedupFirstAux_subset a l0 [] hmem
      have hnb : 0 < bump (fun _ => 0) a a := by
        unfold bump
        simp
      exact fv_bound_exp body (bump (fun _ => 0) a) a l0 hnb hb hsub

theorem free_vars_binders_witness :
    free_vars (ELambda "x" (EBinOp (EVar "x") "+" (EVar "y"))) = .ok ["y"] ∧
    free_vars_query ⟨"q1", Vis.Public, [("p", TInt)],
      [EBinOp (EVar "p") "<" (EVar "n")], EBinOp (EVar "p") "+" (EVar "s")⟩ = .ok ["s", "n"] ∧
    ("p" : String) ∈ ([("p", TInt)] : List (String × Ty)).map Prod.fst ∧
    (free_vars (EListComprehension (EVar "z")
        (Clauses.cons (Clause.CPull "z" (EVar "L")) Clauses.nil)) = .error () ∧
     ("x" : String) ∉ ["y"] ∧ ("p" : String) ∉ ["s", "n"]) :=
  ⟨by decide, by decide, by decide,
   free_vars_binders (EVar "z") (Clauses.cons (Clause.CPull "z" (EVar "L")) Clauses.nil)
     "x" (EBinOp (EVar "x") "+" (EVar "y")) ["y"]
     ⟨"q1", Vis.Public, [("p", TInt)], [EBinOp (EVar "p") "<" (EVar "n")],
       EBinOp (EVar "p") "+" (EVar "s")⟩ ["s", "n"] "p"
     (by decide) (by decide) (by decide)⟩

theorem sizeE_pos (e : Exp) : 0 < sizeE e := by
  cases e <;> (simp only [sizeE]; omega)

theorem renameLoop_notmem (m : Repl) (fvs : List String) (f : Nat) (arg : String)
    (body : Exp) (ctr : Nat) (h : arg ∉ fvs) :
    renameLoop m fvs f arg body ctr = .ok (arg, body, ctr) := by
  cases f <;> simp [renameLoop, h]

theorem lookupRepl_idMap_ne (o : Option String) (arg : String)
    (h : notBound o arg = true) : lookupRepl (idMap o) arg = none := by
  cases o with
  | none => rfl
  | some x =>
    have hne : arg ≠ x := by simpa [notBound] using h
    have hx : (x == arg) = false := beq_eq_false_iff_ne.mpr (Ne.symm hne)
    simp [idMap, lookupRepl, List.find?, hx]

theorem notBound_not_mem_idFvs (o : Option String) (id : String)
    (h : notBound o id = true) : id ∉ idFvs o := by
  cases o with
  | none => simp [idFvs]
  | some x =>
    have hne : id ≠ x := by simpa [notBound] using h
    simp [idFvs, hne]

theorem replFvs_idMap (o : Option String) : replFvs (idMap o) = .ok (idFvs o) := by
  cases o <;> rfl

theorem lookupRepl_idMap_getD (o : Option String) (y : String) :
    (lookupRepl (idMap o) y).getD (EVar y) = EVar y := by
  cases o with
  | none => rfl
  | some x =>
    by_cases hxy : x = y
    · subst hxy
      simp [idMap, lookupRepl, List.find?]
    · have hx : (x == y) = false := beq_eq_false_iff_ne.mpr hxy
      simp [idMap, lookupRepl, List.find?, hx]

mutual

theorem avoidsBinder_none (e : Exp) : avoidsBinder none e = true := by
  cases e with
  | EVar y =>
    rfl
  | EBool v =>
    rfl
  | ENum v =>
    rfl
  | EStr v =>
    rfl
  | EEnumEntry v =>
    rfl
  | ENull =>
    rfl
  | ECond c t f =>
    simp [avoidsBinder, avoidsBinder_none c, avoidsBinder_none t, avoidsBinder_none f]
  | EBinOp e1 op e2 =>
    simp [avoidsBinder, avoidsBinder_none e1, avoidsBinder_none e2]
  | EUnaryOp op e0 =>
    simp [avoidsBinder, avoidsBinder_none e0]
  | EArgMin e0 fn =>
    simp [avoidsBinder, avoidsBinder_none e0, avoidsBinder_none fn]
  | EArgMax e0 fn =>
    simp [avoidsBinder, avoidsBinder_none e0, avoidsBinder_none fn]
  | EHandle ad v =>
    simp [avoidsBinder, avoidsBinder_none ad, avoidsBinder_none v]
  | EGetField e0 fname =>
    simp [avoidsBinder, avoidsBinder_none e0]
  | EMakeRecord fs =>
    simp [avoidsBinder, avoidsBinderFields_none fs]
  | EListComprehension e0 cs =>
    simp [avoidsBinder, avoidsBinder_none e0, avoidsBinderClauses_none cs]
  | EEmptyList =>
    rfl
  | ESingleton e0 =>
    simp [avoidsBinder, avoidsBinder_none e0]
  | ECall fn args =>
    simp [avoidsBinder, avoidsBinderList_none args]
  | ETuple es =>
    simp [avoidsBinder, avoidsBinderList_none es]
  | ETupleGet e0 n =>
    simp [avoidsBinder, avoidsBinder_none e0]
  | ELet e0 fn =>
    simp [avoidsBinder, avoidsBinder_none e0, avoidsBinder_none fn]
  | ELambda arg body =>
    simp [avoidsBinder, notBound, avoidsBinder_none body]
  | EStateVar e0 =>
    simp [avoidsBinder, avoidsBinder_none e0]
  | EFilter e0 p =>
    simp [avoidsBinder, avoidsBinder_none e0, avoidsBinder_none p]
  | EMap e0 fn =>
    simp [avoidsBinder, avoidsBinder_none e0, avoidsBinder_none fn]
  | EFlatMap e0 fn =>
    simp [avoidsBinder, avoidsBinder_none e0, avoidsBinder_none fn]
  | EMakeMap2 e0 v =>
    simp [avoidsBinder, avoidsBinder_none e0, avoidsBinder_none v]
  | EMapGet mp k =>
    simp [avoidsBinder, avoidsBinder_none mp, avoidsBinder_none k]
  | EMapKeys e0 =>
    simp [avoidsBinder, avoidsBinder_none e0]
  | EWithAlteredValue hh v =>
    simp [avoidsBinder, avoidsBinder_none hh, avoidsBinder_none v]
termination_by structural e

theorem avoidsBinderList_none (es : ExpList) : avoidsBinderList none es = true := by
  cases es with
  | nil => rfl
  | cons e tl => simp [avoidsBinderList, avoidsBinder_none e, avoidsBinderList_none tl]
termination_by structural es

theorem avoidsBinderFields_none (fs : RecFields) : avoidsBinderFields none fs = true := by
  cases fs with
  | nil => rfl
  | cons n e tl => simp [avoidsBinderFields, avoidsBinder_none e, avoidsBinderFields_none tl]
termination_by structural fs

theorem avoidsBinderClauses_none (cs : Clauses) : avoidsBinderClauses none cs = true := by
  cases cs with
  | nil => rfl
  | cons c tl => simp [avoidsBinderClauses, avoidsBinderClause_none c, avoidsBinderClauses_none tl]
termination_by structural cs

theorem avoidsBinderClause_none (c : Clause) : avoidsBinderClause none c = true := by
  cases c with
  | CPull id e => simp [avoidsBinderClause, notBound, avoidsBinder_none e]
  | CCond e => simp [avoidsBinderClause, avoidsBinder_none e]
termination_by structural c

end

theorem subst_id_all (f : Nat) (o : Option String) :
    (∀ (ctr : Nat) (e : Exp), sizeE e ≤ f → avoidsBinder o e = true →
       substVisit (idMap o) (idFvs o) f ctr e = .ok (e, ctr)) ∧
    (∀ (ctr : Nat) (es : ExpList), sizeEL es ≤ f → avoidsBinderList o es = true →
       substVisitList (idMap o) (idFvs o) f ctr es = .ok (es, ctr)) ∧
    (∀ (ctr : Nat) (fs : RecFields), sizeFs fs ≤ f → avoidsBinderFields o fs = true →
       substVisitFields (idMap o) (idFvs o) f ctr fs = .ok (fs, ctr)) ∧
    (∀ (ctr : Nat) (cs : Clauses) (e : Exp), sizeCls cs + sizeE e < f →
       avoidsBinderClauses o cs = true → avoidsBinder o e = true →
       substClauses (idMap o) (idFvs o) f ctr cs e = .ok (cs, e, ctr)) := by
  induction f with
  | zero =>
    refine ⟨?_, ?_, ?_, ?_⟩
    · intro ctr e hs ha
      have := sizeE_pos e
      omega
    · intro ctr es hs ha
      cases es with
      | nil => simp [substVisitList]
      | cons e tl =>
        simp only [sizeEL] at hs
        omega
    · intro ctr fs hs ha
      cases fs with
      | nil => simp [substVisitFields]
      | cons n e tl =>
        simp only [sizeFs] at hs
        omega
    · intro ctr cs e hs hcs hae
      omega
  | succ f ih =>
    obtain ⟨ihE, ihL, ihF, ihC⟩ := ih
    refine ⟨?_, ?_, ?_, ?_⟩
    · intro ctr e hs ha
      cases e with
      | EVar y => simp [substVisit, lookupRepl_idMap_getD]
      | EBool v => simp [substVisit]
      | ENum v => simp [substVisit]
      | EStr v => simp [substVisit]
      | EEnumEntry v => simp [substVisit]
      | ENull => simp [substVisit]
      | ECond c t el =>
        simp only [sizeE] at hs
        obtain ⟨⟨h1, h2⟩, h3⟩ : (avoidsBinder o c = true ∧ avoidsBinder o t = true) ∧
            avoidsBinder o el = true := by
          simpa only [avoidsBinder, Bool.and_eq_true] using ha
        simp [substVisit, ihE ctr c (by omega) h1, ihE ctr t (by omega) h2,
          ihE ctr el (by omega) h3]
      | EBinOp e1 op e2 =>
        simp only [sizeE] at hs
        obtain ⟨h1, h2⟩ : avoidsBinder o e1 = true ∧ avoidsBinder o e2 = true := by
          simpa only [avoidsBinder, Bool.and_eq_true] using ha
        simp [substVisit, ihE ctr e1 (by omega) h1, ihE ctr e2 (by omega) h2]
      | EUnaryOp op e0 =>
        simp only [sizeE] at hs
        simp [substVisit, ihE ctr e0 (by omega) (by simpa only [avoidsBinder] using ha)]
      | EArgMin e0 fn =>
        simp only [sizeE] at hs
        obtain ⟨h1, h2⟩ : avoidsBinder o e0 = true ∧ avoidsBinder o fn = true := by
          simpa only [avoidsBinder, Bool.and_eq_true] using ha
        simp [substVisit, ihE ctr e0 (by omega) h1, ihE ctr fn (by omega) h2]
      | EArgMax e0 fn =>
        simp only [sizeE] at hs
        obtain ⟨h1, h2⟩ : avoidsBinder o e0 = true ∧ avoidsBinder o fn = true := by
          simpa only [avoidsBinder, Bool.and_eq_true] using ha
        simp [substVisit, ihE ctr e0 (by omega) h1, ihE ctr fn (by omega) h2]
      | EHandle ad v =>
        simp only [sizeE] at hs
        obtain ⟨h1, h2⟩ : avoidsBinder o ad = true ∧ avoidsBinder o v = true := by
          simpa only [avoidsBinder, Bool.and_eq_true] using ha
        simp [substVisit, ihE ctr ad (by omega) h1, ihE ctr v (by omega) h2]
      | EGetField e0 fname =>
        simp only [sizeE] at hs
        simp [substVisit, ihE ctr e0 (by omega) (by simpa only [avoidsBinder] using ha)]
      | EMakeRecord fields =>
        simp only [sizeE] at hs
        simp [substVisit,
          ihF ctr fields (by omega) (by simpa only [avoidsBinder] using ha)]
      | EListComprehension e0 cs =>
        simp only [sizeE] at hs
        obtain ⟨h1, h2⟩ : avoidsBinder o e0 = true ∧ avoidsBinderClauses o cs = true := by
          simpa only [avoidsBinder, Bool.and_eq_true] using ha
        simp [substVisit, ihC ctr cs e0 (by omega) h2 h1]
      | EEmptyList => simp [substVisit]
      | ESingleton e0 =>
        simp only [sizeE] at hs
        simp [substVisit, ihE ctr e0 (by omega) (by simpa only [avoidsBinder] using ha)]
      | ECall fn args =>
        simp only [sizeE] at hs
        simp [substVisit, ihL ctr args (by omega) (by simpa only [avoidsBinder] using ha)]
      | ETuple es =>
        simp only [sizeE] at hs
        simp [substVisit, ihL ctr es (by omega) (by simpa only [avoidsBinder] using ha)]
      | ETupleGet e0 n =>
        simp only [sizeE] at hs
        simp [substVisit, ihE ctr e0 (by omega) (by simpa only [avoidsBinder] using ha)]
      | ELet e0 fn =>
        simp only [sizeE] at hs
        obtain ⟨h1, h2⟩ : avoidsBinder o e0 = true ∧ avoidsBinder o fn = true := by
          simpa only [avoidsBinder, Bool.and_eq_true] using ha
        simp [substVisit, ihE ctr e0 (by omega) h1, ihE ctr fn (by omega) h2]
      | ELambda arg body =>
        simp only [sizeE] at hs
        obtain ⟨h1, h2⟩ : notBound o arg = true ∧ avoidsBinder o body = true := by
          simpa only [avoidsBinder, Bool.and_eq_true] using ha
        have hlk : lookupRepl (idMap o) arg = none := lookupRepl_idMap_ne o arg h1
        have hmem : arg ∉ idFvs o := notBound_not_mem_idFvs o arg h1
        simp [substVisit, hlk, renameLoop_notmem _ _ _ _ _ _ hmem, replFvs_idMap,
          ihE ctr body (by omega) h2]
      | EStateVar e0 =>
        simp only [sizeE] at hs
        simp [substVisit, ihE ctr e0 (by omega) (by simpa only [avoidsBinder] using ha)]
      | EFilter e0 p =>
        simp only [sizeE] at hs
        obtain ⟨h1, h2⟩ : avoidsBinder o e0 = true ∧ avoidsBinder o p = true := by
          simpa only [avoidsBinder, Bool.and_eq_true] using ha
        simp [substVisit, ihE ctr e0 (by omega) h1, ihE ctr p (by omega) h2]
      | EMap e0 fn =>
        simp only [sizeE] at hs
        obtain ⟨h1, h2⟩ : avoidsBinder o e0 = true ∧ avoidsBinder o fn = true := by
          simpa only [avoidsBinder, Bool.and_eq_true] using ha
        simp [substVisit, ihE ctr e0 (by omega) h1, ihE ctr fn (by omega) h2]
      | EFlatMap e0 fn =>
        simp only [sizeE] at hs
        obtain ⟨h1, h2⟩ : avoidsBinder o e0 = true ∧ avoidsBinder o fn = true := by
          simpa only [avoidsBinder, Bool.and_eq_true] using ha
        simp [substVisit, ihE ctr e0 (by omega) h1, ihE ctr fn (by omega) h2]
      | EMakeMap2 e0 v =>
        simp only [sizeE] at hs
        obtain ⟨h1, h2⟩ : avoidsBinder o e0 = true ∧ avoidsBinder o v = true := by
          simpa only [avoidsBinder, Bool.and_eq_true] using ha
        simp [substVisit, ihE ctr e0 (by omega) h1, ihE ctr v (by omega) h2]
      | EMapGet mp k =>
        simp only [sizeE] at hs
        obtain ⟨h1, h2⟩ : avoidsBinder o mp = true ∧ avoidsBinder o k = true := by
          simpa only [avoidsBinder, Bool.and_eq_true] using ha
        simp [substVisit, ihE ctr mp (by omega) h1, ihE ctr k (by omega) h2]
      | EMapKeys e0 =>
        simp only [sizeE] at hs
        simp [substVisit, ihE ctr e0 (by omega) (by simpa only [avoidsBinder] using ha)]
      | EWithAlteredValue hh v =>
        simp only [sizeE] at hs
        obtain ⟨h1, h2⟩ : avoidsBinder o hh = true ∧ avoidsBinder o v = true := by
          simpa only [avoidsBinder, Bool.and_eq_true] using ha
        simp [substVisit, ihE ctr hh (by omega) h1, ihE ctr v (by omega) h2]
    · intro ctr es hs ha
      cases es with
      | nil => simp [substVisitList]
      | cons e tl =>
        simp only [sizeEL] at hs
        obtain ⟨h1, h2⟩ : avoidsBinder o e = true ∧ avoidsBinderList o tl = true := by
          simpa only [avoidsBinderList, Bool.and_eq_true] using ha
        simp [substVisitList, ihE ctr e (by omega) h1, ihL ctr tl (by omega) h2]
    · intro ctr fs hs ha
      cases fs with
      | nil => simp [substVisitFields]
      | cons n e tl =>
        simp only [sizeFs] at hs
        obtain ⟨h1, h2⟩ : avoidsBinder o e = true ∧ avoidsBinderFields o tl = true := by
          simpa only [avoidsBinderFields, Bool.and_eq_true] using ha
        simp [substVisitFields, ihE ctr e (by omega) h1, ihF ctr tl (by omega) h2]
    · intro ctr cs e hs hcs hae
      cases cs with
      | nil =>
        simp [substClauses, ihE ctr e (by omega) hae]
      | cons c tl =>
        cases c with
        | CCond ce =>
          simp only [sizeCls, sizeCl] at hs
          obtain ⟨h1, h2⟩ : avoidsBinder o ce = true ∧ avoidsBinderClauses o tl = true := by
            simpa only [avoidsBinderClauses, avoidsBinderClause, Bool.and_eq_true] using hcs
          simp [substClauses, ihE ctr ce (by omega) h1, ihC ctr tl e (by omega) h2 hae]
        | CPull id ce =>
          simp only [sizeCls, sizeCl] at hs
          obtain ⟨⟨hb, h1⟩, h2⟩ : (notBound o id = true ∧ avoidsBinder o ce = true) ∧
              avoidsBinderClauses o tl = true := by
            simpa only [avoidsBinderClauses, avoidsBinderClause, Bool.and_eq_true] using hcs
          have hlk : lookupRepl (idMap o) id = none := lookupRepl_idMap_ne o id hb
          have hmem : id ∉ idFvs o := notBound_not_mem_idFvs o id hb
          simp [substClauses, hlk, hmem, ihE ctr ce (by omega) h1,
            ihC ctr tl e (by omega) h2 hae]

/-- Claim C5, counterexample: substituting the identity map on x through
a lambda whose argument is x renames the binder, because the while-loop
of visit_ELambda tests the argument against the free variables of ALL
replacement values, including the untouched identity value x. -/
theorem subst_identity_counterexample :
    subst [("x", EVar "x")] 10 0 (ELambda "x" (EVar "x")) =
      .ok (ELambda "_name1" (EVar "_name1"), 1) ∧
    ELambda "_name1" (EVar "_name1") ≠ ELambda "x" (EVar "x") := by
  exact ⟨by decide, by decide⟩

/-- Claim C5, amended: subst with the empty map is the identity on every
expression, and subst with the single identity binding x to x is the
identity on expressions none of whose lambda arguments or pull clauses
bind x; a binder named x is renamed instead. -/
theorem subst_trivial_map (e : Exp) (x : String) (fuel ctr : Nat)
    (hf : sizeE e ≤ fuel) (hb : avoidsBinder (some x) e = true) :
    subst [] fuel ctr e = .ok (e, ctr) ∧
    subst [(x, EVar x)] fuel ctr e = .ok (e, ctr) := by
  constructor
  · have h := (subst_id_all fuel none).1 ctr e hf (avoidsBinder_none e)
    simpa [subst, replFvs_idMap none, idMap] using h
  · have h := (subst_id_all fuel (some x)).1 ctr e hf hb
    have hr := replFvs_idMap (some x)
    simp only [idMap] at h hr
    simp [subst, hr, h]

theorem subst_trivial_map_witness :
    sizeE (EBinOp (EVar "x") "+" (ELambda "y" (EVar "x"))) ≤ 8 ∧
    avoidsBinder (some "x") (EBinOp (EVar "x") "+" (ELambda "y" (EVar "x"))) = true ∧
    (subst [] 8 0 (EBinOp (EVar "x") "+" (ELambda "y" (EVar "x"))) =
       .ok (EBinOp (EVar "x") "+" (ELambda "y" (EVar "x")), 0) ∧
     subst [("x", EVar "x")] 8 0 (EBinOp (EVar "x") "+" (ELambda "y" (EVar "x"))) =
       .ok (EBinOp (EVar "x") "+" (ELambda "y" (EVar "x")), 0)) :=
  ⟨by decide, by decide,
   subst_trivial_map (EBinOp (EVar "x") "+" (ELambda "y" (EVar "x"))) "x" 8 0
     (by decide) (by decide)⟩

theorem andE_ok (m1 m2 : Except Unit Bool)
    (h : (do let x ← m1; if x then m2 else .ok false : Except Unit Bool) = .ok true) :
    m1 = .ok true ∧ m2 = .ok true := by
  rcases h1 : m1 with _ | b <;> rw [h1] at h
  · simp only [except_bind_err] at h
    cases h
  · simp only [except_bind_ok] at h
    cases b
    · simp only [Bool.false_eq_true, if_false] at h
      cases h
    · exact ⟨rfl, by simpa using h⟩

theorem alphaVar_refl (l : AEnv) (x : String) : alphaVar l l x x = true := by
  unfold alphaVar
  cases lookupDepth l x <;> simp

theorem alphaVar_symm (l r : AEnv) (x1 x2 : String) (h : alphaVar l r x1 x2 = true) :
    alphaVar r l x2 x1 = true := by
  unfold alphaVar at h ⊢
  cases hl : lookupDepth l x1 <;> cases hr : lookupDepth r x2 <;>
    simp only [hl, hr] at h ⊢ <;> simp_all

mutual

theorem alphaEq_refl (e : Exp) : ∀ (l : AEnv) (d : Nat), pullFree e = true →
    alphaEq l l d e e = .ok true := by
  cases e with
  | EVar x =>
    intro l d hp
    simp [alphaEq, alphaVar_refl]
  | EBool v =>
    intro l d hp
    simp [alphaEq]
  | ENum v =>
    intro l d hp
    simp [alphaEq]
  | EStr v =>
    intro l d hp
    simp [alphaEq]
  | EEnumEntry v =>
    intro l d hp
    simp [alphaEq]
  | ENull =>
    intro l d hp
    rfl
  | ECond c t f =>
    intro l d hp
    obtain ⟨⟨h1, h2⟩, h3⟩ : (pullFree c = true ∧ pullFree t = true) ∧ pullFree f = true := by
      simpa [pullFree, Bool.and_eq_true] using hp
    simp [alphaEq, alphaEq_refl c l d h1, alphaEq_refl t l d h2, alphaEq_refl f l d h3]
  | EBinOp a op b =>
    intro l d hp
    obtain ⟨h1, h2⟩ : pullFree a = true ∧ pullFree b = true := by
      simpa [pullFree, Bool.and_eq_true] using hp
    simp [alphaEq, alphaEq_refl a l d h1, alphaEq_refl b l d h2]
  | EUnaryOp op a =>
    intro l d hp
    simp [alphaEq, alphaEq_refl a l d (by simpa [pullFree] using hp)]
  | EArgMin a b =>
    intro l d hp
    obtain ⟨h1, h2⟩ : pullFree a = true ∧ pullFree b = true := by
      simpa [pullFree, Bool.and_eq_true] using hp
    simp [alphaEq, alphaEq_refl a l d h1, alphaEq_refl b l d h2]
  | EArgMax a b =>
    intro l d hp
    obtain ⟨h1, h2⟩ : pullFree a = true ∧ pullFree b = true := by
      simpa [pullFree, Bool.and_eq_true] using hp
    simp [alphaEq, alphaEq_refl a l d h1, alphaEq_refl b l d h2]
  | EHandle a b =>
    intro l d hp
    obtain ⟨h1, h2⟩ : pullFree a = true ∧ pullFree b = true := by
      simpa [pullFree, Bool.and_eq_true] using hp
    simp [alphaEq, alphaEq_refl a l d h1, alphaEq_refl b l d h2]
  | ELet a b =>
    intro l d hp
    obtain ⟨h1, h2⟩ : pullFree a = true ∧ pullFree b = true := by
      simpa [pullFree, Bool.and_eq_true] using hp
    simp [alphaEq, alphaEq_refl a l d h1, alphaEq_refl b l d h2]
  | EFilter a b =>
    intro l d hp
    obtain ⟨h1, h2⟩ : pullFree a = true ∧ pullFree b = true := by
      simpa [pullFree, Bool.and_eq_true] using hp
    simp [alphaEq, alphaEq_refl a l d h1, alphaEq_refl b l d h2]
  | EMap a b =>
    intro l d hp
    obtain ⟨h1, h2⟩ : pullFree a = true ∧ pullFree b = true := by
      simpa [pullFree, Bool.and_eq_true] using hp
    simp [alphaEq, alphaEq_refl a l d h1, alphaEq_refl b l d h2]
  | EFlatMap a b =>
    intro l d hp
    obtain ⟨h1, h2⟩ : pullFree a = true ∧ pullFree b = true := by
      simpa [pullFree, Bool.and_eq_true] using hp
    simp [alphaEq, alphaEq_refl a l d h1, alphaEq_refl b l d h2]
  | EMakeMap2 a b =>
    intro l d hp
    obtain ⟨h1, h2⟩ : pullFree a = true ∧ pullFree b = true := by
      simpa [pullFree, Bool.and_eq_true] using hp
    simp [alphaEq, alphaEq_refl a l d h1, alphaEq_refl b l d h2]
  | EMapGet a b =>
    intro l d hp
    obtain ⟨h1, h2⟩ : pullFree a = true ∧ pullFree b = true := by
      simpa [pullFree, Bool.and_eq_true] using hp
    simp [alphaEq, alphaEq_refl a l d h1, alphaEq_refl b l d h2]
  | EWithAlteredValue a b =>
    intro l d hp
    obtain ⟨h1, h2⟩ : pullFree a = true ∧ pullFree b = true := by
      simpa [pullFree, Bool.and_eq_true] using hp
    simp [alphaEq, alphaEq_refl a l d h1, alphaEq_refl b l d h2]
  | EGetField a fn =>
    intro l d hp
    simp [alphaEq, alphaEq_refl a l d (by simpa [pullFree] using hp)]
  | EMakeRecord fs =>
    intro l d hp
    simp [alphaEq, alphaEqFields_refl fs l d (by simpa [pullFree] using hp)]
  | EListComprehension b cs =>
    intro l d hp
    obtain ⟨h1, h2⟩ : pullFree b = true ∧ pullFreeClauses cs = true := by
      simpa [pullFree, Bool.and_eq_true] using hp
    simp [alphaEq, alphaEqClauses_refl cs l d h2, alphaEq_refl b l d h1]
  | EEmptyList =>
    intro l d hp
    rfl
  | ESingleton a =>
    intro l d hp
    simp [alphaEq, alphaEq_refl a l d (by simpa [pullFree] using hp)]
  | ECall fn args =>
    intro l d hp
    simp [alphaEq, alphaEqZip_refl args l d (by simpa [pullFree] using hp)]
  | ETuple es =>
    intro l d hp
    simp [alphaEq, alphaEqZip_refl es l d (by simpa [pullFree] using hp)]
  | ETupleGet a n =>
    intro l d hp
    simp [alphaEq, alphaEq_refl a l d (by simpa [pullFree] using hp)]
  | ELambda a b =>
    intro l d hp
    simp [alphaEq, alphaEq_refl b ((a, d + 1) :: l) (d + 1) (by simpa [pullFree] using hp)]
  | EStateVar a =>
    intro l d hp
    simp [alphaEq, alphaEq_refl a l d (by simpa [pullFree] using hp)]
  | EMapKeys a =>
    intro l d hp
    simp [alphaEq, alphaEq_refl a l d (by simpa [pullFree] using hp)]
termination_by structural e

theorem alphaEqZip_refl (es : ExpList) : ∀ (l : AEnv) (d : Nat), pullFreeList es = true →
    alphaEqZip l l d es es = .ok true := by
  cases es with
  | nil =>
    intro l d hp
    rfl
  | cons e tl =>
    intro l d hp
    obtain ⟨h1, h2⟩ : pullFree e = true ∧ pullFreeList tl = true := by
      simpa [pullFreeList, Bool.and_eq_true] using hp
    simp [alphaEqZip, alphaEq_refl e l d h1, alphaEqZip_refl tl l d h2]
termination_by structural es

theorem alphaEqFields_refl (fs : RecFields) : ∀ (l : AEnv) (d : Nat), pullFreeFields fs = true →
    alphaEqFields l l d fs fs = .ok true := by
  cases fs with
  | nil =>
    intro l d hp
    rfl
  | cons k v tl =>
    intro l d hp
    obtain ⟨h1, h2⟩ : pullFree v = true ∧ pullFreeFields tl = true := by
      simpa [pullFreeFields, Bool.and_eq_true] using hp
    simp [alphaEqFields, alphaEq_refl v l d h1, alphaEqFields_refl tl l d h2]
termination_by structural fs

theorem alphaEqClauses_refl (cs : Clauses) : ∀ (l : AEnv) (d : Nat), pullFreeClauses cs = true →
    alphaEqClauses l l d cs cs = .ok true := by
  cases cs with
  | nil =>
    intro l d hp
    rfl
  | cons c tl =>
    intro l d hp
    cases c with
    | CPull id ce =>
      simp [pullFreeClauses, pullFreeClause] at hp
    | CCond ce =>
      obtain ⟨h1, h2⟩ : pullFree ce = true ∧ pullFreeClauses tl = true := by
        simpa [pullFreeClauses, pullFreeClause, Bool.and_eq_true] using hp
      simp [alphaEqClauses, clauseExp, alphaEq_refl ce l d h1, alphaEqClauses_refl tl l d h2]
termination_by structural cs

end

mutual

theorem alphaEq_symm (e1 : Exp) : ∀ (e2 : Exp) (l r : AEnv) (d : Nat),
    pullFree e2 = true → alphaEq l r d e1 e2 = .ok true →
    alphaEq r l d e2 e1 = .ok true := by
  cases e1 with
  | EVar x1 =>
    intro e2 l r d hp hf
    cases e2 <;> try (simp only [alphaEq] at hf; exact absurd hf (by decide))
    rename_i x2
    simp only [alphaEq] at hf
    have hv : alphaVar l r x1 x2 = true := by simpa using hf
    simp [alphaEq, alphaVar_symm l r x1 x2 hv]
  | EBool v1 =>
    intro e2 l r d hp hf
    cases e2 <;> try (simp only [alphaEq] at hf; exact absurd hf (by decide))
    rename_i v2
    simp only [alphaEq] at hf
    have hv : v1 = v2 := by simpa using hf
    subst hv
    simp [alphaEq]
  | ENum v1 =>
    intro e2 l r d hp hf
    cases e2 <;> try (simp only [alphaEq] at hf; exact absurd hf (by decide))
    rename_i v2
    simp only [alphaEq] at hf
    have hv : v1 = v2 := by simpa using hf
    subst hv
    simp [alphaEq]
  | EStr v1 =>
    intro e2 l r d hp hf
    cases e2 <;> try (simp only [alphaEq] at hf; exact absurd hf (by decide))
    rename_i v2
    simp only [alphaEq] at hf
    have hv : v1 = v2 := by simpa using hf
    subst hv
    simp [alphaEq]
  | EEnumEntry v1 =>
    intro e2 l r d hp hf
    cases e2 <;> try (simp only [alphaEq] at hf; exact absurd hf (by decide))
    rename_i v2
    simp only [alphaEq] at hf
    have hv : v1 = v2 := by simpa using hf
    subst hv
    simp [alphaEq]
  | ENull =>
    intro e2 l r d hp hf
    cases e2 <;> try (simp only [alphaEq] at hf; exact absurd hf (by decide))
    rfl
  | ECond c1 t1 f1 =>
    intro e2 l r d hp hf
    cases e2 <;> try (simp only [alphaEq] at hf; exact absurd hf (by decide))
    rename_i c2 t2 f2
    simp only [alphaEq] at hf
    obtain ⟨h1, h23⟩ := andE_ok _ _ hf
    obtain ⟨h2, h3⟩ := andE_ok _ _ h23
    obtain ⟨⟨hp1, hp2⟩, hp3⟩ : (pullFree c2 = true ∧ pullFree t2 = true) ∧ pullFree f2 = true := by
      simpa [pullFree, Bool.and_eq_true] using hp
    simp [alphaEq, alphaEq_symm c1 c2 l r d hp1 h1, alphaEq_symm t1 t2 l r d hp2 h2,
      alphaEq_symm f1 f2 l r d hp3 h3]
  | EBinOp a1 op1 b1 =>
    intro e2 l r d hp hf
    cases e2 <;> try (simp only [alphaEq] at hf; exact absurd hf (by decide))
    rename_i a2 op2 b2
    simp only [alphaEq] at hf
    obtain ⟨h1, h2⟩ := andE_ok _ _ hf
    obtain ⟨hope1, h3⟩ : op1 = op2 ∧ alphaEq l r d b1 b2 = .ok true := by
      by_cases hop : (op1 == op2) = true
      · rw [if_pos hop] at h2
        exact ⟨by simpa using hop, h2⟩
      · rw [if_neg hop] at h2
        exact absurd h2 (by decide)
    subst hope1
    obtain ⟨hp1, hp2⟩ : pullFree a2 = true ∧ pullFree b2 = true := by
      simpa [pullFree, Bool.and_eq_true] using hp
    simp [alphaEq, alphaEq_symm a1 a2 l r d hp1 h1, alphaEq_symm b1 b2 l r d hp2 h3]
  | EUnaryOp op1 a1 =>
    intro e2 l r d hp hf
    cases e2 <;> try (simp only [alphaEq] at hf; exact absurd hf (by decide))
    rename_i op2 a2
    simp only [alphaEq] at hf
    split at hf
    · rename_i hop
      have hope : op1 = op2 := by simpa using hop
      subst hope
      simp [alphaEq, alphaEq_symm a1 a2 l r d (by simpa [pullFree] using hp) hf]
    · exact absurd hf (by decide)
  | EArgMin a1 b1 =>
    intro e2 l r d hp hf
    cases e2 <;> try (simp only [alphaEq] at hf; exact absurd hf (by decide))
    rename_i a2 b2
    simp only [alphaEq] at hf
    obtain ⟨h1, h2⟩ := andE_ok _ _ hf
    obtain ⟨hp1, hp2⟩ : pullFree a2 = true ∧ pullFree b2 = true := by
      simpa [pullFree, Bool.and_eq_true] using hp
    simp [alphaEq, alphaEq_symm a1 a2 l r d hp1 h1, alphaEq_symm b1 b2 l r d hp2 h2]
  | EArgMax a1 b1 =>
    intro e2 l r d hp hf
    cases e2 <;> try (simp only [alphaEq] at hf; exact absurd hf (by decide))
    rename_i a2 b2
    simp only [alphaEq] at hf
    obtain ⟨h1, h2⟩ := andE_ok _ _ hf
    obtain ⟨hp1, hp2⟩ : pullFree a2 = true ∧ pullFree b2 = true := by
      simpa [pullFree, Bool.and_eq_true] using hp
    simp [alphaEq, alphaEq_symm a1 a2 l r d hp1 h1, alphaEq_symm b1 b2 l r d hp2 h2]
  | EHandle a1 b1 =>
    intro e2 l r d hp hf
    cases e2 <;> try (simp only [alphaEq] at hf; exact absurd hf (by decide))
    rename_i a2 b2
    simp only [alphaEq] at hf
    obtain ⟨h1, h2⟩ := andE_ok _ _ hf
    obtain ⟨hp1, hp2⟩ : pullFree a2 = true ∧ pullFree b2 = true := by
      simpa [pullFree, Bool.and_eq_true] using hp
    simp [alphaEq, alphaEq_symm a1 a2 l r d hp1 h1, alphaEq_symm b1 b2 l r d hp2 h2]
  | EGetField a1 fn1 =>
    intro e2 l r d hp hf
    cases e2 <;> try (simp only [alphaEq] at hf; exact absurd hf (by decide))
    rename_i a2 fn2
    simp only [alphaEq] at hf
    obtain ⟨h1, h2⟩ := andE_ok _ _ hf
    have hfe : fn1 = fn2 := by simpa using h2
    subst hfe
    simp [alphaEq, alphaEq_symm a1 a2 l r d (by simpa [pullFree] using hp) h1]
  | EMakeRecord fs1 =>
    intro e2 l r d hp hf
    cases e2 <;> try (simp only [alphaEq] at hf; exact absurd hf (by decide))
    rename_i fs2
    simp only [alphaEq] at hf
    simp [alphaEq, alphaEqFields_symm fs1 fs2 l r d (by simpa [pullFree] using hp) hf]
  | EListComprehension b1 cs1 =>
    intro e2 l r d hp hf
    cases e2 <;> try (simp only [alphaEq] at hf; exact absurd hf (by decide))
    rename_i b2 cs2
    simp only [alphaEq] at hf
    split at hf
    · exact absurd hf (by decide)
    · rename_i hne
      have hlen : lenCls cs1 = lenCls cs2 := not_ne_iff.mp hne
      obtain ⟨h1, h2⟩ := andE_ok _ _ hf
      obtain ⟨hp1, hp2⟩ : pullFree b2 = true ∧ pullFreeClauses cs2 = true := by
        simpa [pullFree, Bool.and_eq_true] using hp
      simp [alphaEq, hlen, alphaEqClauses_symm cs1 cs2 l r d hp2 hlen h1,
        alphaEq_symm b1 b2 l r d hp1 h2]
  | EEmptyList =>
    intro e2 l r d hp hf
    cases e2 <;> try (simp only [alphaEq] at hf; exact absurd hf (by decide))
    rfl
  | ESingleton a1 =>
    intro e2 l r d hp hf
    cases e2 <;> try (simp only [alphaEq] at hf; exact absurd hf (by decide))
    rename_i a2
    simp only [alphaEq] at hf
    simp [alphaEq, alphaEq_symm a1 a2 l r d (by simpa [pullFree] using hp) hf]
  | ECall f1 as1 =>
    intro e2 l r d hp hf
    cases e2 <;> try (simp only [alphaEq] at hf; exact absurd hf (by decide))
    rename_i f2 as2
    simp only [alphaEq] at hf
    split at hf
    · rename_i hc
      obtain ⟨hfe, hle⟩ : (f1 == f2) = true ∧ (lenEL as1 == lenEL as2) = true := by
        simpa [Bool.and_eq_true] using hc
      have hfe2 : f1 = f2 := by simpa using hfe
      have hle2 : lenEL as1 = lenEL as2 := by simpa using hle
      subst hfe2
      simp [alphaEq, hle2, alphaEqZip_symm as1 as2 l r d (by simpa [pullFree] using hp) hf]
    · exact absurd hf (by decide)
  | ETuple es1 =>
    intro e2 l r d hp hf
    cases e2 <;> try (simp only [alphaEq] at hf; exact absurd hf (by decide))
    rename_i es2
    simp only [alphaEq] at hf
    simp [alphaEq, alphaEqZip_symm es1 es2 l r d (by simpa [pullFree] using hp) hf]
  | ETupleGet a1 n1 =>
    intro e2 l r d hp hf
    cases e2 <;> try (simp only [alphaEq] at hf; exact absurd hf (by decide))
    rename_i a2 n2
    simp only [alphaEq] at hf
    obtain ⟨h1, h2⟩ := andE_ok _ _ hf
    have hfe : n1 = n2 := by simpa using h2
    subst hfe
    simp [alphaEq, alphaEq_symm a1 a2 l r d (by simpa [pullFree] using hp) h1]
  | ELet a1 b1 =>
    intro e2 l r d hp hf
    cases e2 <;> try (simp only [alphaEq] at hf; exact absurd hf (by decide))
    rename_i a2 b2
    simp only [alphaEq] at hf
    obtain ⟨h1, h2⟩ := andE_ok _ _ hf
    obtain ⟨hp1, hp2⟩ : pullFree a2 = true ∧ pullFree b2 = true := by
      simpa [pullFree, Bool.and_eq_true] using hp
    simp [alphaEq, alphaEq_symm a1 a2 l r d hp1 h1, alphaEq_symm b1 b2 l r d hp2 h2]
  | ELambda a1 b1 =>
    intro e2 l r d hp hf
    cases e2 <;> try (simp only [alphaEq] at hf; exact absurd hf (by decide))
    rename_i a2 b2
    simp only [alphaEq] at hf
    simp [alphaEq, alphaEq_symm b1 b2 ((a1, d + 1) :: l) ((a2, d + 1) :: r) (d + 1)
      (by simpa [pullFree] using hp) hf]
  | EStateVar a1 =>
    intro e2 l r d hp hf
    cases e2 <;> try (simp only [alphaEq] at hf; exact absurd hf (by decide))
    rename_i a2
    simp only [alphaEq] at hf
    simp [alphaEq, alphaEq_symm a1 a2 l r d (by simpa [pullFree] using hp) hf]
  | EFilter a1 b1 =>
    intro e2 l r d hp hf
    cases e2 <;> try (simp only [alphaEq] at hf; exact absurd hf (by decide))
    rename_i a2 b2
    simp only [alphaEq] at hf
    obtain ⟨h1, h2⟩ := andE_ok _ _ hf
    obtain ⟨hp1, hp2⟩ : pullFree a2 = true ∧ pullFree b2 = true := by
      simpa [pullFree, Bool.and_eq_true] using hp
    simp [alphaEq, alphaEq_symm a1 a2 l r d hp1 h1, alphaEq_symm b1 b2 l r d hp2 h2]
  | EMap a1 b1 =>
    intro e2 l r d hp hf
    cases e2 <;> try (simp only [alphaEq] at hf; exact absurd hf (by decide))
    rename_i a2 b2
    simp only [alphaEq] at hf
    obtain ⟨h1, h2⟩ := andE_ok _ _ hf
    obtain ⟨hp1, hp2⟩ : pullFree a2 = true ∧ pullFree b2 = true := by
      simpa [pullFree, Bool.and_eq_true] using hp
    simp [alphaEq, alphaEq_symm a1 a2 l r d hp1 h1, alphaEq_symm b1 b2 l r d hp2 h2]
  | EFlatMap a1 b1 =>
    intro e2 l r d hp hf
    cases e2 <;> try (simp only [alphaEq] at hf; exact absurd hf (by decide))
    rename_i a2 b2
    simp only [alphaEq] at hf
    obtain ⟨h1, h2⟩ := andE_ok _ _ hf
    obtain ⟨hp1, hp2⟩ : pullFree a2 = true ∧ pullFree b2 = true := by
      simpa [pullFree, Bool.and_eq_true] using hp
    simp [alphaEq, alphaEq_symm a1 a2 l r d hp1 h1, alphaEq_symm b1 b2 l r d hp2 h2]
  | EMakeMap2 a1 b1 =>
    intro e2 l r d hp hf
    cases e2 <;> try (simp only [alphaEq] at hf; exact absurd hf (by decide))
    rename_i a2 b2
    simp only [alphaEq] at hf
    obtain ⟨h1, h2⟩ := andE_ok _ _ hf
    obtain ⟨hp1, hp2⟩ : pullFree a2 = true ∧ pullFree b2 = true := by
      simpa [pullFree, Bool.and_eq_true] using hp
    simp [alphaEq, alphaEq_symm a1 a2 l r d hp1 h1, alphaEq_symm b1 b2 l r d hp2 h2]
  | EMapGet a1 b1 =>
    intro e2 l r d hp hf
    cases e2 <;> try (simp only [alphaEq] at hf; exact absurd hf (by decide))
    rename_i a2 b2
    simp only [alphaEq] at hf
    obtain ⟨h1, h2⟩ := andE_ok _ _ hf
    obtain ⟨hp1, hp2⟩ : pullFree a2 = true ∧ pullFree b2 = true := by
      simpa [pullFree, Bool.and_eq_true] using hp
    simp [alphaEq, alphaEq_symm a1 a2 l r d hp1 h1, alphaEq_symm b1 b2 l r d hp2 h2]
  | EWithAlteredValue a1 b1 =>
    intro e2 l r d hp hf
    cases e2 <;> try (simp only [alphaEq] at hf; exact absurd hf (by decide))
    rename_i a2 b2
    simp only [alphaEq] at hf
    obtain ⟨h1, h2⟩ := andE_ok _ _ hf
    obtain ⟨hp1, hp2⟩ : pullFree a2 = true ∧ pullFree b2 = true := by
      simpa [pullFree, Bool.and_eq_true] using hp
    simp [alphaEq, alphaEq_symm a1 a2 l r d hp1 h1, alphaEq_symm b1 b2 l r d hp2 h2]
  | EMapKeys a1 =>
    intro e2 l r d hp hf
    cases e2 <;> try (simp only [alphaEq] at hf; exact absurd hf (by decide))
    rename_i a2
    simp only [alphaEq] at hf
    simp [alphaEq, alphaEq_symm a1 a2 l r d (by simpa [pullFree] using hp) hf]
termination_by structural e1

theorem alphaEqZip_symm (es1 : ExpList) : ∀ (es2 : ExpList) (l r : AEnv) (d : Nat),
    pullFreeList es2 = true → alphaEqZip l r d es1 es2 = .ok true →
    alphaEqZip r l d es2 es1 = .ok true := by
  cases es1 with
  | nil =>
    intro es2 l r d hp hf
    cases es2 with
    | nil => rfl
    | cons e2 t2 => simp [alphaEqZip]
  | cons e1 t1 =>
    intro es2 l r d hp hf
    cases es2 with
    | nil => rfl
    | cons e2 t2 =>
      simp only [alphaEqZip] at hf
      obtain ⟨h1, h2⟩ := andE_ok _ _ hf
      obtain ⟨hp1, hp2⟩ : pullFree e2 = true ∧ pullFreeList t2 = true := by
        simpa [pullFreeList, Bool.and_eq_true] using hp
      simp [alphaEqZip, alphaEq_symm e1 e2 l r d hp1 h1, alphaEqZip_symm t1 t2 l r d hp2 h2]
termination_by structural es1

theorem alphaEqFields_symm (fs1 : RecFields) : ∀ (fs2 : RecFields) (l r : AEnv) (d : Nat),
    pullFreeFields fs2 = true → alphaEqFields l r d fs1 fs2 = .ok true →
    alphaEqFields r l d fs2 fs1 = .ok true := by
  cases fs1 with
  | nil =>
    intro fs2 l r d hp hf
    cases fs2 with
    | nil => rfl
    | cons k2 v2 t2 => simp [alphaEqFields]
  | cons k1 v1 t1 =>
    intro fs2 l r d hp hf
    cases fs2 with
    | nil => rfl
    | cons k2 v2 t2 =>
      simp only [alphaEqFields] at hf
      split at hf
      · rename_i hk
        have hk2 : k1 = k2 := by simpa using hk
        subst hk2
        obtain ⟨h1, h2⟩ := andE_ok _ _ hf
        obtain ⟨hp1, hp2⟩ : pullFree v2 = true ∧ pullFreeFields t2 = true := by
          simpa [pullFreeFields, Bool.and_eq_true] using hp
        simp [alphaEqFields, alphaEq_symm v1 v2 l r d hp1 h1,
          alphaEqFields_symm t1 t2 l r d hp2 h2]
      · exact absurd hf (by decide)
termination_by structural fs1

theorem alphaEqClauses_symm (cs1 : Clauses) : ∀ (cs2 : Clauses) (l r : AEnv) (d : Nat),
    pullFreeClauses cs2 = true → lenCls cs1 = lenCls cs2 →
    alphaEqClauses l r d cs1 cs2 = .ok true → alphaEqClauses r l d cs2 cs1 = .ok true := by
  cases cs1 with
  | nil =>
    intro cs2 l r d hp hlen hf
    cases cs2 with
    | nil => rfl
    | cons c2 t2 =>
      simp only [lenCls] at hlen
      omega
  | cons c1 t1 =>
    intro cs2 l r d hp hlen hf
    cases cs2 with
    | nil =>
      simp only [lenCls] at hlen
      omega
    | cons c2 t2 =>
      simp only [lenCls] at hlen
      have hlen2 : lenCls t1 = lenCls t2 := by omega
      obtain ⟨hpc, hpt⟩ : pullFreeClause c2 = true ∧ pullFreeClauses t2 = true := by
        simpa [pullFreeClauses, Bool.and_eq_true] using hp
      cases c2 with
      | CPull id2 ce2 => simp [pullFreeClause] at hpc
      | CCond e2c =>
        cases c1 with
        | CPull id1 ce1 =>
          simp only [alphaEqClauses] at hf
          exact absurd hf (by decide)
        | CCond e1c =>
          simp only [alphaEqClauses, clauseExp] at hf
          obtain ⟨h1, h2⟩ := andE_ok _ _ hf
          have hpe : pullFree e2c = true := by simpa [pullFreeClause] using hpc
          simp [alphaEqClauses, clauseExp, alphaEq_symm e1c e2c l r d hpe h1,
            alphaEqClauses_symm t1 t2 l r d hpt hlen2 h2]
termination_by structural cs1

end

/-- Claim C6, counterexample: alpha_equivalent is not transitive on
tuples of differing arity, because visit_ETuple zips the component
lists and zip truncates at the shorter: a one-tuple is equivalent to
the empty tuple in both orders, but two distinct one-tuples are not
equivalent. -/
theorem alpha_equivalent_not_transitive :
    alpha_equivalent (ETuple (ExpList.cons (EVar "a") ExpList.nil)) (ETuple ExpList.nil) =
      .ok true ∧
    alpha_equivalent (ETuple ExpList.nil) (ETuple (ExpList.cons (EVar "b") ExpList.nil)) =
      .ok true ∧
    alpha_equivalent (ETuple (ExpList.cons (EVar "a") ExpList.nil))
      (ETuple (ExpList.cons (EVar "b") ExpList.nil)) = .ok false := by
  refine ⟨by decide, by decide, by decide⟩

/-- Claim C6, amended: on pull-free expressions alpha_equivalent is
reflexive and symmetric, but it is not transitive (tuple and record
comparisons zip-truncate, so tuples of differing arity compare equal
to a common truncation without being equal to each other), and on a
pair of pull clauses it raises instead of returning a verdict. -/
theorem alpha_equivalent_refl_symm (e1 e2 : Exp)
    (h1 : pullFree e1 = true) (h2 : pullFree e2 = true) :
    alpha_equivalent e1 e1 = .ok true ∧
    (alpha_equivalent e1 e2 = .ok true → alpha_equivalent e2 e1 = .ok true) := by
  constructor
  · exact alphaEq_refl e1 [] 0 h1
  · intro hf
    exact alphaEq_symm e1 e2 [] [] 0 h2 hf

theorem alpha_equivalent_refl_symm_witness :
    pullFree (ELambda "x" (EVar "x")) = true ∧
    pullFree (ELambda "y" (EVar "y")) = true ∧
    (alpha_equivalent (ELambda "x" (EVar "x")) (ELambda "x" (EVar "x")) = .ok true ∧
     (alpha_equivalent (ELambda "x" (EVar "x")) (ELambda "y" (EVar "y")) = .ok true →
      alpha_equivalent (ELambda "y" (EVar "y")) (ELambda "x" (EVar "x")) = .ok true)) :=
  ⟨by decide, by decide,
   alpha_equivalent_refl_symm (ELambda "x" (EVar "x")) (ELambda "y" (EVar "y"))
     (by decide) (by decide)⟩

theorem ebind_ok {α β : Type} (m : Except Unit α) (f : α → Except Unit β) (b : β)
    (h : (m >>= f) = .ok b) : ∃ a, m = .ok a ∧ f a = .ok b := by
  rcases h1 : m with _ | a <;> rw [h1] at h
  · simp only [except_bind_err] at h
    cases h
  · exact ⟨a, rfl, by simpa using h⟩

theorem obind_ok {α β : Type} (m : Option α) (f : α → Option β) (b : β)
    (h : (m >>= f) = some b) : ∃ a, m = some a ∧ f a = some b := by
  rcases h1 : m with _ | a <;> rw [h1] at h
  · simp at h
  · exact ⟨a, rfl, by simpa using h⟩

mutual

theorem fragRight (e : Exp) : ∀ (A : List Exp) (B : List String) (l : List Frag),
    enumFrags A B e = .ok l → ∀ fr ∈ l, fr.r fr.x = e := by
  cases e with
  | EVar x =>
    intro A B l h fr hfr
    injection h with h
    subst h
    have he : fr = ⟨A, EVar x, id, B⟩ := List.mem_singleton.mp hfr
    subst he
    rfl
  | EBool v =>
    intro A B l h fr hfr
    injection h with h
    subst h
    have he : fr = ⟨A, EBool v, id, B⟩ := List.mem_singleton.mp hfr
    subst he
    rfl
  | ENum v =>
    intro A B l h fr hfr
    injection h with h
    subst h
    have he : fr = ⟨A, ENum v, id, B⟩ := List.mem_singleton.mp hfr
    subst he
    rfl
  | EStr v =>
    intro A B l h fr hfr
    injection h with h
    subst h
    have he : fr = ⟨A, EStr v, id, B⟩ := List.mem_singleton.mp hfr
    subst he
    rfl
  | EEnumEntry n =>
    intro A B l h fr hfr
    injection h with h
    subst h
    have he : fr = ⟨A, EEnumEntry n, id, B⟩ := List.mem_singleton.mp hfr
    subst he
    rfl
  | ENull =>
    intro A B l h fr hfr
    injection h with h
    subst h
    have he : fr = ⟨A, ENull, id, B⟩ := List.mem_singleton.mp hfr
    subst he
    rfl
  | ECond c t f =>
    intro A B l h fr hfr
    obtain ⟨fcl, hc, h⟩ := ebind_ok _ _ _ h
    obtain ⟨ftl, ht, h⟩ := ebind_ok _ _ _ h
    obtain ⟨ffl, hff, h⟩ := ebind_ok _ _ _ h
    injection h with h
    subst h
    rcases List.mem_cons.mp hfr with rfl | hfr
    · rfl
    rcases List.mem_append.mp hfr with hfr | hfr
    · rcases List.mem_append.mp hfr with hfr | hfr <;>
        simp only [wrapFrags, List.mem_map] at hfr <;>
        obtain ⟨fr0, hfr0, rfl⟩ := hfr
      · show ECond (fr0.r fr0.x) t f = ECond c t f
        rw [fragRight c A B fcl hc fr0 hfr0]
      · show ECond c (fr0.r fr0.x) f = ECond c t f
        rw [fragRight t (A ++ [c]) B ftl ht fr0 hfr0]
    · simp only [wrapFrags, List.mem_map] at hfr
      obtain ⟨fr0, hfr0, rfl⟩ := hfr
      show ECond c t (fr0.r fr0.x) = ECond c t f
      rw [fragRight f (A ++ [mkNot c]) B ffl hff fr0 hfr0]
  | EBinOp e1 op e2 =>
    intro A B l h fr hfr
    obtain ⟨f1l, h1, h⟩ := ebind_ok _ _ _ h
    obtain ⟨f2l, h2, h⟩ := ebind_ok _ _ _ h
    injection h with h
    subst h
    rcases List.mem_cons.mp hfr with rfl | hfr
    · rfl
    rcases List.mem_append.mp hfr with hfr | hfr <;>
      simp only [wrapFrags, List.mem_map] at hfr <;>
      obtain ⟨fr0, hfr0, rfl⟩ := hfr
    · show EBinOp (fr0.r fr0.x) op e2 = EBinOp e1 op e2
      rw [fragRight e1 A B f1l h1 fr0 hfr0]
    · show EBinOp e1 op (fr0.r fr0.x) = EBinOp e1 op e2
      rw [fragRight e2 A B f2l h2 fr0 hfr0]
  | EUnaryOp op e0 =>
    intro A B l h fr hfr
    obtain ⟨f0l, h0, h⟩ := ebind_ok _ _ _ h
    injection h with h
    subst h
    rcases List.mem_cons.mp hfr with rfl | hfr
    · rfl
    simp only [wrapFrags, List.mem_map] at hfr
    obtain ⟨fr0, hfr0, rfl⟩ := hfr
    show EUnaryOp op (fr0.r fr0.x) = EUnaryOp op e0
    rw [fragRight e0 A B f0l h0 fr0 hfr0]
  | EArgMin e0 fn =>
    intro A B l h fr hfr
    obtain ⟨f1l, h1, h⟩ := ebind_ok _ _ _ h
    obtain ⟨f2l, h2, h⟩ := ebind_ok _ _ _ h
    injection h with h
    subst h
    rcases List.mem_cons.mp hfr with rfl | hfr
    · rfl
    rcases List.mem_append.mp hfr with hfr | hfr <;>
      simp only [wrapFrags, List.mem_map] at hfr <;>
      obtain ⟨fr0, hfr0, rfl⟩ := hfr
    · show EArgMin (fr0.r fr0.x) fn = EArgMin e0 fn
      rw [fragRight e0 A B f1l h1 fr0 hfr0]
    · show EArgMin e0 (fr0.r fr0.x) = EArgMin e0 fn
      rw [fragRight fn A B f2l h2 fr0 hfr0]
  | EArgMax e0 fn =>
    intro A B l h fr hfr
    obtain ⟨f1l, h1, h⟩ := ebind_ok _ _ _ h
    obtain ⟨f2l, h2, h⟩ := ebind_ok _ _ _ h
    injection h with h
    subst h
    rcases List.mem_cons.mp hfr with rfl | hfr
    · rfl
    rcases List.mem_append.mp hfr with hfr | hfr <;>
      simp only [wrapFrags, List.mem_map] at hfr <;>
      obtain ⟨fr0, hfr0, rfl⟩ := hfr
    · show EArgMax (fr0.r fr0.x) fn = EArgMax e0 fn
      rw [fragRight e0 A B f1l h1 fr0 hfr0]
    · show EArgMax e0 (fr0.r fr0.x) = EArgMax e0 fn
      rw [fragRight fn A B f2l h2 fr0 hfr0]
  | EHandle ad v =>
    intro A B l h fr hfr
    obtain ⟨f1l, h1, h⟩ := ebind_ok _ _ _ h
    obtain ⟨f2l, h2, h⟩ := ebind_ok _ _ _ h
    injection h with h
    subst h
    rcases List.mem_cons.mp hfr with rfl | hfr
    · rfl
    rcases List.mem_append.mp hfr with hfr | hfr <;>
      simp only [wrapFrags, List.mem_map] at hfr <;>
      obtain ⟨fr0, hfr0, rfl⟩ := hfr
    · show EHandle (fr0.r fr0.x) v = EHandle ad v
      rw [fragRight ad A B f1l h1 fr0 hfr0]
    · show EHandle ad (fr0.r fr0.x) = EHandle ad v
      rw [fragRight v A B f2l h2 fr0 hfr0]
  | EGetField e0 fname =>
    intro A B l h fr hfr
    obtain ⟨f0l, h0, h⟩ := ebind_ok _ _ _ h
    injection h with h
    subst h
    rcases List.mem_cons.mp hfr with rfl | hfr
    · rfl
    simp only [wrapFrags, List.mem_map] at hfr
    obtain ⟨fr0, hfr0, rfl⟩ := hfr
    show EGetField (fr0.r fr0.x) fname = EGetField e0 fname
    rw [fragRight e0 A B f0l h0 fr0 hfr0]
  | EMakeRecord fields =>
    intro A B l h fr hfr
    obtain ⟨fsl, hfs, h⟩ := ebind_ok _ _ _ h
    injection h with h
    subst h
    rcases List.mem_cons.mp hfr with rfl | hfr
    · rfl
    simp only [List.mem_map] at hfr
    obtain ⟨fr0, hfr0, rfl⟩ := hfr
    show EMakeRecord (fr0.rf fr0.x) = EMakeRecord fields
    rw [fragRightF fields A B fsl hfs fr0 hfr0]
  | EListComprehension e0 cs =>
    intro A B l h fr hfr
    obtain ⟨f0l, h0, h⟩ := ebind_ok _ _ _ h
    obtain ⟨fcl, hcl, h⟩ := ebind_ok _ _ _ h
    injection h with h
    subst h
    rcases List.mem_cons.mp hfr with rfl | hfr
    · rfl
    rcases List.mem_append.mp hfr with hfr | hfr
    · simp only [wrapFrags, List.mem_map] at hfr
      obtain ⟨fr0, hfr0, rfl⟩ := hfr
      show EListComprehension (fr0.r fr0.x) cs = EListComprehension e0 cs
      rw [fragRight e0 A B f0l h0 fr0 hfr0]
    · simp only [List.mem_map] at hfr
      obtain ⟨fr0, hfr0, rfl⟩ := hfr
      show EListComprehension e0 (fr0.rc fr0.x) = EListComprehension e0 cs
      rw [fragRightC cs A B fcl hcl fr0 hfr0]
  | EEmptyList =>
    intro A B l h fr hfr
    injection h with h
    subst h
    have he : fr = ⟨A, EEmptyList, id, B⟩ := List.mem_singleton.mp hfr
    subst he
    rfl
  | ESingleton e0 =>
    intro A B l h fr hfr
    obtain ⟨f0l, h0, h⟩ := ebind_ok _ _ _ h
    injection h with h
    subst h
    rcases List.mem_cons.mp hfr with rfl | hfr
    · rfl
    simp only [wrapFrags, List.mem_map] at hfr
    obtain ⟨fr0, hfr0, rfl⟩ := hfr
    show ESingleton (fr0.r fr0.x) = ESingleton e0
    rw [fragRight e0 A B f0l h0 fr0 hfr0]
  | ECall fn args =>
    intro A B l h fr hfr
    obtain ⟨fsl, hfs, h⟩ := ebind_ok _ _ _ h
    injection h with h
    subst h
    rcases List.mem_cons.mp hfr with rfl | hfr
    · rfl
    simp only [List.mem_map] at hfr
    obtain ⟨fr0, hfr0, rfl⟩ := hfr
    show ECall fn (fr0.rl fr0.x) = ECall fn args
    rw [fragRightL args A B fsl hfs fr0 hfr0]
  | ETuple es =>
    intro A B l h fr hfr
    obtain ⟨fsl, hfs, h⟩ := ebind_ok _ _ _ h
    injection h with h
    subst h
    rcases List.mem_cons.mp hfr with rfl | hfr
    · rfl
    simp only [List.mem_map] at hfr
    obtain ⟨fr0, hfr0, rfl⟩ := hfr
    show ETuple (fr0.rl fr0.x) = ETuple es
    rw [fragRightL es A B fsl hfs fr0 hfr0]
  | ETupleGet e0 n =>
    intro A B l h fr hfr
    obtain ⟨f0l, h0, h⟩ := ebind_ok _ _ _ h
    injection h with h
    subst h
    rcases List.mem_cons.mp hfr with rfl | hfr
    · rfl
    simp only [wrapFrags, List.mem_map] at hfr
    obtain ⟨fr0, hfr0, rfl⟩ := hfr
    show ETupleGet (fr0.r fr0.x) n = ETupleGet e0 n
    rw [fragRight e0 A B f0l h0 fr0 hfr0]
  | ELet e0 fn =>
    intro A B l h fr hfr
    obtain ⟨f1l, h1, h⟩ := ebind_ok _ _ _ h
    obtain ⟨f2l, h2, h⟩ := ebind_ok _ _ _ h
    injection h with h
    subst h
    rcases List.mem_cons.mp hfr with rfl | hfr
    · rfl
    rcases List.mem_append.mp hfr with hfr | hfr <;>
      simp only [wrapFrags, List.mem_map] at hfr <;>
      obtain ⟨fr0, hfr0, rfl⟩ := hfr
    · show ELet (fr0.r fr0.x) fn = ELet e0 fn
      rw [fragRight e0 A B f1l h1 fr0 hfr0]
    · show ELet e0 (fr0.r fr0.x) = ELet e0 fn
      rw [fragRight fn A B f2l h2 fr0 hfr0]
  | ELambda arg body =>
    intro A B l h fr hfr
    obtain ⟨A2, hA2, h⟩ := ebind_ok _ _ _ h
    obtain ⟨frl, hfl, h⟩ := ebind_ok _ _ _ h
    injection h with h
    subst h
    simp only [wrapFrags, List.mem_map] at hfr
    obtain ⟨fr0, hfr0, rfl⟩ := hfr
    show ELambda arg (fr0.r fr0.x) = ELambda arg body
    rw [fragRight body A2 (addBound B arg) frl hfl fr0 hfr0]
  | EStateVar e0 =>
    intro A B l h fr hfr
    obtain ⟨f0l, h0, h⟩ := ebind_ok _ _ _ h
    injection h with h
    subst h
    rcases List.mem_cons.mp hfr with rfl | hfr
    · rfl
    simp only [wrapFrags, List.mem_map] at hfr
    obtain ⟨fr0, hfr0, rfl⟩ := hfr
    show EStateVar (fr0.r fr0.x) = EStateVar e0
    rw [fragRight e0 A [] f0l h0 fr0 hfr0]
  | EFilter e0 p =>
    intro A B l h fr hfr
    cases p
    case ELambda arg pbody =>
      obtain ⟨f0l, h0, h⟩ := ebind_ok _ _ _ h
      obtain ⟨fvBag, hfv, h⟩ := ebind_ok _ _ _ h
      obtain ⟨A2, hA2, h⟩ := ebind_ok _ _ _ h
      obtain ⟨fpl, hfp, h⟩ := ebind_ok _ _ _ h
      injection h with h
      subst h
      rcases List.mem_cons.mp hfr with rfl | hfr
      · rfl
      rcases List.mem_append.mp hfr with hfr | hfr <;>
        simp only [wrapFrags, List.mem_map] at hfr <;>
        obtain ⟨fr0, hfr0, rfl⟩ := hfr
      · show EFilter (fr0.r fr0.x) (ELambda arg pbody) = EFilter e0 (ELambda arg pbody)
        rw [fragRight e0 A B f0l h0 fr0 hfr0]
      · show EFilter e0 (ELambda arg (fr0.r fr0.x)) = EFilter e0 (ELambda arg pbody)
        rw [fragRight pbody (A2 ++ (if arg ∈ fvBag then [] else [EDeepIn (EVar arg) e0]))
          (addBound B arg) fpl hfp fr0 hfr0]
    all_goals
      obtain ⟨f0l, h0, h⟩ := ebind_ok _ _ _ h
      cases h
  | EMap e0 p =>
    intro A B l h fr hfr
    cases p
    case ELambda arg fbody =>
      obtain ⟨f0l, h0, h⟩ := ebind_ok _ _ _ h
      obtain ⟨fvBag, hfv, h⟩ := ebind_ok _ _ _ h
      obtain ⟨A2, hA2, h⟩ := ebind_ok _ _ _ h
      obtain ⟨fpl, hfp, h⟩ := ebind_ok _ _ _ h
      injection h with h
      subst h
      rcases List.mem_cons.mp hfr with rfl | hfr
      · rfl
      rcases List.mem_append.mp hfr with hfr | hfr <;>
        simp only [wrapFrags, List.mem_map] at hfr <;>
        obtain ⟨fr0, hfr0, rfl⟩ := hfr
      · show EMap (fr0.r fr0.x) (ELambda arg fbody) = EMap e0 (ELambda arg fbody)
        rw [fragRight e0 A B f0l h0 fr0 hfr0]
      · show EMap e0 (ELambda arg (fr0.r fr0.x)) = EMap e0 (ELambda arg fbody)
        rw [fragRight fbody (A2 ++ (if arg ∈ fvBag then [] else [EDeepIn (EVar arg) e0]))
          (addBound B arg) fpl hfp fr0 hfr0]
    all_goals
      obtain ⟨f0l, h0, h⟩ := ebind_ok _ _ _ h
      cases h
  | EFlatMap e0 p =>
    intro A B l h fr hfr
    cases p
    case ELambda arg fbody =>
      obtain ⟨f0l, h0, h⟩ := ebind_ok _ _ _ h
      obtain ⟨fvBag, hfv, h⟩ := ebind_ok _ _ _ h
      obtain ⟨A2, hA2, h⟩ := ebind_ok _ _ _ h
      obtain ⟨fpl, hfp, h⟩ := ebind_ok _ _ _ h
      injection h with h
      subst h
      rcases List.mem_cons.mp hfr with rfl | hfr
      · rfl
      rcases List.mem_append.mp hfr with hfr | hfr <;>
        simp only [wrapFrags, List.mem_map] at hfr <;>
        obtain ⟨fr0, hfr0, rfl⟩ := hfr
      · show EFlatMap (fr0.r fr0.x) (ELambda arg fbody) = EFlatMap e0 (ELambda arg fbody)
        rw [fragRight e0 A B f0l h0 fr0 hfr0]
      · show EFlatMap e0 (ELambda arg (fr0.r fr0.x)) = EFlatMap e0 (ELambda arg fbody)
        rw [fragRight fbody (A2 ++ (if arg ∈ fvBag then [] else [EDeepIn (EVar arg) e0]))
          (addBound B arg) fpl hfp fr0 hfr0]
    all_goals
      obtain ⟨f0l, h0, h⟩ := ebind_ok _ _ _ h
      cases h
  | EMakeMap2 e0 p =>
    intro A B l h fr hfr
    cases p
    case ELambda arg vbody =>
      obtain ⟨f0l, h0, h⟩ := ebind_ok _ _ _ h
      obtain ⟨fvBag, hfv, h⟩ := ebind_ok _ _ _ h
      obtain ⟨A2, hA2, h⟩ := ebind_ok _ _ _ h
      obtain ⟨fpl, hfp, h⟩ := ebind_ok _ _ _ h
      injection h with h
      subst h
      rcases List.mem_cons.mp hfr with rfl | hfr
      · rfl
      rcases List.mem_append.mp hfr with hfr | hfr <;>
        simp only [wrapFrags, List.mem_map] at hfr <;>
        obtain ⟨fr0, hfr0, rfl⟩ := hfr
      · show EMakeMap2 (fr0.r fr0.x) (ELambda arg vbody) = EMakeMap2 e0 (ELambda arg vbody)
        rw [fragRight e0 A B f0l h0 fr0 hfr0]
      · show EMakeMap2 e0 (ELambda arg (fr0.r fr0.x)) = EMakeMap2 e0 (ELambda arg vbody)
        rw [fragRight vbody (A2 ++ (if arg ∈ fvBag then [] else [EDeepIn (EVar arg) e0]))
          (addBound B arg) fpl hfp fr0 hfr0]
    all_goals
      obtain ⟨f0l, h0, h⟩ := ebind_ok _ _ _ h
      cases h
  | EMapGet mp k =>
    intro A B l h fr hfr
    obtain ⟨f1l, h1, h⟩ := ebind_ok _ _ _ h
    obtain ⟨f2l, h2, h⟩ := ebind_ok _ _ _ h
    injection h with h
    subst h
    rcases List.mem_cons.mp hfr with rfl | hfr
    · rfl
    rcases List.mem_append.mp hfr with hfr | hfr <;>
      simp only [wrapFrags, List.mem_map] at hfr <;>
      obtain ⟨fr0, hfr0, rfl⟩ := hfr
    · show EMapGet (fr0.r fr0.x) k = EMapGet mp k
      rw [fragRight mp A B f1l h1 fr0 hfr0]
    · show EMapGet mp (fr0.r fr0.x) = EMapGet mp k
      rw [fragRight k A B f2l h2 fr0 hfr0]
  | EMapKeys e0 =>
    intro A B l h fr hfr
    obtain ⟨f0l, h0, h⟩ := ebind_ok _ _ _ h
    injection h with h
    subst h
    rcases List.mem_cons.mp hfr with rfl | hfr
    · rfl
    simp only [wrapFrags, List.mem_map] at hfr
    obtain ⟨fr0, hfr0, rfl⟩ := hfr
    show EMapKeys (fr0.r fr0.x) = EMapKeys e0
    rw [fragRight e0 A B f0l h0 fr0 hfr0]
  | EWithAlteredValue hh v =>
    intro A B l h fr hfr
    obtain ⟨f1l, h1, h⟩ := ebind_ok _ _ _ h
    obtain ⟨f2l, h2, h⟩ := ebind_ok _ _ _ h
    injection h with h
    subst h
    rcases List.mem_cons.mp hfr with rfl | hfr
    · rfl
    rcases List.mem_append.mp hfr with hfr | hfr <;>
      simp only [wrapFrags, List.mem_map] at hfr <;>
      obtain ⟨fr0, hfr0, rfl⟩ := hfr
    · show EWithAlteredValue (fr0.r fr0.x) v = EWithAlteredValue hh v
      rw [fragRight hh A B f1l h1 fr0 hfr0]
    · show EWithAlteredValue hh (fr0.r fr0.x) = EWithAlteredValue hh v
      rw [fragRight v A B f2l h2 fr0 hfr0]
termination_by structural e

theorem fragRightL (es : ExpList) : ∀ (A : List Exp) (B : List String) (l : List FragL),
    enumFragsList A B es = .ok l → ∀ fr ∈ l, fr.rl fr.x = es := by
  cases es with
  | nil =>
    intro A B l h fr hfr
    injection h with h
    subst h
    cases hfr
  | cons e tl =>
    intro A B l h fr hfr
    obtain ⟨frl, h1, h⟩ := ebind_ok _ _ _ h
    obtain ⟨restl, h2, h⟩ := ebind_ok _ _ _ h
    injection h with h
    subst h
    rcases List.mem_append.mp hfr with hfr | hfr <;>
      simp only [List.mem_map] at hfr <;>
      obtain ⟨fr0, hfr0, rfl⟩ := hfr
    · show ExpList.cons (fr0.r fr0.x) tl = ExpList.cons e tl
      rw [fragRight e A B frl h1 fr0 hfr0]
    · show ExpList.cons e (fr0.rl fr0.x) = ExpList.cons e tl
      rw [fragRightL tl A B restl h2 fr0 hfr0]
termination_by structural es

theorem fragRightF (fs : RecFields) : ∀ (A : List Exp) (B : List String) (l : List FragF),
    enumFragsFields A B fs = .ok l → ∀ fr ∈ l, fr.rf fr.x = fs := by
  cases fs with
  | nil =>
    intro A B l h fr hfr
    injection h with h
    subst h
    cases hfr
  | cons name e tl =>
    intro A B l h fr hfr
    obtain ⟨frl, h1, h⟩ := ebind_ok _ _ _ h
    obtain ⟨restl, h2, h⟩ := ebind_ok _ _ _ h
    injection h with h
    subst h
    rcases List.mem_append.mp hfr with hfr | hfr <;>
      simp only [List.mem_map] at hfr <;>
      obtain ⟨fr0, hfr0, rfl⟩ := hfr
    · show RecFields.cons name (fr0.r fr0.x) tl = RecFields.cons name e tl
      rw [fragRight e A B frl h1 fr0 hfr0]
    · show RecFields.cons name e (fr0.rf fr0.x) = RecFields.cons name e tl
      rw [fragRightF tl A B restl h2 fr0 hfr0]
termination_by structural fs

theorem fragRightC (cs : Clauses) : ∀ (A : List Exp) (B : List String) (l : List FragC),
    enumFragsCls A B cs = .ok l → ∀ fr ∈ l, fr.rc fr.x = cs := by
  cases cs with
  | nil =>
    intro A B l h fr hfr
    injection h with h
    subst h
    cases hfr
  | cons c tl =>
    intro A B l h fr hfr
    obtain ⟨frl, h1, h⟩ := ebind_ok _ _ _ h
    obtain ⟨restl, h2, h⟩ := ebind_ok _ _ _ h
    injection h with h
    subst h
    rcases List.mem_append.mp hfr with hfr | hfr <;>
      simp only [List.mem_map] at hfr <;>
      obtain ⟨fr0, hfr0, rfl⟩ := hfr
    · show Clauses.cons (fr0.rcl fr0.x) tl = Clauses.cons c tl
      rw [fragRightCl c A B frl h1 fr0 hfr0]
    · show Clauses.cons c (fr0.rc fr0.x) = Clauses.cons c tl
      rw [fragRightC tl A B restl h2 fr0 hfr0]
termination_by structural cs

theorem fragRightCl (c : Clause) : ∀ (A : List Exp) (B : List String) (l : List FragCl),
    enumFragsClause A B c = .ok l → ∀ fr ∈ l, fr.rcl fr.x = c := by
  cases c with
  | CPull id0 e =>
    intro A B l h fr hfr
    obtain ⟨frl, h1, h⟩ := ebind_ok _ _ _ h
    injection h with h
    subst h
    simp only [List.mem_map] at hfr
    obtain ⟨fr0, hfr0, rfl⟩ := hfr
    show Clause.CPull id0 (fr0.r fr0.x) = Clause.CPull id0 e
    rw [fragRight e A B frl h1 fr0 hfr0]
  | CCond e =>
    intro A B l h fr hfr
    obtain ⟨frl, h1, h⟩ := ebind_ok _ _ _ h
    injection h with h
    subst h
    simp only [List.mem_map] at hfr
    obtain ⟨fr0, hfr0, rfl⟩ := hfr
    show Clause.CCond (fr0.r fr0.x) = Clause.CCond e
    rw [fragRight e A B frl h1 fr0 hfr0]
termination_by structural c

end
theorem evalE_and_true (env : VEnv) (l r : Exp) :
    evalE env (EBinOp l "and" r) = some (Value.VBool true) ↔
      (evalE env l = some (Value.VBool true) ∧
       evalE env r = some (Value.VBool true)) := by
  constructor
  · intro h
    obtain ⟨v1, hl, h⟩ := obind_ok _ _ _ h
    obtain ⟨v2, hr, h⟩ := obind_ok _ _ _ h
    rcases v1 with b1 | n1 | s1 | _ | l1 | t1 | f1 | ⟨a1, w1⟩ <;>
      rcases v2 with b2 | n2 | s2 | _ | l2 | t2 | f2 | ⟨a2, w2⟩ <;>
      try exact Option.noConfusion h
    injection h with h
    injection h with h
    rw [Bool.and_eq_true] at h
    exact ⟨by rw [hl, h.1], by rw [hr, h.2]⟩
  · rintro ⟨h1, h2⟩
    show Option.bind (evalE env l) _ = _
    rw [h1]
    show Option.bind (evalE env r) _ = _
    rw [h2]
    rfl

theorem evalE_not_true (env : VEnv) (e : Exp)
    (h : evalE env e = some (Value.VBool false)) :
    evalE env (EUnaryOp "not" e) = some (Value.VBool true) := by
  show Option.bind (evalE env e) _ = _
  rw [h]
  rfl

/-- The negation smart constructor is semantically sound: when the
negated expression evaluates to false, `mkNot` of it evaluates to
true (either by stripping an outer "not" or by adding one). -/
theorem mkNot_eval_true (env : VEnv) (c : Exp)
    (h : evalE env c = some (Value.VBool false)) :
    evalE env (mkNot c) = some (Value.VBool true) := by
  unfold mkNot
  split
  · rename_i c0
    obtain ⟨v, h0, h⟩ := obind_ok _ _ _ h
    rcases v with b | n | s | _ | l1 | t1 | f1 | ⟨a1, w1⟩
    · rcases b
      · injection h with h
        injection h with h
        exact Bool.noConfusion h
      · exact h0
    · exact Option.noConfusion h
    · exact Option.noConfusion h
    · exact Option.noConfusion h
    · exact Option.noConfusion h
    · exact Option.noConfusion h
    · exact Option.noConfusion h
    · exact Option.noConfusion h
  · exact evalE_not_true env c h

/-- A balanced "and" tree evaluates to true exactly when every member
of the list it was built from evaluates to true. -/
theorem build_balanced_tree_and_true :
    ∀ (fuel : Nat) (es : List Exp) (env : VEnv), es ≠ [] → es.length ≤ fuel →
    (evalE env (build_balanced_tree fuel "and" es) = some (Value.VBool true) ↔
      ∀ p ∈ es, evalE env p = some (Value.VBool true))
| 0, es, env, hne, hlen => by
  exact absurd (List.eq_nil_of_length_eq_zero (Nat.le_zero.mp hlen)) hne
| fuel + 1, es, env, hne, hlen => by
  rw [build_balanced_tree]
  by_cases hl : es.length ≤ 1
  · rw [if_pos hl]
    rcases es with _ | ⟨p, tl⟩
    · exact absurd rfl hne
    · rcases tl with _ | ⟨q, tl2⟩
      · simp
      · simp at hl
  · rw [if_neg hl]
    push_neg at hl
    rw [evalE_and_true]
    have hlen2 : 2 ≤ es.length := hl
    have htake : es.take (es.length / 2) ≠ [] := by
      intro h0
      have h1 := congrArg List.length h0
      rw [List.length_take, Nat.min_eq_left (Nat.div_le_self _ _)] at h1
      simp at h1
      omega
    have hdrop : es.drop (es.length / 2) ≠ [] := by
      intro h0
      have h1 := congrArg List.length h0
      rw [List.length_drop] at h1
      simp at h1
      omega
    have hlt : (es.take (es.length / 2)).length ≤ fuel := by
      rw [List.length_take, Nat.min_eq_left (Nat.div_le_self _ _)]
      omega
    have hld : (es.drop (es.length / 2)).length ≤ fuel := by
      rw [List.length_drop]
      omega
    rw [build_balanced_tree_and_true fuel _ env htake hlt,
        build_balanced_tree_and_true fuel _ env hdrop hld]
    constructor
    · rintro ⟨h1, h2⟩ p hp
      rw [← List.take_append_drop (es.length / 2) es] at hp
      rcases List.mem_append.mp hp with hm | hm
      · exact h1 p hm
      · exact h2 p hm
    · intro hall
      exact ⟨fun p hp => hall p (List.take_subset _ _ hp),
             fun p hp => hall p (List.drop_subset _ _ hp)⟩

/-- `EAll` evaluates to true exactly when every conjunct evaluates to
true: the literal-true filtering, the literal-false collapse and the
balanced tree of cozy/syntax.py all preserve the conjunction
semantics. -/
theorem evalE_EAll_true (env : VEnv) (l : List Exp) :
    evalE env (EAll l) = some (Value.VBool true) ↔
      ∀ p ∈ l, evalE env p = some (Value.VBool true) := by
  unfold EAll
  by_cases hany : (l.filter (fun e => e ≠ EBool true)).any (fun e => e = EBool false)
  · rw [if_pos hany]
    simp only [List.any_eq_true] at hany
    obtain ⟨p, hp, hpe⟩ := hany
    have hpe2 : p = EBool false := by simpa using hpe
    subst hpe2
    constructor
    · intro h
      rw [show evalE env (EBool false) = some (Value.VBool false) from rfl] at h
      simp at h
    · intro hall
      have := hall (EBool false) (List.mem_of_mem_filter hp)
      rw [show evalE env (EBool false) = some (Value.VBool false) from rfl] at this
      simp at this
  · rw [if_neg hany]
    by_cases hemp : (l.filter (fun e => e ≠ EBool true)).isEmpty
    · rw [if_pos hemp]
      rw [List.isEmpty_iff] at hemp
      constructor
      · intro _ p hp
        by_cases hpt : p = EBool true
        · subst hpt
          rfl
        · exfalso
          have hpf : p ∈ l.filter (fun e => e ≠ EBool true) :=
            List.mem_filter.mpr ⟨hp, by simpa using hpt⟩
          rw [hemp] at hpf
          exact List.not_mem_nil p hpf
      · intro _
        rfl
    · rw [if_neg hemp]
      have hne : l.filter (fun e => e ≠ EBool true) ≠ [] := by
        intro h0
        rw [← List.isEmpty_iff] at h0
        exact hemp h0
      rw [build_balanced_tree_and_true _ _ env hne (Nat.le_refl _)]
      constructor
      · intro hf p hp
        by_cases hpt : p = EBool true
        · subst hpt
          rfl
        · exact hf p (List.mem_filter.mpr ⟨hp, by simpa using hpt⟩)
      · intro hall p hp
        exact hall p (List.mem_of_mem_filter hp)

/-- Soundness of the assumption lists the fragment enumerator pushes at
a conditional: in every model in which the ambient assumptions hold,
if the condition evaluates to true then the then-branch list (ambient
plus the condition) holds, and if it evaluates to false then the
else-branch list (ambient plus the negated condition) holds. -/
theorem cond_assumptions_sound (A : List Exp) (c : Exp) (env : VEnv)
    (hA : evalE env (EAll A) = some (Value.VBool true)) :
    (evalE env c = some (Value.VBool true) →
      evalE env (EAll (A ++ [c])) = some (Value.VBool true)) ∧
    (evalE env c = some (Value.VBool false) →
      evalE env (EAll (A ++ [mkNot c])) = some (Value.VBool true)) := by
  rw [evalE_EAll_true] at hA
  constructor
  · intro hc
    rw [evalE_EAll_true]
    intro p hp
    rcases List.mem_append.mp hp with hm | hm
    · exact hA p hm
    · rw [List.mem_singleton] at hm
      subst hm
      exact hc
  · intro hc
    rw [evalE_EAll_true]
    intro p hp
    rcases List.mem_append.mp hp with hm | hm
    · exact hA p hm
    · rw [List.mem_singleton] at hm
      subst hm
      exact mkNot_eval_true env c hc

/-- Claim C4, counterexample: when the filter predicate argument shadows
a free variable of the filtered bag (arg appears free in the bag), the
predicate body is enumerated with NO membership assumption: the
EDeepIn assumption is added only under the guard
`e.p.arg not in free_vars(e.e)`. -/
theorem enumerate_fragments_filter_shadow :
    (enumerate_fragments (EFilter (EVar "x") (ELambda "x" (EBool true)))).map
        (fun l => l.map (fun fr => (fr.a, fr.x, fr.bound))) =
      .ok [([], EFilter (EVar "x") (ELambda "x" (EBool true)), []),
           ([], EVar "x", []),
           ([], EBool true, ["x"])] ∧
    [EDeepIn (EVar "x") (EVar "x")] ≠ ([] : List Exp) := by
  refine ⟨by decide, by decide⟩

/-- Claim C4, amended: every fragment (a, x, r, bound) of
enumerate_fragments(e) satisfies r(x) = e structurally.  Inside an
ECond the then-branch fragments are enumerated under the assumptions
extended with the condition and the else-branch under its negation,
and these extended lists are SOUND: in every model in which the
ambient assumptions hold and control reaches the branch (the condition
evaluates to true for the then-branch, to false for the else-branch),
the extended assumption list holds as well.  A filter's predicate body
is enumerated under the EDeepIn membership assumption only when the
predicate argument is NOT free in the bag; the guard drops that
assumption (a sound weakening) when the argument shadows a bag
variable. -/
theorem enumerate_fragments_sound (e : Exp) (l : List Frag)
    (h : enumerate_fragments e = .ok l) :
    (∀ fr ∈ l, fr.r fr.x = e) ∧
    (∀ (c t f : Exp) (A : List Exp) (B : List String) (lc : List Frag),
       enumFrags A B (ECond c t f) = .ok lc →
       ∃ fc ft ff, enumFrags A B c = .ok fc ∧
         enumFrags (A ++ [c]) B t = .ok ft ∧
         enumFrags (A ++ [mkNot c]) B f = .ok ff ∧
         lc = ⟨A, ECond c t f, id, B⟩ ::
           (wrapFrags (fun y => ECond y t f) fc ++ wrapFrags (fun y => ECond c y f) ft ++
            wrapFrags (fun y => ECond c t y) ff) ∧
         (∀ env : VEnv, evalE env (EAll A) = some (Value.VBool true) →
           (evalE env c = some (Value.VBool true) →
             evalE env (EAll (A ++ [c])) = some (Value.VBool true)) ∧
           (evalE env c = some (Value.VBool false) →
             evalE env (EAll (A ++ [mkNot c])) = some (Value.VBool true)))) ∧
    (∀ (e0 pbody : Exp) (arg : String) (A : List Exp) (B : List String) (lf : List Frag),
       enumFrags A B (EFilter e0 (ELambda arg pbody)) = .ok lf →
       ∃ f0 fvBag A2 fp,
         enumFrags A B e0 = .ok f0 ∧
         fvExp (fun _ => 0) e0 = .ok fvBag ∧
         filterAssumptions [arg] A = .ok A2 ∧
         enumFrags (A2 ++ (if arg ∈ fvBag then [] else [EDeepIn (EVar arg) e0]))
           (addBound B arg) pbody = .ok fp ∧
         lf = ⟨A, EFilter e0 (ELambda arg pbody), id, B⟩ ::
           (wrapFrags (fun y => EFilter y (ELambda arg pbody)) f0 ++
            wrapFrags (fun y => EFilter e0 (ELambda arg y)) fp)) := by
  refine ⟨fragRight e [] [] l h, ?_, ?_⟩
  · intro c t f A B lc hc
    obtain ⟨fc, h1, hc⟩ := ebind_ok _ _ _ hc
    obtain ⟨ft, h2, hc⟩ := ebind_ok _ _ _ hc
    obtain ⟨ff, h3, hc⟩ := ebind_ok _ _ _ hc
    injection hc with hc
    exact ⟨fc, ft, ff, h1, h2, h3, hc.symm,
      fun env henv => cond_assumptions_sound A c env henv⟩
  · intro e0 pbody arg A B lf hf
    obtain ⟨f0, h1, hf⟩ := ebind_ok _ _ _ hf
    obtain ⟨fvBag, h2, hf⟩ := ebind_ok _ _ _ hf
    obtain ⟨A2, h3, hf⟩ := ebind_ok _ _ _ hf
    obtain ⟨fp, h4, hf⟩ := ebind_ok _ _ _ hf
    injection hf with hf
    exact ⟨f0, fvBag, A2, fp, h1, h2, h3, h4, hf.symm⟩

theorem enumerate_fragments_sound_witness :
    enumerate_fragments (EVar "a") = .ok [⟨[], EVar "a", id, []⟩] ∧
    ((∀ fr ∈ [(⟨[], EVar "a", id, []⟩ : Frag)], fr.r fr.x = EVar "a") ∧
     (∀ (c t f : Exp) (A : List Exp) (B : List String) (lc : List Frag),
        enumFrags A B (ECond c t f) = .ok lc →
        ∃ fc ft ff, enumFrags A B c = .ok fc ∧
          enumFrags (A ++ [c]) B t = .ok ft ∧
          enumFrags (A ++ [mkNot c]) B f = .ok ff ∧
          lc = ⟨A, ECond c t f, id, B⟩ ::
            (wrapFrags (fun y => ECond y t f) fc ++ wrapFrags (fun y => ECond c y f) ft ++
             wrapFrags (fun y => ECond c t y) ff) ∧
          (∀ env : VEnv, evalE env (EAll A) = some (Value.VBool true) →
            (evalE env c = some (Value.VBool true) →
              evalE env (EAll (A ++ [c])) = some (Value.VBool true)) ∧
            (evalE env c = some (Value.VBool false) →
              evalE env (EAll (A ++ [mkNot c])) = some (Value.VBool true)))) ∧
     (∀ (e0 pbody : Exp) (arg : String) (A : List Exp) (B : List String) (lf : List Frag),
        enumFrags A B (EFilter e0 (ELambda arg pbody)) = .ok lf →
        ∃ f0 fvBag A2 fp,
          enumFrags A B e0 = .ok f0 ∧
          fvExp (fun _ => 0) e0 = .ok fvBag ∧
          filterAssumptions [arg] A = .ok A2 ∧
          enumFrags (A2 ++ (if arg ∈ fvBag then [] else [EDeepIn (EVar arg) e0]))
            (addBound B arg) pbody = .ok fp ∧
          lf = ⟨A, EFilter e0 (ELambda arg pbody), id, B⟩ ::
            (wrapFrags (fun y => EFilter y (ELambda arg pbody)) f0 ++
             wrapFrags (fun y => EFilter e0 (ELambda arg y)) fp))) :=
  ⟨rfl, enumerate_fragments_sound (EVar "a") [⟨[], EVar "a", id, []⟩] rfl⟩

theorem dedupRep_filter (valid : Exp → Bool) (assumptions : List Exp)
    (cs : List (String × Exp × Ty)) (fuel : Nat) :
    ∀ (rep : List (String × Exp × Ty)) (r0 : Exp) (c0 : Nat)
      (kept : List (String × Exp × Ty)) (r1 : Exp) (c1 : Nat),
      dedupRep valid assumptions cs fuel rep r0 c0 = .ok (kept, r1, c1) →
      kept = rep.filter (fun ent =>
        (findEquiv valid assumptions cs ent.2.1 ent.2.2).isNone) := by
  intro rep
  induction rep with
  | nil =>
    intro r0 c0 kept r1 c1 h
    injection h with h
    cases h
    rfl
  | cons ent rest ih =>
    obtain ⟨v, e, t⟩ := ent
    intro r0 c0 kept r1 c1 h
    have h2 : (match findEquiv valid assumptions cs e t with
      | some aeq =>
          subst [(v, EVar aeq)] fuel c0 r0 >>= fun p =>
            dedupRep valid assumptions cs fuel rest p.1 p.2
      | none =>
          dedupRep valid assumptions cs fuel rest r0 c0 >>= fun p =>
            Except.ok ((v, e, t) :: p.1, p.2.1, p.2.2)) = .ok (kept, r1, c1) := h
    rcases hfe : findEquiv valid assumptions cs e t with _ | aeq <;> rw [hfe] at h2
    · obtain ⟨⟨kept2, r2, c2⟩, hrec, h2⟩ := ebind_ok _ _ _ h2
      injection h2 with h2
      cases h2
      rw [ih r0 c0 kept2 r2 c2 hrec]
      simp [List.filter_cons, hfe]
    · obtain ⟨⟨r2, c2⟩, hsub, h2⟩ := ebind_ok _ _ _ h2
      rw [ih r2 c2 kept r1 c1 h2]
      simp [List.filter_cons, hfe]

/-- Claim C2, counterexample: two rep entries with identical defining
expressions are BOTH appended to concrete_state, although the solver
oracle proves them equal under the (empty) assumptions: each entry is
deduplicated only against the concrete state that existed before the
call, never against the other new entries. -/
theorem set_impl_dedup_counterexample :
    (set_impl ⟨fun _ _ => [], fun _ _ _ _ _ => (Stm.SNoOp, []), fun impl _ _ s => (impl, s)⟩
        (fun e => decide (evalE (fun _ => none) e = some (Value.VBool true))) 10
        ⟨⟨"S", [], [], []⟩, [], [], [], [], []⟩
        ⟨"q", Vis.Public, [], [], ENum 0⟩
        [("v1", ENum 0, TInt), ("v2", ENum 0, TInt)] (ENum 0) 0).map
          (fun p => p.1.concrete_state) =
      .ok [("v1", ENum 0, TInt), ("v2", ENum 0, TInt)] ∧
    (fun e => decide (evalE (fun _ => none) e = some (Value.VBool true)))
      (mkImplies (EAll ([] : List Exp)) (mkEq (ENum 0) (ENum 0))) = true := by
  refine ⟨by decide, by decide⟩

/-- Claim C2, amended: set_impl deduplicates each rep entry only against
the concrete state that existed BEFORE the call: for an op-free spec,
the new concrete state is the old one extended with exactly the rep
entries for which the solver found no equivalent among the OLD entries,
and the rewritten query implementation with assumptions cleared is
installed.  Multiple equivalent entries inside rep itself all survive. -/
theorem set_impl_concrete_state (orc : SetImplOracles) (valid : Exp → Bool) (fuel : Nat)
    (impl : Impl) (q : QueryS) (rep : List (String × Exp × Ty)) (ret : Exp) (ctr : Nat)
    (impl' : Impl) (ctr' : Nat)
    (hops : op_specs impl.spec = [])
    (h : set_impl orc valid fuel impl q rep ret ctr = .ok (impl', ctr')) :
    ∃ kept ret2,
      dedupRep valid impl.spec.assumptions impl.concrete_state fuel rep ret ctr =
        .ok (kept, ret2, ctr') ∧
      kept = rep.filter (fun ent =>
        (findEquiv valid impl.spec.assumptions impl.concrete_state ent.2.1 ent.2.2).isNone) ∧
      impl'.concrete_state = impl.concrete_state ++ kept ∧
      impl'.query_impls = setAssoc impl.query_impls q.name (rewrite_ret_clear q ret2) := by
  obtain ⟨⟨kept, ret2, ctr1⟩, hdd, h⟩ := ebind_ok _ _ _ h
  replace h : setImplOps orc valid fuel kept
      (op_specs ({ impl with
         concrete_state := impl.concrete_state ++ kept,
         query_impls := setAssoc impl.query_impls q.name (rewrite_ret_clear q ret2) } : Impl).spec)
      { impl with
        concrete_state := impl.concrete_state ++ kept,
        query_impls := setAssoc impl.query_impls q.name (rewrite_ret_clear q ret2) } ctr1 =
      .ok (impl', ctr') := h
  have hops2 : op_specs ({ impl with
      concrete_state := impl.concrete_state ++ kept,
      query_impls := setAssoc impl.query_impls q.name (rewrite_ret_clear q ret2) } : Impl).spec =
      [] := hops
  rw [hops2] at h
  injection h with h
  cases h
  exact ⟨kept, ret2, hdd,
    dedupRep_filter valid impl.spec.assumptions impl.concrete_state fuel rep ret ctr
      kept ret2 _ hdd, rfl, rfl⟩

theorem set_impl_concrete_state_witness :
    op_specs (⟨"S", [], [], []⟩ : SpecS) = [] ∧
    set_impl ⟨fun _ _ => [], fun _ _ _ _ _ => (Stm.SNoOp, []), fun impl _ _ s => (impl, s)⟩
        (fun e => decide (evalE (fun _ => none) e = some (Value.VBool true))) 10
        ⟨⟨"S", [], [], []⟩, [], [], [], [], []⟩
        ⟨"q", Vis.Public, [], [], ENum 0⟩
        [("v1", ENum 0, TInt)] (ENum 0) 0 =
      .ok (⟨⟨"S", [], [], []⟩, [("v1", ENum 0, TInt)], [],
            [("q", ⟨"q", Vis.Public, [], [], ENum 0⟩)], [], []⟩, 0) ∧
    (∃ kept ret2,
      dedupRep (fun e => decide (evalE (fun _ => none) e = some (Value.VBool true)))
          ([] : List Exp) ([] : List (String × Exp × Ty)) 10 [("v1", ENum 0, TInt)] (ENum 0) 0 =
        .ok (kept, ret2, 0) ∧
      kept = [("v1", ENum 0, TInt)].filter (fun ent =>
        (findEquiv (fun e => decide (evalE (fun _ => none) e = some (Value.VBool true)))
          ([] : List Exp) ([] : List (String × Exp × Ty)) ent.2.1 ent.2.2).isNone) ∧
      (⟨⟨"S", [], [], []⟩, [("v1", ENum 0, TInt)], [],
        [("q", ⟨"q", Vis.Public, [], [], ENum 0⟩)], [], []⟩ : Impl).concrete_state =
        [] ++ kept ∧
      (⟨⟨"S", [], [], []⟩, [("v1", ENum 0, TInt)], [],
        [("q", ⟨"q", Vis.Public, [], [], ENum 0⟩)], [], []⟩ : Impl).query_impls =
        setAssoc [] "q" (rewrite_ret_clear ⟨"q", Vis.Public, [], [], ENum 0⟩ ret2)) :=
  ⟨by decide, by decide,
   set_impl_concrete_state
     ⟨fun _ _ => [], fun _ _ _ _ _ => (Stm.SNoOp, []), fun impl _ _ s => (impl, s)⟩
     (fun e => decide (evalE (fun _ => none) e = some (Value.VBool true))) 10
     ⟨⟨"S", [], [], []⟩, [], [], [], [], []⟩
     ⟨"q", Vis.Public, [], [], ENum 0⟩
     [("v1", ENum 0, TInt)] (ENum 0) 0
     ⟨⟨"S", [], [], []⟩, [("v1", ENum 0, TInt)], [],
       [("q", ⟨"q", Vis.Public, [], [], ENum 0⟩)], [], []⟩ 0
     (by decide) (by decide)⟩

theorem mem_addIfAbsent (l : List String) (y x : String) :
    x ∈ addIfAbsent l y ↔ x ∈ l ∨ x = y := by
  unfold addIfAbsent
  split
  · rename_i hy
    constructor
    · exact fun h => Or.inl h
    · rintro (h | rfl)
      · exact h
      · exact hy
  · simp

theorem addIfAbsent_append (l : List String) (y : String) :
    ∃ t, addIfAbsent l y = l ++ t := by
  unfold addIfAbsent
  split
  · exact ⟨[], by simp⟩
  · exact ⟨[y], rfl⟩

theorem nodup_addIfAbsent (l : List String) (y : String) (h : l.Nodup) :
    (addIfAbsent l y).Nodup := by
  unfold addIfAbsent
  split
  · exact h
  · rename_i hy
    rw [← List.concat_eq_append]
    exact List.Nodup.concat hy h

theorem mem_addAll (xs : List String) : ∀ (l : List String) (x : String),
    x ∈ addAll l xs ↔ x ∈ l ∨ x ∈ xs := by
  induction xs with
  | nil => intro l x; simp [addAll]
  | cons y ys ih =>
    intro l x
    show x ∈ addAll (addIfAbsent l y) ys ↔ _
    rw [ih, mem_addIfAbsent]
    simp [List.mem_cons]
    tauto

theorem addAll_append (xs : List String) : ∀ (l : List String),
    ∃ t, addAll l xs = l ++ t := by
  induction xs with
  | nil => intro l; exact ⟨[], by simp [addAll]⟩
  | cons y ys ih =>
    intro l
    obtain ⟨t1, h1⟩ := addIfAbsent_append l y
    obtain ⟨t2, h2⟩ := ih (addIfAbsent l y)
    refine ⟨t1 ++ t2, ?_⟩
    show addAll (addIfAbsent l y) ys = l ++ (t1 ++ t2)
    rw [h2, h1, List.append_assoc]

theorem nodup_addAll (xs : List String) : ∀ (l : List String), l.Nodup →
    (addAll l xs).Nodup := by
  induction xs with
  | nil => intro l h; simpa [addAll] using h
  | cons y ys ih =>
    intro l h
    exact ih (addIfAbsent l y) (nodup_addIfAbsent l y h)

theorem nodup_length_le (l P : List String) (hn : l.Nodup) (hs : ∀ x ∈ l, x ∈ P) :
    l.length ≤ P.length := by
  classical
  calc l.length = l.toFinset.card := (List.toFinset_card_of_nodup hn).symm
  _ ≤ P.toFinset.card := Finset.card_le_card (by
      intro x hx
      rw [List.mem_toFinset] at hx ⊢
      exact hs x hx)
  _ ≤ P.length := List.toFinset_card_le P

theorem find?_filter_key {α β : Type} [BEq α] [LawfulBEq α]
    (l : List (α × β)) (k : α) (keep : α × β → Bool)
    (hk : ∀ p ∈ l, p.1 = k → keep p = true) :
    List.find? (fun p => p.1 == k) (l.filter keep) =
    List.find? (fun p => p.1 == k) l := by
  induction l with
  | nil => rfl
  | cons p tl ih =>
    have ih2 := ih (fun q hq => hk q (List.mem_cons_of_mem _ hq))
    by_cases hp : (p.1 == k) = true
    · have hkeep : keep p = true := hk p (List.mem_cons_self _ _) (by simpa using hp)
      rw [List.filter_cons_of_pos hkeep]
      simp [List.find?_cons, hp]
    · have hp2 : (p.1 == k) = false := by simpa using hp
      by_cases hkeep : keep p = true
      · rw [List.filter_cons_of_pos hkeep]
        simp [List.find?_cons, hp2, ih2]
      · rw [List.filter_cons_of_neg (by simpa using hkeep)]
        simp [List.find?_cons, hp2, ih2]

theorem filter_self_of_all {α : Type} (l : List α) (p : α → Bool)
    (h : ∀ x ∈ l, p x = true) : l.filter p = l := by
  induction l with
  | nil => rfl
  | cons a tl ih =>
    rw [List.filter_cons_of_pos (h a (List.mem_cons_self _ _))]
    rw [ih (fun x hx => h x (List.mem_cons_of_mem _ hx))]

theorem foldl_addAll_append {α : Type} (g : α → List String) (l : List α) :
    ∀ Q : List String, ∃ t, l.foldl (fun acc a => addAll acc (g a)) Q = Q ++ t := by
  induction l with
  | nil => intro Q; exact ⟨[], by simp⟩
  | cons a tl ih =>
    intro Q
    obtain ⟨t1, h1⟩ := addAll_append (g a) Q
    obtain ⟨t2, h2⟩ := ih (addAll Q (g a))
    refine ⟨t1 ++ t2, ?_⟩
    show List.foldl _ (addAll Q (g a)) tl = _
    rw [h2, h1, List.append_assoc]

theorem mem_foldl_addAll {α : Type} (g : α → List String) (l : List α) :
    ∀ (Q : List String) (x : String),
      x ∈ l.foldl (fun acc a => addAll acc (g a)) Q ↔ x ∈ Q ∨ ∃ a ∈ l, x ∈ g a := by
  induction l with
  | nil => intro Q x; simp
  | cons a tl ih =>
    intro Q x
    show x ∈ List.foldl _ (addAll Q (g a)) tl ↔ _
    rw [ih, mem_addAll]
    simp only [List.mem_cons]
    constructor
    · rintro ((h | h) | ⟨b, hb, hx⟩)
      · exact Or.inl h
      · exact Or.inr ⟨a, Or.inl rfl, h⟩
      · exact Or.inr ⟨b, Or.inr hb, hx⟩
    · rintro (h | ⟨b, (rfl | hb), hx⟩)
      · exact Or.inl (Or.inl h)
      · exact Or.inl (Or.inr hx)
      · exact Or.inr ⟨b, hb, hx⟩

theorem nodup_foldl_addAll {α : Type} (g : α → List String) (l : List α) :
    ∀ Q : List String, Q.Nodup → (l.foldl (fun acc a => addAll acc (g a)) Q).Nodup := by
  induction l with
  | nil => intro Q h; simpa using h
  | cons a tl ih =>
    intro Q h
    exact ih (addAll Q (g a)) (nodup_addAll (g a) Q h)

theorem cleanupLoopQ_char (impl : Impl) :
    ∀ (rest : List String) (Q V Q2 V2 : List String),
      cleanupLoopQ impl rest Q V = .ok (Q2, V2) →
      (∀ x, x ∈ Q2 → x ∈ Q ∨ ∃ qn ∈ rest, ∃ entry,
         List.find? (fun p => p.1 == qn) impl.query_impls = some entry ∧
         x ∈ callsDeepExp entry.2.ret) ∧
      (∀ v, v ∈ V2 ↔ v ∈ V ∨ ∃ qn ∈ rest, ∃ entry fvs,
         List.find? (fun p => p.1 == qn) impl.query_impls = some entry ∧
         free_vars_query entry.2 = .ok fvs ∧ v ∈ fvs) ∧
      (∃ t, Q2 = Q ++ t) ∧ (∃ t, V2 = V ++ t) ∧
      (Q.Nodup → Q2.Nodup) ∧ (V.Nodup → V2.Nodup) := by
  intro rest
  induction rest with
  | nil =>
    intro Q V Q2 V2 h
    injection h with h
    cases h
    refine ⟨fun x hx => Or.inl hx, fun v => by simp, ⟨[], by simp⟩, ⟨[], by simp⟩,
      fun h => h, fun h => h⟩
  | cons qn rest ih =>
    intro Q V Q2 V2 h
    have h2 : (match List.find? (fun p => p.1 == qn) impl.query_impls with
      | some (en, qi) => do
          let fvs ← free_vars_query qi
          cleanupLoopQ impl rest (addAll Q (callsDeepExp qi.ret)) (addAll V fvs)
      | none => cleanupLoopQ impl rest Q V) = .ok (Q2, V2) := h
    rcases hf : List.find? (fun p => p.1 == qn) impl.query_impls with _ | entry <;>
      rw [hf] at h2
    · obtain ⟨hq, hv, ha1, ha2, hn1, hn2⟩ := ih Q V Q2 V2 h2
      refine ⟨?_, ?_, ha1, ha2, hn1, hn2⟩
      · intro x hx
        rcases hq x hx with h | ⟨qn', hqn', entry, hfe, hx2⟩
        · exact Or.inl h
        · exact Or.inr ⟨qn', List.mem_cons_of_mem _ hqn', entry, hfe, hx2⟩
      · intro v
        rw [hv]
        constructor
        · rintro (h | ⟨qn', hqn', entry, fvs, hfe, hok, hv2⟩)
          · exact Or.inl h
          · exact Or.inr ⟨qn', List.mem_cons_of_mem _ hqn', entry, fvs, hfe, hok, hv2⟩
        · rintro (h | ⟨qn', hqn', entry, fvs, hfe, hok, hv2⟩)
          · exact Or.inl h
          · rcases List.mem_cons.mp hqn' with rfl | hqn'
            · rw [hf] at hfe
              cases hfe
            · exact Or.inr ⟨qn', hqn', entry, fvs, hfe, hok, hv2⟩
    · obtain ⟨fvs, hok, h3⟩ := ebind_ok _ _ _ h2
      obtain ⟨hq, hv, ⟨t1, ha1⟩, ⟨t2, ha2⟩, hn1, hn2⟩ := ih _ _ Q2 V2 h3
      obtain ⟨s1, hs1⟩ := addAll_append (callsDeepExp entry.2.ret) Q
      obtain ⟨s2, hs2⟩ := addAll_append fvs V
      refine ⟨?_, ?_, ⟨s1 ++ t1, by rw [ha1, hs1, List.append_assoc]⟩,
        ⟨s2 ++ t2, by rw [ha2, hs2, List.append_assoc]⟩,
        fun h => hn1 (nodup_addAll _ _ h), fun h => hn2 (nodup_addAll _ _ h)⟩
      · intro x hx
        rcases hq x hx with h | ⟨qn', hqn', entry', hfe, hx2⟩
        · rw [mem_addAll] at h
          rcases h with h | h
          · exact Or.inl h
          · exact Or.inr ⟨qn, List.mem_cons_self _ _, entry, hf, h⟩
        · exact Or.inr ⟨qn', List.mem_cons_of_mem _ hqn', entry', hfe, hx2⟩
      · intro v
        rw [hv]
        constructor
        · rintro (h | ⟨qn', hqn', entry', fvs', hfe, hok', hv2⟩)
          · rw [mem_addAll] at h
            rcases h with h | h
            · exact Or.inl h
            · exact Or.inr ⟨qn, List.mem_cons_self _ _, entry, fvs, hf, hok, h⟩
          · exact Or.inr ⟨qn', List.mem_cons_of_mem _ hqn', entry', fvs', hfe, hok', hv2⟩
        · rintro (h | ⟨qn', hqn', entry', fvs', hfe, hok', hv2⟩)
          · exact Or.inl (by rw [mem_addAll]; exact Or.inl h)
          · rcases List.mem_cons.mp hqn' with rfl | hqn'
            · rw [hf] at hfe
              injection hfe with hfe
              subst hfe
              rw [hok] at hok'
              injection hok' with hok'
              subst hok'
              exact Or.inl (by rw [mem_addAll]; exact Or.inr hv2)
            · exact Or.inr ⟨qn', hqn', entry', fvs', hfe, hok', hv2⟩

theorem cleanupLoopQ_ok (impl : Impl) :
    ∀ (rest : List String) (Q V : List String),
      (∀ qn ∈ rest, ∀ entry,
        List.find? (fun p => p.1 == qn) impl.query_impls = some entry →
        ∃ fvs, free_vars_query entry.2 = .ok fvs) →
      ∃ Q2 V2, cleanupLoopQ impl rest Q V = .ok (Q2, V2) := by
  intro rest
  induction rest with
  | nil => intro Q V hfv; exact ⟨Q, V, rfl⟩
  | cons qn rest ih =>
    intro Q V hfv
    rw [show cleanupLoopQ impl (qn :: rest) Q V =
      (match List.find? (fun p => p.1 == qn) impl.query_impls with
      | some (en, qi) => do
          let fvs ← free_vars_query qi
          cleanupLoopQ impl rest (addAll Q (callsDeepExp qi.ret)) (addAll V fvs)
      | none => cleanupLoopQ impl rest Q V) from rfl]
    rcases hf : List.find? (fun p => p.1 == qn) impl.query_impls with _ | ⟨en, qi⟩ <;> rw [hf]
    · exact ih Q V (fun qn' hqn' => hfv qn' (List.mem_cons_of_mem _ hqn'))
    · obtain ⟨fvs, hok⟩ := hfv qn (List.mem_cons_self _ _) (en, qi) hf
      obtain ⟨Q2, V2, hrec⟩ := ih (addAll Q (callsDeepExp qi.ret)) (addAll V fvs)
        (fun qn' hqn' => hfv qn' (List.mem_cons_of_mem _ hqn'))
      refine ⟨Q2, V2, ?_⟩
      show (free_vars_query qi >>= fun fvs =>
        cleanupLoopQ impl rest (addAll Q (callsDeepExp qi.ret)) (addAll V fvs)) = .ok (Q2, V2)
      rw [hok]
      simpa using hrec

theorem cleanupLoopQ_fv (impl : Impl) :
    ∀ (rest : List String) (Q V Q2 V2 : List String),
      cleanupLoopQ impl rest Q V = .ok (Q2, V2) →
      ∀ qn ∈ rest, ∀ entry,
        List.find? (fun p => p.1 == qn) impl.query_impls = some entry →
        ∃ fvs, free_vars_query entry.2 = .ok fvs := by
  intro rest
  induction rest with
  | nil => intro Q V Q2 V2 h qn hqn; cases hqn
  | cons qn rest ih =>
    intro Q V Q2 V2 h qn' hqn' entry hfe
    have h2 : (match List.find? (fun p => p.1 == qn) impl.query_impls with
      | some (en, qi) => do
          let fvs ← free_vars_query qi
          cleanupLoopQ impl rest (addAll Q (callsDeepExp qi.ret)) (addAll V fvs)
      | none => cleanupLoopQ impl rest Q V) = .ok (Q2, V2) := h
    rcases hf : List.find? (fun p => p.1 == qn) impl.query_impls with _ | entry0 <;>
      rw [hf] at h2
    · rcases List.mem_cons.mp hqn' with rfl | hqn'
      · rw [hf] at hfe
        cases hfe
      · exact ih Q V Q2 V2 h2 qn' hqn' entry hfe
    · obtain ⟨fvs, hok, h3⟩ := ebind_ok _ _ _ h2
      rcases List.mem_cons.mp hqn' with rfl | hqn'
      · rw [hf] at hfe
        injection hfe with hfe
        subst hfe
        exact ⟨fvs, hok⟩
      · exact ih _ _ Q2 V2 h3 qn' hqn' entry hfe

theorem cleanupLoopQ_agree (impl impl' : Impl) (K : List String)
    (hqi : impl'.query_impls = impl.query_impls.filter (fun p => decide (p.1 ∈ K))) :
    ∀ (rest : List String) (Q V : List String),
      (∀ qn ∈ rest, qn ∈ K) →
      cleanupLoopQ impl' rest Q V = cleanupLoopQ impl rest Q V := by
  intro rest
  induction rest with
  | nil => intro Q V hK; rfl
  | cons qn rest ih =>
    intro Q V hK
    have hfind : List.find? (fun p => p.1 == qn) impl'.query_impls =
        List.find? (fun p => p.1 == qn) impl.query_impls := by
      rw [hqi]
      exact find?_filter_key impl.query_impls qn _
        (fun p hp hpk => by simp [hpk, hK qn (List.mem_cons_self _ _)])
    rw [show cleanupLoopQ impl' (qn :: rest) Q V =
      (match List.find? (fun p => p.1 == qn) impl'.query_impls with
      | some (en, qi) => do
          let fvs ← free_vars_query qi
          cleanupLoopQ impl' rest (addAll Q (callsDeepExp qi.ret)) (addAll V fvs)
      | none => cleanupLoopQ impl' rest Q V) from rfl,
      show cleanupLoopQ impl (qn :: rest) Q V =
      (match List.find? (fun p => p.1 == qn) impl.query_impls with
      | some (en, qi) => do
          let fvs ← free_vars_query qi
          cleanupLoopQ impl rest (addAll Q (callsDeepExp qi.ret)) (addAll V fvs)
      | none => cleanupLoopQ impl rest Q V) from rfl,
      hfind]
    rcases hv : List.find? (fun p => p.1 == qn) impl.query_impls with _ | ⟨en, qi⟩ <;> rw [hv]
    · exact ih Q V (fun qn' h => hK qn' (List.mem_cons_of_mem _ h))
    · show (free_vars_query qi >>= fun fvs =>
        cleanupLoopQ impl' rest (addAll Q (callsDeepExp qi.ret)) (addAll V fvs)) =
        (free_vars_query qi >>= fun fvs =>
        cleanupLoopQ impl rest (addAll Q (callsDeepExp qi.ret)) (addAll V fvs))
      rcases free_vars_query qi with _ | fvs
      · rfl
      · simpa using ih (addAll Q (callsDeepExp qi.ret)) (addAll V fvs)
          (fun qn' h => hK qn' (List.mem_cons_of_mem _ h))

theorem if_addAll_eta {α : Type} (c : α → Bool) (g : α → List String) :
    (fun (acc : List String) (ent : α) => if c ent then addAll acc (g ent) else acc) =
    (fun acc ent => addAll acc (if c ent then g ent else [])) := by
  funext acc ent
  split <;> simp [addAll]

theorem foldl_congr_mem {α β : Type} (l : List α) (f g : β → α → β)
    (h : ∀ (b : β), ∀ a ∈ l, f b a = g b a) : ∀ b, l.foldl f b = l.foldl g b := by
  induction l with
  | nil => intro b; rfl
  | cons a tl ih =>
    intro b
    show List.foldl f (f b a) tl = List.foldl g (g b a) tl
    rw [h b a (List.mem_cons_self _ _)]
    exact ih (fun b a ha => h b a (List.mem_cons_of_mem _ ha)) _

theorem cleanupLoopOps_char (impl : Impl) :
    ∀ (ops : List OpS) (Q V : List String),
      (∀ x, x ∈ cleanupLoopOps impl ops Q V → x ∈ Q ∨
        (∃ ent ∈ impl.handle_updates, x ∈ callsStm ent.2) ∨
        (∃ op ∈ ops, ∃ sv ∈ V, x ∈ callsStm (lookupUpdates impl.updates (sv, op.name)))) ∧
      (∃ t, cleanupLoopOps impl ops Q V = Q ++ t) ∧
      (Q.Nodup → (cleanupLoopOps impl ops Q V).Nodup) := by
  intro ops
  induction ops with
  | nil =>
    intro Q V
    exact ⟨fun x hx => Or.inl hx, ⟨[], by simp [cleanupLoopOps]⟩, fun h => h⟩
  | cons op ops ih =>
    intro Q V
    have hunfold : cleanupLoopOps impl (op :: ops) Q V =
        cleanupLoopOps impl ops
          (V.foldl (fun acc sv => addAll acc (callsStm (lookupUpdates impl.updates (sv, op.name))))
            (impl.handle_updates.foldl
              (fun acc ent => if ent.1.2 == op.name then addAll acc (callsStm ent.2) else acc) Q))
          V := rfl
    have hQ2mem : ∀ x, x ∈ impl.handle_updates.foldl
        (fun acc ent => if ent.1.2 == op.name then addAll acc (callsStm ent.2) else acc) Q →
        x ∈ Q ∨ ∃ ent ∈ impl.handle_updates, x ∈ callsStm ent.2 := by
      intro x hx
      rw [if_addAll_eta] at hx
      rcases (mem_foldl_addAll _ _ Q x).mp hx with h | ⟨ent, hent, hx2⟩
      · exact Or.inl h
      · refine Or.inr ⟨ent, hent, ?_⟩
        by_cases hc : (ent.1.2 == op.name) = true
        · simpa [hc] using hx2
        · simp [hc] at hx2
    have hQ3mem : ∀ x, x ∈ V.foldl
        (fun acc sv => addAll acc (callsStm (lookupUpdates impl.updates (sv, op.name))))
        (impl.handle_updates.foldl
          (fun acc ent => if ent.1.2 == op.name then addAll acc (callsStm ent.2) else acc) Q) →
        x ∈ Q ∨ (∃ ent ∈ impl.handle_updates, x ∈ callsStm ent.2) ∨
          ∃ sv ∈ V, x ∈ callsStm (lookupUpdates impl.updates (sv, op.name)) := by
      intro x hx
      rcases (mem_foldl_addAll _ _ _ x).mp hx with h | ⟨sv, hsv, hx2⟩
      · rcases hQ2mem x h with h | h
        · exact Or.inl h
        · exact Or.inr (Or.inl h)
      · exact Or.inr (Or.inr ⟨sv, hsv, hx2⟩)
    obtain ⟨fw, ⟨t, happ⟩, hnod⟩ := ih
      (V.foldl (fun acc sv => addAll acc (callsStm (lookupUpdates impl.updates (sv, op.name))))
        (impl.handle_updates.foldl
          (fun acc ent => if ent.1.2 == op.name then addAll acc (callsStm ent.2) else acc) Q)) V
    refine ⟨?_, ?_, ?_⟩
    · intro x hx
      rw [hunfold] at hx
      rcases fw x hx with h | h | ⟨op', hop', sv, hsv, hx2⟩
      · rcases hQ3mem x h with h | h | ⟨sv, hsv, hx2⟩
        · exact Or.inl h
        · exact Or.inr (Or.inl h)
        · exact Or.inr (Or.inr ⟨op, List.mem_cons_self _ _, sv, hsv, hx2⟩)
      · exact Or.inr (Or.inl h)
      · exact Or.inr (Or.inr ⟨op', List.mem_cons_of_mem _ hop', sv, hsv, hx2⟩)
    · rw [hunfold]
      obtain ⟨t1, h1⟩ : ∃ t1, impl.handle_updates.foldl
          (fun acc ent => if ent.1.2 == op.name then addAll acc (callsStm ent.2) else acc) Q =
          Q ++ t1 := by
        rw [if_addAll_eta]
        exact foldl_addAll_append _ _ Q
      obtain ⟨t2, h2⟩ := foldl_addAll_append
        (fun sv => callsStm (lookupUpdates impl.updates (sv, op.name))) V
        (impl.handle_updates.foldl
          (fun acc ent => if ent.1.2 == op.name then addAll acc (callsStm ent.2) else acc) Q)
      refine ⟨t1 ++ t2 ++ t, ?_⟩
      rw [happ, h2, h1]
      simp [List.append_assoc]
    · intro hQ
      rw [hunfold]
      apply hnod
      apply nodup_foldl_addAll
      rw [if_addAll_eta]
      exact nodup_foldl_addAll _ _ Q hQ

theorem cleanupLoopOps_agree (impl impl' : Impl)
    (hh : impl'.handle_updates = impl.handle_updates) :
    ∀ (ops : List OpS) (Q V : List String),
      (∀ sv ∈ V, ∀ nm, lookupUpdates impl'.updates (sv, nm) =
        lookupUpdates impl.updates (sv, nm)) →
      cleanupLoopOps impl' ops Q V = cleanupLoopOps impl ops Q V := by
  intro ops
  induction ops with
  | nil => intro Q V hV; rfl
  | cons op ops ih =>
    intro Q V hV
    show cleanupLoopOps impl' ops
        (V.foldl (fun acc sv => addAll acc (callsStm (lookupUpdates impl'.updates (sv, op.name))))
          (impl'.handle_updates.foldl
            (fun acc ent => if ent.1.2 == op.name then addAll acc (callsStm ent.2) else acc) Q)) V =
      cleanupLoopOps impl ops
        (V.foldl (fun acc sv => addAll acc (callsStm (lookupUpdates impl.updates (sv, op.name))))
          (impl.handle_updates.foldl
            (fun acc ent => if ent.1.2 == op.name then addAll acc (callsStm ent.2) else acc) Q)) V
    rw [hh]
    rw [foldl_congr_mem V
      (fun acc sv => addAll acc (callsStm (lookupUpdates impl'.updates (sv, op.name))))
      (fun acc sv => addAll acc (callsStm (lookupUpdates impl.updates (sv, op.name))))
      (fun b sv hsv => by simp only [hV sv hsv op.name])]
    exact ih _ V hV

theorem cleanupStep_decompose (impl : Impl) (st st2 : List String × List String)
    (h : cleanupStep impl st = .ok st2) :
    ∃ q1 v1, cleanupLoopQ impl st.1 st.1 st.2 = .ok (q1, v1) ∧
      st2 = (cleanupLoopOps impl (op_specs impl.spec) q1 v1, v1) := by
  obtain ⟨⟨q1, v1⟩, hq, h⟩ := ebind_ok _ _ _ h
  injection h with h
  exact ⟨q1, v1, hq, h.symm⟩

theorem cleanupStep_ok (impl : Impl) (st : List String × List String)
    (hfv : ∀ qn ∈ st.1, ∀ entry,
      List.find? (fun p => p.1 == qn) impl.query_impls = some entry →
      ∃ fvs, free_vars_query entry.2 = .ok fvs) :
    ∃ st2, cleanupStep impl st = .ok st2 := by
  obtain ⟨q1, v1, hq⟩ := cleanupLoopQ_ok impl st.1 st.1 st.2 hfv
  refine ⟨(cleanupLoopOps impl (op_specs impl.spec) q1 v1, v1), ?_⟩
  show (cleanupLoopQ impl st.1 st.1 st.2 >>= fun p =>
    pure (cleanupLoopOps impl (op_specs impl.spec) p.1 p.2, p.2)) = _
  rw [hq]
  rfl

theorem cleanupStep_append (impl : Impl) (st st2 : List String × List String)
    (h : cleanupStep impl st = .ok st2) :
    (∃ t, st2.1 = st.1 ++ t) ∧ (∃ t, st2.2 = st.2 ++ t) := by
  obtain ⟨q1, v1, hq, rfl⟩ := cleanupStep_decompose impl st st2 h
  obtain ⟨-, -, ⟨t1, hq1⟩, ⟨t2, hv1⟩, -, -⟩ := cleanupLoopQ_char impl st.1 st.1 st.2 q1 v1 hq
  obtain ⟨-, ⟨t3, hops⟩, -⟩ := cleanupLoopOps_char impl (op_specs impl.spec) q1 v1
  exact ⟨⟨t1 ++ t3, by show cleanupLoopOps _ _ _ _ = _; rw [hops, hq1, List.append_assoc]⟩,
    ⟨t2, hv1⟩⟩

theorem cleanupStep_nodup (impl : Impl) (st st2 : List String × List String)
    (h : cleanupStep impl st = .ok st2)
    (h1 : st.1.Nodup) (h2 : st.2.Nodup) : st2.1.Nodup ∧ st2.2.Nodup := by
  obtain ⟨q1, v1, hq, rfl⟩ := cleanupStep_decompose impl st st2 h
  obtain ⟨-, -, -, -, hn1, hn2⟩ := cleanupLoopQ_char impl st.1 st.1 st.2 q1 v1 hq
  obtain ⟨-, -, hn3⟩ := cleanupLoopOps_char impl (op_specs impl.spec) q1 v1
  exact ⟨hn3 (hn1 h1), hn2 h2⟩

theorem cleanupStep_grows (st st2 : List String × List String)
    (ha : (∃ t, st2.1 = st.1 ++ t) ∧ (∃ t, st2.2 = st.2 ++ t))
    (hne : st2 ≠ st) :
    st.1.length + st.2.length + 1 ≤ st2.1.length + st2.2.length := by
  obtain ⟨⟨t1, h1⟩, ⟨t2, h2⟩⟩ := ha
  rcases t1 with _ | ⟨a, t1⟩
  · rcases t2 with _ | ⟨b, t2⟩
    · exfalso
      apply hne
      have e1 : st2.1 = st.1 := by simpa using h1
      have e2 : st2.2 = st.2 := by simpa using h2
      exact Prod.ext e1 e2
    · rw [h1, h2]
      simp
      omega
  · rw [h1, h2]
    simp
    omega

theorem cleanupLoop_fix (impl : Impl) :
    ∀ (f : Nat) (st stF : List String × List String),
      cleanupLoop impl f st = .ok stF → cleanupStep impl stF = .ok stF := by
  intro f
  induction f with
  | zero => intro st stF h; cases h
  | succ f ih =>
    intro st stF h
    obtain ⟨st2, hstep, hif⟩ := ebind_ok _ _ _ h
    by_cases he : st2 = st
    · rw [if_pos he] at hif
      injection hif with hif
      subst hif
      rw [hstep, he]
    · rw [if_neg he] at hif
      exact ih st2 stF hif

theorem cleanupLoop_le (impl : Impl) :
    ∀ (f : Nat) (st stF : List String × List String),
      cleanupLoop impl f st = .ok stF →
      (∀ x ∈ st.1, x ∈ stF.1) ∧ (∀ x ∈ st.2, x ∈ stF.2) := by
  intro f
  induction f with
  | zero => intro st stF h; cases h
  | succ f ih =>
    intro st stF h
    obtain ⟨st2, hstep, hif⟩ := ebind_ok _ _ _ h
    by_cases he : st2 = st
    · rw [if_pos he] at hif
      injection hif with hif
      subst hif
      exact ⟨fun x hx => hx, fun x hx => hx⟩
    · rw [if_neg he] at hif
      obtain ⟨h1, h2⟩ := ih st2 stF hif
      obtain ⟨⟨t1, ha1⟩, ⟨t2, ha2⟩⟩ := cleanupStep_append impl st st2 hstep
      exact ⟨fun x hx => h1 x (by rw [ha1]; exact List.mem_append_left _ hx),
        fun x hx => h2 x (by rw [ha2]; exact List.mem_append_left _ hx)⟩

theorem cleanupLoop_replay (impl impl' : Impl) (QP VP : List String)
    (stF : List String × List String)
    (hagree : ∀ st : List String × List String,
      (∀ x ∈ st.1, x ∈ stF.1) → (∀ x ∈ st.2, x ∈ stF.2) →
      cleanupStep impl' st = cleanupStep impl st)
    (hpool : ∀ st st2 : List String × List String,
      cleanupStep impl st = .ok st2 →
      (∀ x ∈ st.1, x ∈ stF.1) → (∀ x ∈ st.2, x ∈ stF.2) →
      (∀ x ∈ st2.1, x ∈ st.1 ∨ x ∈ QP) ∧ (∀ x ∈ st2.2, x ∈ st.2 ∨ x ∈ VP)) :
    ∀ (f : Nat), ∀ (f' : Nat) (st : List String × List String),
      cleanupLoop impl f st = .ok stF →
      st.1.Nodup → st.2.Nodup →
      (∀ x ∈ st.1, x ∈ QP) → (∀ x ∈ st.2, x ∈ VP) →
      QP.length + VP.length + 1 ≤ f' + st.1.length + st.2.length →
      cleanupLoop impl' f' st = .ok stF := by
  intro f
  induction f with
  | zero => intro f' st h; cases h
  | succ f ih =>
    intro f' st h hn1 hn2 hq hv hb
    obtain ⟨hsub1, hsub2⟩ := cleanupLoop_le impl (f + 1) st stF h
    obtain ⟨st2, hstep, hif⟩ := ebind_ok _ _ _ h
    have hstep' : cleanupStep impl' st = .ok st2 := by
      rw [hagree st hsub1 hsub2]
      exact hstep
    rcases f' with _ | f''
    · exfalso
      have hl1 := nodup_length_le st.1 QP hn1 hq
      have hl2 := nodup_length_le st.2 VP hn2 hv
      omega
    · show (cleanupStep impl' st >>= fun st2 =>
        if st2 = st then pure st else cleanupLoop impl' f'' st2) = .ok stF
      rw [hstep']
      simp only [except_bind_ok]
      by_cases he : st2 = st
      · rw [if_pos he] at hif ⊢
        exact hif
      · rw [if_neg he] at hif ⊢
        obtain ⟨hp1, hp2⟩ := hpool st st2 hstep hsub1 hsub2
        obtain ⟨hnn1, hnn2⟩ := cleanupStep_nodup impl st st2 hstep hn1 hn2
        have hgrow := cleanupStep_grows st st2 (cleanupStep_append impl st st2 hstep) he
        refine ih f'' st2 hif hnn1 hnn2 ?_ ?_ (by omega)
        · intro x hx
          rcases hp1 x hx with h | h
          · exact hq x h
          · exact h
        · intro x hx
          rcases hp2 x hx with h | h
          · exact hv x h
          · exact h

theorem cleanupLoop_vok (impl : Impl) :
    ∀ (f : Nat) (st stF : List String × List String),
      cleanupLoop impl f st = .ok stF →
      (∀ v ∈ st.2, ∃ entry ∈ impl.query_impls, entry.1 ∈ stF.1 ∧
        ∃ fvs, free_vars_query entry.2 = .ok fvs ∧ v ∈ fvs) →
      ∀ v ∈ stF.2, ∃ entry ∈ impl.query_impls, entry.1 ∈ stF.1 ∧
        ∃ fvs, free_vars_query entry.2 = .ok fvs ∧ v ∈ fvs := by
  intro f
  induction f with
  | zero => intro st stF h; cases h
  | succ f ih =>
    intro st stF h hst
    obtain ⟨hsub1, hsub2⟩ := cleanupLoop_le impl (f + 1) st stF h
    obtain ⟨st2, hstep, hif⟩ := ebind_ok _ _ _ h
    by_cases he : st2 = st
    · rw [if_pos he] at hif
      injection hif with hif
      subst hif
      exact hst
    · rw [if_neg he] at hif
      refine ih st2 stF hif ?_
      obtain ⟨q1, v1, hq, rfl⟩ := cleanupStep_decompose impl st st2 hstep
      obtain ⟨-, hvmem, -, -, -, -⟩ := cleanupLoopQ_char impl st.1 st.1 st.2 q1 v1 hq
      intro v hvv
      rcases (hvmem v).mp hvv with h2 | ⟨qn, hqn, entry, fvs, hfe, hok, hv2⟩
      · exact hst v h2
      · refine ⟨entry, List.mem_of_find?_eq_some hfe, ?_, fvs, hok, hv2⟩
        have hkey : (entry.1 == qn) = true := by
          have := List.find?_some hfe
          simpa using this
        have : entry.1 = qn := by simpa using hkey
        rw [this]
        exact hsub1 qn hqn

theorem stateKeep_false (qi : List (String × QueryS)) :
    ∀ (v : String), stateKeep qi v = .ok false →
      ∀ p ∈ qi, ∀ fvs, free_vars_query p.2 = .ok fvs → v ∉ fvs := by
  induction qi with
  | nil => intro v h p hp; cases hp
  | cons ent tl ih =>
    intro v h p hp fvs hok hv
    have h2 : (free_vars_query ent.2 >>= fun fvs =>
        if v ∈ fvs then pure true else stateKeep tl v) = .ok false := h
    obtain ⟨fvs0, hok0, h3⟩ := ebind_ok _ _ _ h2
    by_cases hin : v ∈ fvs0
    · rw [if_pos hin] at h3
      cases h3
    · rw [if_neg hin] at h3
      rcases List.mem_cons.mp hp with rfl | hp
      · rw [hok0] at hok
        injection hok with hok
        subst hok
        exact hin hv
      · exact ih v h3 p hp fvs hok hv

theorem stateKeep_found (qi : List (String × QueryS)) (v : String) (b : Bool)
    (h : stateKeep qi v = .ok b)
    (p : String × QueryS) (hp : p ∈ qi) (fvs : List String)
    (hok : free_vars_query p.2 = .ok fvs) (hv : v ∈ fvs) : b = true := by
  cases b
  · exact absurd hv (stateKeep_false qi v h p hp fvs hok)
  · rfl

theorem filterState_char (qi : List (String × QueryS)) :
    ∀ (l kept : List (String × Exp × Ty)),
      filterState qi l = .ok kept →
      (∀ ent ∈ kept, ent ∈ l ∧ stateKeep qi ent.1 = .ok true) ∧
      (∀ ent ∈ l, stateKeep qi ent.1 = .ok true → ent ∈ kept) := by
  intro l
  induction l with
  | nil =>
    intro kept h
    injection h with h
    subst h
    exact ⟨fun ent h => absurd h (List.not_mem_nil ent), fun ent h => absurd h (List.not_mem_nil ent)⟩
  | cons ent0 tl ih =>
    intro kept h
    obtain ⟨k, hk, h2⟩ := ebind_ok _ _ _ h
    obtain ⟨rest, hrest, h3⟩ := ebind_ok _ _ _ h2
    injection h3 with h3
    obtain ⟨hfw, hbw⟩ := ih rest hrest
    cases k
    · simp only [Bool.false_eq_true, if_false] at h3
      subst h3
      refine ⟨?_, ?_⟩
      · intro ent hent
        obtain ⟨h1, h2⟩ := hfw ent hent
        exact ⟨List.mem_cons_of_mem _ h1, h2⟩
      · intro ent hent htrue
        rcases List.mem_cons.mp hent with rfl | hent
        · rw [hk] at htrue
          cases htrue
        · exact hbw ent hent htrue
    · simp only [if_true] at h3
      subst h3
      refine ⟨?_, ?_⟩
      · intro ent hent
        rcases List.mem_cons.mp hent with rfl | hent
        · exact ⟨List.mem_cons_self _ _, hk⟩
        · obtain ⟨h1, h2⟩ := hfw ent hent
          exact ⟨List.mem_cons_of_mem _ h1, h2⟩
      · intro ent hent htrue
        rcases List.mem_cons.mp hent with rfl | hent
        · exact List.mem_cons_self _ _
        · exact List.mem_cons_of_mem _ (hbw ent hent htrue)

theorem filterState_self (qi : List (String × QueryS)) :
    ∀ (kept : List (String × Exp × Ty)),
      (∀ ent ∈ kept, stateKeep qi ent.1 = .ok true) →
      filterState qi kept = .ok kept := by
  intro kept
  induction kept with
  | nil => intro h; rfl
  | cons ent tl ih =>
    intro h
    show (stateKeep qi ent.1 >>= fun k =>
      filterState qi tl >>= fun rest => pure (if k then ent :: rest else rest)) = _
    rw [h ent (List.mem_cons_self _ _)]
    simp only [except_bind_ok]
    rw [ih (fun e he => h e (List.mem_cons_of_mem _ he))]
    simp

theorem filterMap_filter_eq {α β : Type} (pick : α → Option β) (keep : α → Bool)
    (l : List α) (h : ∀ a ∈ l, (∃ b, pick a = some b) → keep a = true) :
    (l.filter keep).filterMap pick = l.filterMap pick := by
  induction l with
  | nil => rfl
  | cons a tl ih =>
    have ih2 := ih (fun x hx => h x (List.mem_cons_of_mem _ hx))
    rcases hp : pick a with _ | b
    · by_cases hk : keep a = true
      · rw [List.filter_cons_of_pos hk, List.filterMap_cons_none hp,
          List.filterMap_cons_none hp, ih2]
      · rw [List.filter_cons_of_neg (by simpa using hk), List.filterMap_cons_none hp, ih2]
    · have hk : keep a = true := h a (List.mem_cons_self _ _) ⟨b, hp⟩
      rw [List.filter_cons_of_pos hk, List.filterMap_cons_some hp,
        List.filterMap_cons_some hp, ih2]

theorem mem_publicNames (impl : Impl) (q : QueryS)
    (hq : q ∈ impl.query_specs) (hvis : q.visibility = Vis.Public) :
    q.name ∈ publicNames impl := by
  unfold publicNames
  rw [mem_addAll]
  refine Or.inr ?_
  rw [List.mem_filterMap]
  exact ⟨q, hq, by rw [hvis]; rfl⟩

theorem publicNames_nodup (impl : Impl) : (publicNames impl).Nodup := by
  unfold publicNames
  exact nodup_addAll _ [] List.nodup_nil

theorem filterState_runs (qi : List (String × QueryS)) :
    ∀ (l kept : List (String × Exp × Ty)),
      filterState qi l = .ok kept →
      ∀ ent ∈ l, ∃ b, stateKeep qi ent.1 = .ok b := by
  intro l
  induction l with
  | nil => intro kept h ent hent; cases hent
  | cons ent0 tl ih =>
    intro kept h ent hent
    obtain ⟨k, hk, h2⟩ := ebind_ok _ _ _ h
    obtain ⟨rest, hrest, h3⟩ := ebind_ok _ _ _ h2
    rcases List.mem_cons.mp hent with rfl | hent
    · exact ⟨k, hk⟩
    · exact ih rest hrest ent hent

/-- Claim C3: cleanup is idempotent (under the construction invariant
that every updates key names a concrete-state variable), never removes
a Public query from query_specs or query_impls, and the retained
queries are exactly those whose names are in the marked set computed by
iterating the reachability step from the Public query names to a fixed
point, with the concrete state swept down to the entries free in some
retained implementation. -/
theorem cleanup_spec (impl impl' : Impl)
    (hwf : ∀ p ∈ impl.updates, p.1.1 ∈ impl.concrete_state.map (fun ent => ent.1))
    (h : cleanup impl = .ok impl') :
    cleanup impl' = .ok impl' ∧
    (∀ q ∈ impl.query_specs, q.visibility = Vis.Public → q ∈ impl'.query_specs) ∧
    (∀ p ∈ impl.query_impls,
       (∃ q ∈ impl.query_specs, q.name = p.1 ∧ q.visibility = Vis.Public) →
       p ∈ impl'.query_impls) ∧
    (∃ stF, cleanupLoop impl (cleanupFuel impl) (publicNames impl, []) = .ok stF ∧
       cleanupStep impl stF = .ok stF ∧
       impl'.query_specs = impl.query_specs.filter (fun q => q.name ∈ stF.1) ∧
       impl'.query_impls = impl.query_impls.filter (fun p => p.1 ∈ stF.1) ∧
       (∀ ent ∈ impl.concrete_state,
         ent ∈ impl'.concrete_state ↔ stateKeep impl'.query_impls ent.1 = .ok true)) := by
  obtain ⟨stF, hloop, h2⟩ := ebind_ok _ _ _ h
  obtain ⟨kept, hfs, h3⟩ := ebind_ok _ _ _ h2
  injection h3 with h3
  have hqs3 : impl'.query_specs =
      impl.query_specs.filter (fun q => decide (q.name ∈ stF.1)) := by rw [← h3]
  have hqi3 : impl'.query_impls =
      impl.query_impls.filter (fun p => decide (p.1 ∈ stF.1)) := by rw [← h3]
  have hcs3 : impl'.concrete_state = kept := by rw [← h3]
  have hup3 : impl'.updates = impl.updates.filter
      (fun p => decide (p.1.1 ∈ kept.map (fun ent => ent.1))) := by rw [← h3]
  have hhu3 : impl'.handle_updates = impl.handle_updates := by rw [← h3]
  have hsp3 : impl'.spec = impl.spec := by rw [← h3]
  have hfix := cleanupLoop_fix impl _ _ _ hloop
  have hle0 := cleanupLoop_le impl _ _ _ hloop
  have hpub : ∀ x ∈ publicNames impl, x ∈ stF.1 := hle0.1
  have hvok := cleanupLoop_vok impl _ _ _ hloop
    (fun v hv => absurd hv (List.not_mem_nil v))
  obtain ⟨qF, vF, hqF, hstel⟩ := cleanupStep_decompose impl stF stF hfix
  have hvF : stF.2 = vF := congrArg Prod.snd hstel
  have hupdkeep : ∀ p ∈ impl.updates, p.1.1 ∈ stF.2 →
      decide (p.1.1 ∈ kept.map (fun ent => ent.1)) = true := by
    intro p hp hmem
    have hcs := hwf p hp
    rw [List.mem_map] at hcs
    obtain ⟨ent, hent, hname⟩ := hcs
    obtain ⟨qentry, hqe, hqeK, fvs, hfok, hfv⟩ := hvok p.1.1 hmem
    have hqe2 : qentry ∈ impl.query_impls.filter (fun p => decide (p.1 ∈ stF.1)) := by
      rw [List.mem_filter]
      exact ⟨hqe, by simpa using hqeK⟩
    obtain ⟨b, hb⟩ := filterState_runs _ _ _ hfs ent hent
    rw [hname] at hb
    have hbt := stateKeep_found _ _ _ hb qentry hqe2 fvs hfok hfv
    subst hbt
    have hkept : ent ∈ kept := (filterState_char _ _ _ hfs).2 ent hent (by rw [hname]; exact hb)
    simp only [decide_eq_true_eq]
    rw [List.mem_map]
    exact ⟨ent, hkept, hname⟩
  have hlookup : ∀ sv ∈ stF.2, ∀ nm : String,
      lookupUpdates impl'.updates (sv, nm) = lookupUpdates impl.updates (sv, nm) := by
    intro sv hsv nm
    rw [hup3]
    unfold lookupUpdates
    rw [find?_filter_key impl.updates (sv, nm) _ ?_]
    intro p hp hpk
    apply hupdkeep p hp
    rw [hpk]
    exact hsv
  have hv1bound : ∀ (st : List String × List String) (q1 v1 : List String),
      (∀ x ∈ st.1, x ∈ stF.1) → (∀ x ∈ st.2, x ∈ stF.2) →
      cleanupLoopQ impl st.1 st.1 st.2 = .ok (q1, v1) → ∀ v ∈ v1, v ∈ stF.2 := by
    intro st q1 v1 hs1 hs2 hq v hv
    obtain ⟨-, hvc, -, -, -, -⟩ := cleanupLoopQ_char impl st.1 st.1 st.2 q1 v1 hq
    rcases (hvc v).mp hv with hmem | ⟨qn, hqn, entry, fvs, hfe, hok, hvf⟩
    · exact hs2 v hmem
    · obtain ⟨-, hvcF, -, -, -, -⟩ := cleanupLoopQ_char impl stF.1 stF.1 stF.2 qF vF hqF
      have hin : v ∈ vF := (hvcF v).mpr (Or.inr ⟨qn, hs1 qn hqn, entry, fvs, hfe, hok, hvf⟩)
      rw [hvF]
      exact hin
  have hagree : ∀ st : List String × List String,
      (∀ x ∈ st.1, x ∈ stF.1) → (∀ x ∈ st.2, x ∈ stF.2) →
      cleanupStep impl' st = cleanupStep impl st := by
    intro st hs1 hs2
    have hQeq : cleanupLoopQ impl' st.1 st.1 st.2 = cleanupLoopQ impl st.1 st.1 st.2 :=
      cleanupLoopQ_agree impl impl' stF.1 hqi3 st.1 st.1 st.2 hs1
    show (cleanupLoopQ impl' st.1 st.1 st.2 >>= fun p =>
        pure (cleanupLoopOps impl' (op_specs impl'.spec) p.1 p.2, p.2)) =
      (cleanupLoopQ impl st.1 st.1 st.2 >>= fun p =>
        pure (cleanupLoopOps impl (op_specs impl.spec) p.1 p.2, p.2))
    rw [hQeq, hsp3]
    rcases hq : cleanupLoopQ impl st.1 st.1 st.2 with _ | ⟨q1, v1⟩
    · rfl
    · simp only [except_bind_ok]
      have hv1 : ∀ v ∈ v1, v ∈ stF.2 := hv1bound st q1 v1 hs1 hs2 hq
      rw [cleanupLoopOps_agree impl impl' hhu3 (op_specs impl.spec) q1 v1
        (fun sv hsv nm => hlookup sv (hv1 sv hsv) nm)]
  have hpool : ∀ st st2 : List String × List String,
      cleanupStep impl st = .ok st2 →
      (∀ x ∈ st.1, x ∈ stF.1) → (∀ x ∈ st.2, x ∈ stF.2) →
      (∀ x ∈ st2.1, x ∈ st.1 ∨ x ∈ publicNames impl' ++ cleanupQPool impl') ∧
      (∀ x ∈ st2.2, x ∈ st.2 ∨ x ∈ cleanupVPool impl') := by
    intro st st2 hstep hs1 hs2
    obtain ⟨q1, v1, hq, rfl⟩ := cleanupStep_decompose impl st st2 hstep
    obtain ⟨hqm, hvm, -, -, -, -⟩ := cleanupLoopQ_char impl st.1 st.1 st.2 q1 v1 hq
    obtain ⟨hom, -, -⟩ := cleanupLoopOps_char impl (op_specs impl.spec) q1 v1
    constructor
    · intro x hx
      rcases hom x hx with hxq | ⟨ent, hent, hxs⟩ | ⟨op, hop, sv, hsv, hxs⟩
      · rcases hqm x hxq with hmem | ⟨qn, hqn, entry, hfe, hxc⟩
        · exact Or.inl hmem
        · refine Or.inr (List.mem_append_right _ ?_)
          unfold cleanupQPool
          refine List.mem_append_left _ (List.mem_append_left _ ?_)
          rw [List.mem_flatten]
          refine ⟨callsDeepExp entry.2.ret, ?_, hxc⟩
          rw [List.mem_map]
          refine ⟨entry, ?_, rfl⟩
          rw [hqi3, List.mem_filter]
          have hkey : entry.1 = qn := by
            have := List.find?_some hfe
            simpa using this
          exact ⟨List.mem_of_find?_eq_some hfe, by rw [hkey]; simpa using hs1 qn hqn⟩
      · refine Or.inr (List.mem_append_right _ ?_)
        unfold cleanupQPool
        refine List.mem_append_left _ (List.mem_append_right _ ?_)
        rw [List.mem_flatten]
        refine ⟨callsStm ent.2, ?_, hxs⟩
        rw [List.mem_map]
        refine ⟨ent, ?_, rfl⟩
        rw [hhu3]
        exact hent
      · have hsvF : sv ∈ stF.2 := hv1bound st q1 v1 hs1 hs2 hq sv hsv
        rcases hfind : List.find? (fun p => p.1 == (sv, op.name)) impl.updates with _ | entry
        · exfalso
          rw [show lookupUpdates impl.updates (sv, op.name) = Stm.SNoOp from by
            unfold lookupUpdates; rw [hfind]; rfl] at hxs
          cases hxs
        · have hent : entry ∈ impl.updates := List.mem_of_find?_eq_some hfind
          have hkey : entry.1 = (sv, op.name) := by
            have := List.find?_some hfind
            simpa using this
          have hxs2 : x ∈ callsStm entry.2 := by
            rw [show lookupUpdates impl.updates (sv, op.name) = entry.2 from by
              unfold lookupUpdates; rw [hfind]; rfl] at hxs
            exact hxs
          refine Or.inr (List.mem_append_right _ ?_)
          unfold cleanupQPool
          refine List.mem_append_right _ ?_
          rw [List.mem_flatten]
          refine ⟨callsStm entry.2, ?_, hxs2⟩
          rw [List.mem_map]
          refine ⟨entry, ?_, rfl⟩
          rw [hup3, List.mem_filter]
          refine ⟨hent, hupdkeep entry hent ?_⟩
          rw [hkey]
          exact hsvF
    · intro v hv
      rcases (hvm v).mp hv with hmem | ⟨qn, hqn, entry, fvs, hfe, hok, hvf⟩
      · exact Or.inl hmem
      · refine Or.inr ?_
        unfold cleanupVPool
        rw [List.mem_flatten]
        refine ⟨fvs, ?_, hvf⟩
        rw [List.mem_map]
        refine ⟨entry, ?_, by rw [hok]; rfl⟩
        rw [hqi3, List.mem_filter]
        have hkey : entry.1 = qn := by
          have := List.find?_some hfe
          simpa using this
        exact ⟨List.mem_of_find?_eq_some hfe, by rw [hkey]; simpa using hs1 qn hqn⟩
  have hpubeq : publicNames impl' = publicNames impl := by
    unfold publicNames
    rw [hqs3]
    rw [filterMap_filter_eq _ _ _ ?_]
    intro q hq hex
    by_cases hv : q.visibility = Vis.Public
    · simp only [decide_eq_true_eq]
      exact hpub q.name (mem_publicNames impl q hq hv)
    · exfalso
      obtain ⟨b, hb⟩ := hex
      rw [if_neg hv] at hb
      cases hb
  have hreplay : cleanupLoop impl' (cleanupFuel impl') (publicNames impl, []) = .ok stF := by
    apply cleanupLoop_replay impl impl' (publicNames impl' ++ cleanupQPool impl')
      (cleanupVPool impl') stF hagree hpool (cleanupFuel impl) (cleanupFuel impl')
      (publicNames impl, []) hloop (publicNames_nodup impl) List.nodup_nil
    · intro x hx
      rw [← hpubeq] at hx
      exact List.mem_append_left _ hx
    · intro x hx
      cases hx
    · show (publicNames impl' ++ cleanupQPool impl').length + (cleanupVPool impl').length + 1 ≤
        cleanupFuel impl' + (publicNames impl).length + List.length []
      rw [List.length_append]
      unfold cleanupFuel
      omega
  have hkeeps : ∀ ent ∈ kept, stateKeep impl'.query_impls ent.1 = .ok true := by
    intro ent hent
    rw [hqi3]
    exact ((filterState_char _ _ _ hfs).1 ent hent).2
  refine ⟨?_, ?_, ?_, stF, hloop, hfix, hqs3, hqi3, ?_⟩
  · show (cleanupLoop impl' (cleanupFuel impl') (publicNames impl', []) >>= fun stF2 =>
      (filterState (impl'.query_impls.filter (fun p => decide (p.1 ∈ stF2.1)))
          impl'.concrete_state >>= fun kept2 =>
        pure { impl' with
               query_specs := impl'.query_specs.filter (fun q => decide (q.name ∈ stF2.1)),
               query_impls := impl'.query_impls.filter (fun p => decide (p.1 ∈ stF2.1)),
               concrete_state := kept2,
               updates := impl'.updates.filter
                 (fun p => decide (p.1.1 ∈ kept2.map (fun ent => ent.1))) })) = .ok impl'
    rw [hpubeq, hreplay]
    simp only [except_bind_ok]
    have hqif : impl'.query_impls.filter (fun p => decide (p.1 ∈ stF.1)) = impl'.query_impls := by
      apply filter_self_of_all
      intro p hp
      rw [hqi3] at hp
      rw [List.mem_filter] at hp
      exact hp.2
    rw [hqif, hcs3, filterState_self impl'.query_impls kept hkeeps]
    simp only [except_bind_ok]
    have hqsf : impl'.query_specs.filter (fun q => decide (q.name ∈ stF.1)) =
        impl'.query_specs := by
      apply filter_self_of_all
      intro q hq
      rw [hqs3] at hq
      rw [List.mem_filter] at hq
      exact hq.2
    have hupf : impl'.updates.filter
        (fun p => decide (p.1.1 ∈ kept.map (fun ent => ent.1))) = impl'.updates := by
      apply filter_self_of_all
      intro p hp
      rw [hup3] at hp
      rw [List.mem_filter] at hp
      exact hp.2
    rw [hqsf, hupf, ← hcs3]
    rfl
  · intro q hq hvis
    rw [hqs3, List.mem_filter]
    exact ⟨hq, by simpa using hpub q.name (mem_publicNames impl q hq hvis)⟩
  · intro p hp hex
    obtain ⟨q, hq, hname, hvis⟩ := hex
    rw [hqi3, List.mem_filter]
    refine ⟨hp, ?_⟩
    rw [← hname]
    simpa using hpub q.name (mem_publicNames impl q hq hvis)
  · intro ent hent
    constructor
    · intro hin
      rw [hcs3] at hin
      exact hkeeps ent hin
    · intro hsk
      rw [hcs3]
      rw [hqi3] at hsk
      exact (filterState_char _ _ _ hfs).2 ent hent hsk

theorem cleanup_spec_witness :
    (∀ p ∈ (⟨⟨"S", [("cv", TInt)], [], [Method.op ⟨"op1", [], [], Stm.SNoOp⟩]⟩,
      [("cv", ENum 0, TInt)],
      [⟨"q", Vis.Public, [], [], EVar "cv"⟩],
      [("q", ⟨"q", Vis.Public, [], [], EVar "cv"⟩)],
      [(("cv", "op1"), Stm.SNoOp)], []⟩ : Impl).updates, p.1.1 ∈ (⟨⟨"S", [("cv", TInt)], [], [Method.op ⟨"op1", [], [], Stm.SNoOp⟩]⟩,
      [("cv", ENum 0, TInt)],
      [⟨"q", Vis.Public, [], [], EVar "cv"⟩],
      [("q", ⟨"q", Vis.Public, [], [], EVar "cv"⟩)],
      [(("cv", "op1"), Stm.SNoOp)], []⟩ : Impl).concrete_state.map (fun ent => ent.1)) ∧
    cleanup (⟨⟨"S", [("cv", TInt)], [], [Method.op ⟨"op1", [], [], Stm.SNoOp⟩]⟩,
      [("cv", ENum 0, TInt)],
      [⟨"q", Vis.Public, [], [], EVar "cv"⟩],
      [("q", ⟨"q", Vis.Public, [], [], EVar "cv"⟩)],
      [(("cv", "op1"), Stm.SNoOp)], []⟩ : Impl) = .ok (⟨⟨"S", [("cv", TInt)], [], [Method.op ⟨"op1", [], [], Stm.SNoOp⟩]⟩,
      [("cv", ENum 0, TInt)],
      [⟨"q", Vis.Public, [], [], EVar "cv"⟩],
      [("q", ⟨"q", Vis.Public, [], [], EVar "cv"⟩)],
      [(("cv", "op1"), Stm.SNoOp)], []⟩ : Impl) ∧
    (cleanup (⟨⟨"S", [("cv", TInt)], [], [Method.op ⟨"op1", [], [], Stm.SNoOp⟩]⟩,
      [("cv", ENum 0, TInt)],
      [⟨"q", Vis.Public, [], [], EVar "cv"⟩],
      [("q", ⟨"q", Vis.Public, [], [], EVar "cv"⟩)],
      [(("cv", "op1"), Stm.SNoOp)], []⟩ : Impl) = .ok (⟨⟨"S", [("cv", TInt)], [], [Method.op ⟨"op1", [], [], Stm.SNoOp⟩]⟩,
      [("cv", ENum 0, TInt)],
      [⟨"q", Vis.Public, [], [], EVar "cv"⟩],
      [("q", ⟨"q", Vis.Public, [], [], EVar "cv"⟩)],
      [(("cv", "op1"), Stm.SNoOp)], []⟩ : Impl) ∧
     (∀ q ∈ (⟨⟨"S", [("cv", TInt)], [], [Method.op ⟨"op1", [], [], Stm.SNoOp⟩]⟩,
      [("cv", ENum 0, TInt)],
      [⟨"q", Vis.Public, [], [], EVar "cv"⟩],
      [("q", ⟨"q", Vis.Public, [], [], EVar "cv"⟩)],
      [(("cv", "op1"), Stm.SNoOp)], []⟩ : Impl).query_specs, q.visibility = Vis.Public → q ∈ (⟨⟨"S", [("cv", TInt)], [], [Method.op ⟨"op1", [], [], Stm.SNoOp⟩]⟩,
      [("cv", ENum 0, TInt)],
      [⟨"q", Vis.Public, [], [], EVar "cv"⟩],
      [("q", ⟨"q", Vis.Public, [], [], EVar "cv"⟩)],
      [(("cv", "op1"), Stm.SNoOp)], []⟩ : Impl).query_specs) ∧
     (∀ p ∈ (⟨⟨"S", [("cv", TInt)], [], [Method.op ⟨"op1", [], [], Stm.SNoOp⟩]⟩,
      [("cv", ENum 0, TInt)],
      [⟨"q", Vis.Public, [], [], EVar "cv"⟩],
      [("q", ⟨"q", Vis.Public, [], [], EVar "cv"⟩)],
      [(("cv", "op1"), Stm.SNoOp)], []⟩ : Impl).query_impls,
        (∃ q ∈ (⟨⟨"S", [("cv", TInt)], [], [Method.op ⟨"op1", [], [], Stm.SNoOp⟩]⟩,
      [("cv", ENum 0, TInt)],
      [⟨"q", Vis.Public, [], [], EVar "cv"⟩],
      [("q", ⟨"q", Vis.Public, [], [], EVar "cv"⟩)],
      [(("cv", "op1"), Stm.SNoOp)], []⟩ : Impl).query_specs, q.name = p.1 ∧ q.visibility = Vis.Public) →
        p ∈ (⟨⟨"S", [("cv", TInt)], [], [Method.op ⟨"op1", [], [], Stm.SNoOp⟩]⟩,
      [("cv", ENum 0, TInt)],
      [⟨"q", Vis.Public, [], [], EVar "cv"⟩],
      [("q", ⟨"q", Vis.Public, [], [], EVar "cv"⟩)],
      [(("cv", "op1"), Stm.SNoOp)], []⟩ : Impl).query_impls) ∧
     (∃ stF, cleanupLoop (⟨⟨"S", [("cv", TInt)], [], [Method.op ⟨"op1", [], [], Stm.SNoOp⟩]⟩,
      [("cv", ENum 0, TInt)],
      [⟨"q", Vis.Public, [], [], EVar "cv"⟩],
      [("q", ⟨"q", Vis.Public, [], [], EVar "cv"⟩)],
      [(("cv", "op1"), Stm.SNoOp)], []⟩ : Impl) (cleanupFuel (⟨⟨"S", [("cv", TInt)], [], [Method.op ⟨"op1", [], [], Stm.SNoOp⟩]⟩,
      [("cv", ENum 0, TInt)],
      [⟨"q", Vis.Public, [], [], EVar "cv"⟩],
      [("q", ⟨"q", Vis.Public, [], [], EVar "cv"⟩)],
      [(("cv", "op1"), Stm.SNoOp)], []⟩ : Impl)) (publicNames (⟨⟨"S", [("cv", TInt)], [], [Method.op ⟨"op1", [], [], Stm.SNoOp⟩]⟩,
      [("cv", ENum 0, TInt)],
      [⟨"q", Vis.Public, [], [], EVar "cv"⟩],
      [("q", ⟨"q", Vis.Public, [], [], EVar "cv"⟩)],
      [(("cv", "op1"), Stm.SNoOp)], []⟩ : Impl), []) = .ok stF ∧
        cleanupStep (⟨⟨"S", [("cv", TInt)], [], [Method.op ⟨"op1", [], [], Stm.SNoOp⟩]⟩,
      [("cv", ENum 0, TInt)],
      [⟨"q", Vis.Public, [], [], EVar "cv"⟩],
      [("q", ⟨"q", Vis.Public, [], [], EVar "cv"⟩)],
      [(("cv", "op1"), Stm.SNoOp)], []⟩ : Impl) stF = .ok stF ∧
        (⟨⟨"S", [("cv", TInt)], [], [Method.op ⟨"op1", [], [], Stm.SNoOp⟩]⟩,
      [("cv", ENum 0, TInt)],
      [⟨"q", Vis.Public, [], [], EVar "cv"⟩],
      [("q", ⟨"q", Vis.Public, [], [], EVar "cv"⟩)],
      [(("cv", "op1"), Stm.SNoOp)], []⟩ : Impl).query_specs = (⟨⟨"S", [("cv", TInt)], [], [Method.op ⟨"op1", [], [], Stm.SNoOp⟩]⟩,
      [("cv", ENum 0, TInt)],
      [⟨"q", Vis.Public, [], [], EVar "cv"⟩],
      [("q", ⟨"q", Vis.Public, [], [], EVar "cv"⟩)],
      [(("cv", "op1"), Stm.SNoOp)], []⟩ : Impl).query_specs.filter (fun q => q.name ∈ stF.1) ∧
        (⟨⟨"S", [("cv", TInt)], [], [Method.op ⟨"op1", [], [], Stm.SNoOp⟩]⟩,
      [("cv", ENum 0, TInt)],
      [⟨"q", Vis.Public, [], [], EVar "cv"⟩],
      [("q", ⟨"q", Vis.Public, [], [], EVar "cv"⟩)],
      [(("cv", "op1"), Stm.SNoOp)], []⟩ : Impl).query_impls = (⟨⟨"S", [("cv", TInt)], [], [Method.op ⟨"op1", [], [], Stm.SNoOp⟩]⟩,
      [("cv", ENum 0, TInt)],
      [⟨"q", Vis.Public, [], [], EVar "cv"⟩],
      [("q", ⟨"q", Vis.Public, [], [], EVar "cv"⟩)],
      [(("cv", "op1"), Stm.SNoOp)], []⟩ : Impl).query_impls.filter (fun p => p.1 ∈ stF.1) ∧
        (∀ ent ∈ (⟨⟨"S", [("cv", TInt)], [], [Method.op ⟨"op1", [], [], Stm.SNoOp⟩]⟩,
      [("cv", ENum 0, TInt)],
      [⟨"q", Vis.Public, [], [], EVar "cv"⟩],
      [("q", ⟨"q", Vis.Public, [], [], EVar "cv"⟩)],
      [(("cv", "op1"), Stm.SNoOp)], []⟩ : Impl).concrete_state,
          ent ∈ (⟨⟨"S", [("cv", TInt)], [], [Method.op ⟨"op1", [], [], Stm.SNoOp⟩]⟩,
      [("cv", ENum 0, TInt)],
      [⟨"q", Vis.Public, [], [], EVar "cv"⟩],
      [("q", ⟨"q", Vis.Public, [], [], EVar "cv"⟩)],
      [(("cv", "op1"), Stm.SNoOp)], []⟩ : Impl).concrete_state ↔ stateKeep (⟨⟨"S", [("cv", TInt)], [], [Method.op ⟨"op1", [], [], Stm.SNoOp⟩]⟩,
      [("cv", ENum 0, TInt)],
      [⟨"q", Vis.Public, [], [], EVar "cv"⟩],
      [("q", ⟨"q", Vis.Public, [], [], EVar "cv"⟩)],
      [(("cv", "op1"), Stm.SNoOp)], []⟩ : Impl).query_impls ent.1 = .ok true))) :=
  ⟨by decide, by decide,
   cleanup_spec (⟨⟨"S", [("cv", TInt)], [], [Method.op ⟨"op1", [], [], Stm.SNoOp⟩]⟩,
      [("cv", ENum 0, TInt)],
      [⟨"q", Vis.Public, [], [], EVar "cv"⟩],
      [("q", ⟨"q", Vis.Public, [], [], EVar "cv"⟩)],
      [(("cv", "op1"), Stm.SNoOp)], []⟩ : Impl) (⟨⟨"S", [("cv", TInt)], [], [Method.op ⟨"op1", [], [], Stm.SNoOp⟩]⟩,
      [("cv", ENum 0, TInt)],
      [⟨"q", Vis.Public, [], [], EVar "cv"⟩],
      [("q", ⟨"q", Vis.Public, [], [], EVar "cv"⟩)],
      [(("cv", "op1"), Stm.SNoOp)], []⟩ : Impl) (by decide) (by decide)⟩
